import Mathlib

/-!
# felipeblassioli/vwap: sliding-window VWAP calculator

A shallow embedding of `pkg/ringbuf/ringbuf.go`, of `pkg/vwap/vwap..go` and of
Subscribe, matchWatcher and Stop of `pkg/coinbase`, and the properties of the
three packages that the specification states.

* Go `int` fields of the ring buffer are natural numbers: `make([]T, maxCap)`
  traps on a negative capacity, so no negative value is ever stored, and every
  stored value is bounded by the length of a slice, so no arithmetic wraps.
* A Go panic is the result `none`; a call that returns gives `some` of the new
  state and of the returned values. The mutexes are not modelled: a calculator is
  driven by one goroutine at a time.
* `*big.Float` is a pointer: the ring buffers of the calculator hold
  `Option F`, where `none` is the nil pointer that `make` fills a slice with.
* The arithmetic of `math/big` is not part of the repository. `Update` takes it as
  a parameter (`FloatOps`); `big.big53` is a model of it at precision 53.
* The websocket connection is not part of the repository either: the functions
  of `pkg/coinbase` take the results of its writes and reads as arguments, and the
  channels of a subscription are a state on which every send, receive and close
  of the source is a step that returns, waits or panics.
-/

set_option autoImplicit false
set_option maxRecDepth 100000
set_option linter.dupNamespace false
set_option linter.unnecessarySeqFocus false

/-! ## Definitions -/

namespace ringbuf

/-- RingBuffer of `ringbuf.go`, lines 9-17 (the mutex left out). -/
structure RingBuffer (T : Type) where
  buf : List T
  count : Nat
  end_ : Nat
  start : Nat
  maxCap : Nat
deriving DecidableEq, Repr

variable {T : Type}

/-- NewRingBuffer, `ringbuf.go` lines 20-27: `make([]T, maxCap)` is a slice of
`maxCap` zero values; `count` is left at its zero value. -/
def NewRingBuffer [Inhabited T] (maxCap : Nat) : RingBuffer T :=
  { buf := List.replicate maxCap default
    count := 0
    end_ := 0
    start := 0
    maxCap := maxCap }

/-- PushBack, `ringbuf.go` lines 31-40. `r.buf[r.end] = item` traps when the index
is out of range (in particular when the slice is empty); after it the length is
positive and `r.end %= len(r.buf)` cannot divide by zero. -/
def RingBuffer.PushBack (r : RingBuffer T) (item : T) : Option (RingBuffer T) :=
  if r.end_ < r.buf.length then
    let buf := r.buf.set r.end_ item
    let e := (r.end_ + 1) % buf.length
    let count := if r.count < r.maxCap then r.count + 1 else r.count
    some { r with buf := buf, end_ := e, count := count }
  else
    none

/-- PopFront, `ringbuf.go` lines 44-56: traps on an empty buffer (line 45), and on
an index out of range at `r.buf[r.start]`. -/
def RingBuffer.PopFront (r : RingBuffer T) : Option (T × RingBuffer T) :=
  if r.count ≤ 0 then
    none
  else
    match r.buf[r.start]? with
    | none => none
    | some item =>
      some (item, { r with start := (r.start + 1) % r.buf.length, count := r.count - 1 })

/-- Len on a non-nil receiver, `ringbuf.go` line 64. -/
def RingBuffer.Len (r : RingBuffer T) : Nat := r.count

/-- Len on a pointer receiver, `ringbuf.go` lines 60-65: zero for nil. -/
def Len (r : Option (RingBuffer T)) : Nat :=
  match r with
  | none => 0
  | some b => b.count

/-- PushBack of every item of a list, in order, with no pop in between. -/
def RingBuffer.PushBackAll (r : RingBuffer T) : List T → Option (RingBuffer T)
  | [] => some r
  | x :: xs => (r.PushBack x).bind (fun r1 => r1.PushBackAll xs)

/-- The results of `n` successive PopFront calls, first call first. -/
def RingBuffer.PopFrontN (r : RingBuffer T) : Nat → Option (List T × RingBuffer T)
  | 0 => some ([], r)
  | n + 1 =>
    (r.PopFront).bind (fun p =>
      (p.2.PopFrontN n).map (fun q => (p.1 :: q.1, q.2)))

/-- The queue a buffer stands for: the `count` slots from `start` on, wrapping at
the end of the slice, oldest first. -/
def RingBuffer.items [Inhabited T] (r : RingBuffer T) : List T :=
  (List.range r.count).map (fun i => r.buf.getD ((r.start + i) % r.buf.length) default)

/-- Shape of a buffer of capacity `n` that has never been pushed while full:
`end` is `count` slots after `start`. -/
def RingBuffer.WF (r : RingBuffer T) (n : Nat) : Prop :=
  r.buf.length = n ∧ r.maxCap = n ∧ r.count ≤ n ∧ r.start < n ∧
    r.end_ = (r.start + r.count) % n

end ringbuf

namespace vwap

open ringbuf

/-- floatParseError, `vwap..go` lines 58-62. -/
structure floatParseError where
  msg : String
  value : String
deriving DecidableEq, Repr

/-- ErrFloatParse, `vwap..go` line 55: the `value` field is not set. -/
def ErrFloatParse : floatParseError :=
  { msg := "failed to parse value into float", value := "" }

/-- Error method, `vwap..go` line 64. -/
def floatParseError.Error (e : floatParseError) : String := e.msg

/-- Value method, `vwap..go` line 67. -/
def floatParseError.Value (e : floatParseError) : String := e.value

/-- The error `fmt.Errorf` builds for a format with one `%w` verb: its message and
the error it wraps. -/
structure wrapError where
  msg : String
  err : floatParseError
deriving DecidableEq, Repr

/-- Error method of the wrapping error. -/
def wrapError.Error (e : wrapError) : String := e.msg

/-- Unwrap method of the wrapping error. -/
def wrapError.Unwrap (e : wrapError) : floatParseError := e.err

/-- The call `fmt.Errorf("%w" + sep + "%s", err, s)`: the message is the wrapped
error's message, the separator and the text. -/
def Errorf (err : floatParseError) (sep : String) (s : String) : wrapError :=
  { msg := err.Error ++ sep ++ s, err := err }

/-- The call `errors.Is(err, target)` for a wrapping error and a
`floatParseError` target: the two differ in type, so the chain is followed once
and the wrapped value is compared with the target. -/
def errorsIs (err : wrapError) (target : floatParseError) : Bool :=
  decide (err.Unwrap = target)

/-- The operations of `math/big` that the calculator calls on floats of precision
`prec` and rounding mode `mode` (`vwap..go` lines 47-52). An operation that
panics with `ErrNaN` returns `none`. -/
structure FloatOps (F : Type) where
  /-- The value of `new(big.Float).SetPrec(prec).SetMode(mode)`. -/
  zero : F
  /-- SetString on a new float; `none` when the second result is false. -/
  SetString : String → Option F
  Mul : F → F → Option F
  Add : F → F → Option F
  Sub : F → F → Option F
  Quo : F → F → Option F
  /-- Text with format `'f'` and the given number of digits. -/
  TextF : F → Nat → String

/-- numPrecDigits, `vwap..go` line 51. -/
def numPrecDigits : Nat := 16

/-- Calculator, `vwap..go` lines 14-39 (the mutex left out). -/
structure Calculator (F : Type) where
  windowWidth : Nat
  pqs : RingBuffer (Option F)
  cumulativeTypicalPrice : F
  qs : RingBuffer (Option F)
  cumulativeVolume : F
  vwap : F
deriving DecidableEq, Repr

variable {F : Type}

/-- NewCalculator, `vwap..go` lines 69-78. -/
def NewCalculator (ops : FloatOps F) (windowWidth : Nat) : Calculator F :=
  { windowWidth := windowWidth
    pqs := NewRingBuffer windowWidth
    cumulativeTypicalPrice := ops.zero
    qs := NewRingBuffer windowWidth
    cumulativeVolume := ops.zero
    vwap := ops.zero }

/-- A method of `big.Float` called with a pointer argument: a nil argument is a
nil dereference, which traps. -/
def derefOp (op : F → F → Option F) (x : F) (y : Option F) : Option F :=
  match y with
  | none => none
  | some v => op x v

/-- The eviction of `Update`, `vwap..go` lines 97-103. -/
def evict (ops : FloatOps F) (c : Calculator F) : Option (Calculator F) :=
  if c.pqs.Len = c.windowWidth then
    match c.pqs.PopFront with
    | none => none
    | some (oldPQ, pqs) =>
      match derefOp ops.Sub c.cumulativeTypicalPrice oldPQ with
      | none => none
      | some ctp =>
        match c.qs.PopFront with
        | none => none
        | some (oldQ, qs) =>
          match derefOp ops.Sub c.cumulativeVolume oldQ with
          | none => none
          | some cv =>
            some { c with pqs := pqs, cumulativeTypicalPrice := ctp,
                          qs := qs, cumulativeVolume := cv }
  else
    some c

/-- The part of `Update` between the parsing and the division, `vwap..go` lines
94-109, on the parsed operands: the state in which line 111 divides. -/
def accumulate (ops : FloatOps F) (c : Calculator F) (p q : F) : Option (Calculator F) :=
  match ops.Mul p q with
  | none => none
  | some pq =>
    match evict ops c with
    | none => none
    | some c1 =>
      match ops.Add c1.cumulativeTypicalPrice pq with
      | none => none
      | some ctp =>
        match c1.pqs.PushBack (some pq) with
        | none => none
        | some pqs =>
          match ops.Add c1.cumulativeVolume q with
          | none => none
          | some cv =>
            match c1.qs.PushBack (some q) with
            | none => none
            | some qs =>
              some { c1 with pqs := pqs, cumulativeTypicalPrice := ctp,
                             qs := qs, cumulativeVolume := cv }

/-- Update, `vwap..go` lines 84-115. The result is `none` when the call traps, and
otherwise the calculator after the call with the two returned values. -/
def Update (ops : FloatOps F) (c : Calculator F) (price quantity : String) :
    Option (Calculator F × String × Option wrapError) :=
  match ops.SetString price with
  | none => some (c, "", some (Errorf ErrFloatParse ": " price))
  | some p =>
    match ops.SetString quantity with
    | none => some (c, "", some (Errorf ErrFloatParse " " quantity))
    | some q =>
      match accumulate ops c p q with
      | none => none
      | some c2 =>
        match ops.Quo c2.cumulativeTypicalPrice c2.cumulativeVolume with
        | none => none
        | some v => some ({ c2 with vwap := v }, ops.TextF v numPrecDigits, none)

/-- A run of Update calls that all return without error, with the texts they
return; `none` when a call traps or returns an error. -/
def UpdateAll (ops : FloatOps F) (c : Calculator F) :
    List (String × String) → Option (Calculator F × List String)
  | [] => some (c, [])
  | pq :: rest =>
    match Update ops c pq.1 pq.2 with
    | some (c1, text, none) =>
      (UpdateAll ops c1 rest).map (fun r => (r.1, text :: r.2))
    | _ => none

/-- The states a calculator of width `n` goes through: the new calculator, and
the state after every Update call that returns (with or without an error). -/
inductive Reachable (ops : FloatOps F) (n : Nat) : Calculator F → Prop
  | init : Reachable ops n (NewCalculator ops n)
  | step (c c1 : Calculator F) (price quantity text : String) (err : Option wrapError) :
      Reachable ops n c → Update ops c price quantity = some (c1, text, err) →
      Reachable ops n c1

end vwap

namespace big

/-- Modelled from the spec: `math/big.Float`, which is not part of the repository,
restricted to precision 53 and rounding to nearest even (the spec: "53-bit
significand, round-to-nearest-even"). A finite value is `mant * 2 ^ exp`, negated
when `neg` is set, with `mant` positive; unlike the library the mantissa is not
shifted to a fixed width, so one value has several representations. -/
inductive Float where
  | zero (neg : Bool)
  | finite (neg : Bool) (mant : Nat) (exp : Int)
  | inf (neg : Bool)
deriving DecidableEq, Repr

/-- Modelled from the spec: the precision of every float of the calculator. -/
def prec : Nat := 53

/-- Modelled from the spec: largest exponent of `math/big`, for a mantissa in
the interval from 1/2 to 1. -/
def MaxExp : Int := 2147483647

/-- Modelled from the spec: smallest exponent of `math/big`. -/
def MinExp : Int := -2147483648

/-- Number of binary digits, by halving at most `fuel` times. -/
def bitLenAux : Nat → Nat → Nat
  | 0, _ => 0
  | fuel + 1, n => if n = 0 then 0 else bitLenAux fuel (n / 2) + 1

/-- Modelled from the spec: number of binary digits of a natural number. -/
def bitLen (n : Nat) : Nat := bitLenAux n n

/-- Modelled from the spec: rounding of a mantissa to `prec` bits, to nearest and
to even on a tie; `sbit` tells that the exact value is above `mant`. The result is
the rounded mantissa and the number of bits dropped. -/
def roundMant (mant : Nat) (sbit : Bool) : Nat × Nat :=
  if bitLen mant ≤ prec then (mant, 0)
  else
    let s := bitLen mant - prec
    let q := mant / 2 ^ s
    let low := mant % 2 ^ s
    let half := 2 ^ (s - 1)
    if half < low ∨ (low = half ∧ (sbit = true ∨ q % 2 = 1)) then (q + 1, s) else (q, s)

/-- Modelled from the spec: `setExpAndRound` of `math/big`: the float nearest to
`mant * 2 ^ exp`; zero on exponent underflow and an infinity on overflow (the
comment at `vwap..go` lines 45-46). -/
def setExpAndRound (neg : Bool) (mant : Nat) (exp : Int) (sbit : Bool) : Float :=
  if mant = 0 then .zero false
  else if exp + (bitLen mant : Int) < MinExp then .zero neg
  else if MaxExp < exp + (bitLen mant : Int) then .inf neg
  else
    let r := roundMant mant sbit
    if MaxExp < exp + (r.2 : Int) + (bitLen r.1 : Int) then .inf neg
    else .finite neg r.1 (exp + (r.2 : Int))

/-- The mantissa of `m * 2 ^ e` at the smaller exponent `e0`. -/
def alignMant (m : Nat) (e e0 : Int) : Nat := m * 2 ^ (e - e0).toNat

/-- Modelled from the spec: sum of two magnitudes, exact and then rounded. -/
def uadd (neg : Bool) (m1 : Nat) (e1 : Int) (m2 : Nat) (e2 : Int) : Float :=
  let e := min e1 e2
  setExpAndRound neg (alignMant m1 e1 e + alignMant m2 e2 e) e false

/-- Modelled from the spec: difference of two magnitudes, the first one not the
smaller, exact and then rounded; an exact zero is positive. -/
def usub (neg : Bool) (m1 : Nat) (e1 : Int) (m2 : Nat) (e2 : Int) : Float :=
  let e := min e1 e2
  let d := alignMant m1 e1 e - alignMant m2 e2 e
  if d = 0 then .zero false else setExpAndRound neg d e false

/-- Whether the first magnitude is larger than the second. -/
def ugt (m1 : Nat) (e1 : Int) (m2 : Nat) (e2 : Int) : Bool :=
  decide (alignMant m2 e2 (min e1 e2) < alignMant m1 e1 (min e1 e2))

/-- Modelled from the spec: quotient of two magnitudes, correctly rounded: the
dividend is extended until the integer quotient has more than `prec` bits, and a
non-zero remainder sets the sticky bit. -/
def uquo (neg : Bool) (m1 : Nat) (e1 : Int) (m2 : Nat) (e2 : Int) : Float :=
  let k := bitLen m2 + 64
  let n := m1 * 2 ^ k
  setExpAndRound neg (n / m2) (e1 - e2 - (k : Int)) (decide (n % m2 ≠ 0))

/-- Modelled from the spec: `Float.Add` of `math/big`; `none` is the panic on
infinities of opposite signs. -/
def Add (x y : Float) : Option Float :=
  match x, y with
  | .finite xn xm xe, .finite yn ym ye =>
    if xn = yn then some (uadd xn xm xe ym ye)
    else if ugt xm xe ym ye then some (usub xn xm xe ym ye)
    else some (usub (!xn) ym ye xm xe)
  | .inf xn, .inf yn => if xn = yn then some (.inf xn) else none
  | .zero xn, .zero yn => some (.zero (xn && yn))
  | .inf xn, _ => some (.inf xn)
  | x, .zero _ => some x
  | _, y => some y

/-- Modelled from the spec: `Float.Sub` of `math/big`; `none` is the panic on
infinities of equal signs. -/
def Sub (x y : Float) : Option Float :=
  match x, y with
  | .finite xn xm xe, .finite yn ym ye =>
    if xn ≠ yn then some (uadd xn xm xe ym ye)
    else if ugt xm xe ym ye then some (usub xn xm xe ym ye)
    else some (usub (!xn) ym ye xm xe)
  | .inf xn, .inf yn => if xn = yn then none else some (.inf xn)
  | .zero xn, .zero yn => some (.zero (xn && !yn))
  | .inf xn, _ => some (.inf xn)
  | x, .zero _ => some x
  | _, .finite yn ym ye => some (.finite (!yn) ym ye)
  | _, .inf yn => some (.inf (!yn))

/-- Modelled from the spec: `Float.Mul` of `math/big`; `none` is the panic on a
zero times an infinity. -/
def Mul (x y : Float) : Option Float :=
  match x, y with
  | .finite xn xm xe, .finite yn ym ye =>
    some (setExpAndRound (xn != yn) (xm * ym) (xe + ye) false)
  | .zero _, .inf _ => none
  | .inf _, .zero _ => none
  | .inf xn, .inf yn => some (.inf (xn != yn))
  | .inf xn, .finite yn _ _ => some (.inf (xn != yn))
  | .finite xn _ _, .inf yn => some (.inf (xn != yn))
  | .zero xn, .zero yn => some (.zero (xn != yn))
  | .zero xn, .finite yn _ _ => some (.zero (xn != yn))
  | .finite xn _ _, .zero yn => some (.zero (xn != yn))

/-- Modelled from the spec: `Float.Quo` of `math/big`; `none` is the panic on
zero by zero and on infinity by infinity. -/
def Quo (x y : Float) : Option Float :=
  match x, y with
  | .finite xn xm xe, .finite yn ym ye => some (uquo (xn != yn) xm xe ym ye)
  | .zero _, .zero _ => none
  | .inf _, .inf _ => none
  | .zero xn, .finite yn _ _ => some (.zero (xn != yn))
  | .zero xn, .inf yn => some (.zero (xn != yn))
  | .finite xn _ _, .inf yn => some (.zero (xn != yn))
  | .finite xn _ _, .zero yn => some (.inf (xn != yn))
  | .inf xn, .zero yn => some (.inf (xn != yn))
  | .inf xn, .finite yn _ _ => some (.inf (xn != yn))

/-- Nearest integer to `n / d`, to even on a tie. -/
def roundHalfEven (n d : Nat) : Nat :=
  let q := n / d
  let r := n % d
  if d < 2 * r ∨ (2 * r = d ∧ q % 2 = 1) then q + 1 else q

/-- The digits of `fmtF`: the integer part of `n / 10 ^ digits`, and `digits`
digits after the point. -/
def fmtF (n digits : Nat) : String :=
  let whole := toString (n / 10 ^ digits)
  let frac := toString (n % 10 ^ digits)
  if digits = 0 then whole
  else whole ++ "." ++ String.mk (List.replicate (digits - frac.length) '0') ++ frac

/-- Modelled from the spec: `Float.Text` with format `'f'`: the value rounded to
`digits` decimal digits after the point, to nearest and to even on a tie. -/
def TextF (x : Float) (digits : Nat) : String :=
  match x with
  | .inf neg => if neg then "-Inf" else "+Inf"
  | .zero neg => (if neg then "-" else "") ++ fmtF 0 digits
  | .finite neg m e =>
    (if neg then "-" else "") ++
      fmtF (if 0 ≤ e then m * 2 ^ e.toNat * 10 ^ digits
            else roundHalfEven (m * 10 ^ digits) (2 ^ (-e).toNat)) digits

/-- Decimal digit of a character. -/
def digitVal (c : Char) : Option Nat :=
  if '0' ≤ c ∧ c ≤ '9' then some (c.toNat - 48) else none

/-- Reads decimal digits: the number read so far, how many digits were read, and
the rest of the input. -/
def scanDigits (acc cnt : Nat) : List Char → Nat × Nat × List Char
  | [] => (acc, cnt, [])
  | c :: cs =>
    match digitVal c with
    | some d => scanDigits (acc * 10 + d) (cnt + 1) cs
    | none => (acc, cnt, c :: cs)

/-- Reads an optional sign. -/
def scanSign : List Char → Bool × List Char
  | '+' :: cs => (false, cs)
  | '-' :: cs => (true, cs)
  | cs => (false, cs)

/-- Reads an optional decimal exponent; `none` when the exponent has no digit. -/
def scanExponent : List Char → Option (Int × List Char)
  | c :: cs =>
    if c = 'e' ∨ c = 'E' then
      let s := scanSign cs
      let d := scanDigits 0 0 s.2
      if d.2.1 = 0 then none
      else some (if s.1 then -(d.1 : Int) else (d.1 : Int), d.2.2)
    else some (0, c :: cs)
  | [] => some (0, [])

/-- The float nearest to `mant * 10 ^ exp10`. -/
def ofDecimal (neg : Bool) (mant : Nat) (exp10 : Int) : Float :=
  if mant = 0 then .zero neg
  else if 0 ≤ exp10 then setExpAndRound neg (mant * 5 ^ exp10.toNat) exp10 false
  else uquo neg mant exp10 (5 ^ (-exp10).toNat) 0

/-- Modelled from the spec: `Float.SetString` of `math/big` on decimal text (the
spec: "parses both inputs as arbitrary-precision decimal values"): an optional
sign, then `Inf`, `inf`, or digits with at most one point and an optional decimal
exponent; the whole text has to be used. The prefixed forms and the digit
separators that the library also reads are not modelled, and the nearest float is
taken for every exponent. -/
def SetString (s : String) : Option Float :=
  let sg := scanSign s.data
  if sg.2 = ['I', 'n', 'f'] ∨ sg.2 = ['i', 'n', 'f'] then some (.inf sg.1)
  else
    let ip := scanDigits 0 0 sg.2
    let fp : Nat × Nat × List Char :=
      match ip.2.2 with
      | '.' :: cs => scanDigits ip.1 0 cs
      | cs => (ip.1, 0, cs)
    if ip.2.1 + fp.2.1 = 0 then none
    else
      match scanExponent fp.2.2 with
      | some (e, []) =>
        if MinExp ≤ (bitLen fp.1 : Int) + (e - (fp.2.1 : Int)) ∧
            (bitLen fp.1 : Int) + (e - (fp.2.1 : Int)) ≤ MaxExp then
          some (ofDecimal sg.1 fp.1 (e - (fp.2.1 : Int)))
        else none
      | _ => none

/-- The float of a natural number below `2 ^ 53`. -/
def ofNat (n : Nat) : Float :=
  if n = 0 then .zero false else .finite false n 0

/-- The arithmetic of the calculator with a given reading of texts. -/
def opsWith (parse : String → Option Float) : vwap.FloatOps Float :=
  { zero := .zero false
    SetString := parse
    Mul := Mul
    Add := Add
    Sub := Sub
    Quo := Quo
    TextF := TextF }

/-- The arithmetic of the calculator: floats of precision 53, decimal texts. -/
def big53 : vwap.FloatOps Float := opsWith SetString

/-- The number a float stands for; an infinity, which stands for none, is given 0. -/
def Float.toRat : Float → ℚ
  | .zero _ => 0
  | .finite neg m e => (if neg then -1 else 1) * (m : ℚ) * (2 : ℚ) ^ e
  | .inf _ => 0

/-- Modelled from the spec: the test `x.Cmp(y) == 0` of `math/big`: the two floats
stand for the same number, whatever the sign of a zero. -/
def sameValue : Float → Float → Bool
  | .zero _, .zero _ => true
  | .finite xn xm xe, .finite yn ym ye =>
    decide (xn = yn ∧ alignMant xm xe (min xe ye) = alignMant ym ye (min xe ye))
  | .inf xn, .inf yn => decide (xn = yn)
  | _, _ => false

/-- The number behind a pointer to a float; 0 for nil. -/
def ptrToRat : Option Float → ℚ
  | none => 0
  | some x => x.toRat

end big

namespace big

/-- The float nearest to the exact quotient `a / b` of two natural numbers: one
division, one rounding. -/
def roundRatio (a b : Nat) : Float :=
  if a = 0 then .zero false else uquo false a 0 b 0

/-- Modelled from the spec: `Float.IsInf` of `math/big`: whether the float is an
infinity. -/
def Float.IsInf : Float → Bool
  | .inf _ => true
  | _ => false

/-- The rational number `x` is the value of a float of precision 53 within the
exponent range: zero, or up to sign `m * 2 ^ e` with `m` below `2 ^ 53`. An
operation whose exact result is such a number is not rounded. -/
def Rep53 (x : ℚ) : Prop :=
  x = 0 ∨ ∃ (m : Nat) (e : Int), m ≠ 0 ∧ m < 2 ^ 53 ∧ MinExp ≤ e + (bitLen m : Int) ∧
    e + (bitLen m : Int) ≤ MaxExp ∧ |x| = (m : ℚ) * (2 : ℚ) ^ e

/-- The rational number `x` is within the exponent range: rounding it neither
underflows to zero nor overflows to an infinity. -/
def InRange (x : ℚ) : Prop :=
  (2 : ℚ) ^ (MinExp - 1) ≤ |x| ∧ |x| < (2 : ℚ) ^ (MaxExp - 1)

/-- The float `v` is the rational number `x` rounded once to 53 bits, to nearest
and to even on a tie: a zero for 0; else a float of the sign of `x` with a
mantissa `m` from `2 ^ 52` to `2 ^ 53` at the exponent `e` of the binade of `x`,
within half a unit `2 ^ e` of `x`, and with `m` even when `x` is half way between
two neighbours. -/
def IsRounded53 (x : ℚ) (v : Float) : Prop :=
  match v with
  | .zero _ => x = 0
  | .inf _ => False
  | .finite neg m e =>
    x ≠ 0 ∧ (neg = true ↔ x < 0) ∧ 2 ^ 52 ≤ m ∧ m ≤ 2 ^ 53 ∧
      (2 : ℚ) ^ 52 * (2 : ℚ) ^ e ≤ abs x ∧ abs x < (2 : ℚ) ^ 53 * (2 : ℚ) ^ e ∧
      abs ((m : ℚ) * (2 : ℚ) ^ e - abs x) ≤ (2 : ℚ) ^ e / 2 ∧
      (abs ((m : ℚ) * (2 : ℚ) ^ e - abs x) = (2 : ℚ) ^ e / 2 → m % 2 = 0)

end big

namespace vwap

open ringbuf

/-- The most recent `n` entries of a list, oldest first; the whole list when it
has fewer. -/
def window {α : Type} (n : Nat) (xs : List α) : List α := xs.drop (xs.length - n)

/-- The window after one more pair: the oldest pair leaves first when the window
is full. -/
def slide {α : Type} (n : Nat) (w : List α) (x : α) : List α :=
  (if w.length = n then w.tail else w) ++ [x]

/-- Exact sum of price times quantity over pairs of natural numbers. -/
def sumPQ (w : List (Nat × Nat)) : Nat := (w.map (fun x => x.1 * x.2)).sum

/-- Exact sum of the quantities over pairs of natural numbers. -/
def sumQ (w : List (Nat × Nat)) : Nat := (w.map (fun x => x.2)).sum

/-- The value the specification gives for a window of pairs of natural numbers:
the exact sums, divided once and rounded once to 53 bits. -/
def exactVWAP (w : List (Nat × Nat)) : big.Float := big.roundRatio (sumPQ w) (sumQ w)

/-- Exact sum of price times quantity over pairs of floats, as a rational
number. -/
def sumPQr (w : List (big.Float × big.Float)) : ℚ :=
  (w.map (fun v => v.1.toRat * v.2.toRat)).sum

/-- Exact sum of the quantities over pairs of floats, as a rational number. -/
def sumQr (w : List (big.Float × big.Float)) : ℚ := (w.map (fun v => v.2.toRat)).sum

/-- Exact sum of a list of floats, as a rational number. -/
def sumR (w : List big.Float) : ℚ := (w.map big.Float.toRat).sum

/-- The texts of a run read as the given pairs of floats, a price and a quantity,
none of them an infinity. The floats are the ones the reading gives, whatever
their mantissa and exponent: `1`, `1.0` and `1e0` all read as a float of value 1. -/
def ReadFinite (parse : String → Option big.Float) :
    List (String × String) → List (big.Float × big.Float) → Prop
  | [], [] => True
  | s :: ss, v :: vs =>
    parse s.1 = some v.1 ∧ parse s.2 = some v.2 ∧ v.1.IsInf = false ∧ v.2.IsInf = false ∧
      ReadFinite parse ss vs
  | _, _ => False

/-- The quantity texts of a run read as the given floats, none of them an
infinity. -/
def QuantitiesAs (parse : String → Option big.Float) :
    List (String × String) → List big.Float → Prop
  | [], [] => True
  | s :: ss, q :: qs => parse s.2 = some q ∧ q.IsInf = false ∧ QuantitiesAs parse ss qs
  | _, _ => False

/-- A calculator of width `n` whose buffers hold the pairs of `w`, oldest first
(the product buffer a float of the exact product of each pair), and whose two sums
are floats of the exact sums over `w`. -/
def ExactSums (n : Nat) (c : Calculator big.Float) (w : List (big.Float × big.Float)) : Prop :=
  c.windowWidth = n ∧ c.pqs.WF n ∧ c.qs.WF n ∧
    (∀ y ∈ c.pqs.items, ∃ f, y = some f ∧ f.IsInf = false) ∧
    c.pqs.items.map big.ptrToRat = w.map (fun v => v.1.toRat * v.2.toRat) ∧
    c.qs.items = w.map (fun v => some v.2) ∧ (∀ v ∈ w, v.2.IsInf = false) ∧
    c.cumulativeTypicalPrice.IsInf = false ∧ c.cumulativeTypicalPrice.toRat = sumPQr w ∧
    c.cumulativeVolume.IsInf = false ∧ c.cumulativeVolume.toRat = sumQr w

/-- The two buffers of a calculator of width `n` move in step. -/
def InStep {F : Type} (n : Nat) (c : Calculator F) : Prop :=
  c.windowWidth = n ∧ c.pqs.maxCap = n ∧ c.qs.maxCap = n ∧
    c.pqs.count = c.qs.count ∧ c.pqs.count ≤ n

/-- The calculator of width 2 after the call `Update("1", "2")`. -/
def afterOneUpdate : Calculator big.Float :=
  { windowWidth := 2
    pqs := { buf := [some (.finite false 2 0), none], count := 1, end_ := 1, start := 0,
             maxCap := 2 }
    cumulativeTypicalPrice := .finite false 2 0
    qs := { buf := [some (.finite false 2 0), none], count := 1, end_ := 1, start := 0,
            maxCap := 2 }
    cumulativeVolume := .finite false 2 0
    vwap := .finite false 4503599627370496 (-52) }

/-- The calculator of width 2 after the calls `Update("1", "9007199254740992")`,
`Update("1", "1")` and `Update("1", "1")`. -/
def driftedState : Calculator big.Float :=
  { windowWidth := 2
    pqs := { buf := [some (.finite false 1 0), some (.finite false 1 0)], count := 2, end_ := 1,
             start := 1, maxCap := 2 }
    cumulativeTypicalPrice := .finite false 1 0
    qs := { buf := [some (.finite false 1 0), some (.finite false 1 0)], count := 2, end_ := 1,
            start := 1, maxCap := 2 }
    cumulativeVolume := .finite false 1 0
    vwap := .finite false 4503599627370496 (-52) }

/-- The calculator of width 2 after the calls `Update("1", "2")`,
`Update("2", "3")` and `Update("3", "5")`. -/
def afterThreeUpdates : Calculator big.Float :=
  { windowWidth := 2
    pqs := { buf := [some (.finite false 15 0), some (.finite false 6 0)], count := 2,
             end_ := 1, start := 1, maxCap := 2 }
    cumulativeTypicalPrice := .finite false 21 0
    qs := { buf := [some (.finite false 5 0), some (.finite false 3 0)], count := 2,
            end_ := 1, start := 1, maxCap := 2 }
    cumulativeVolume := .finite false 8 0
    vwap := .finite false 5910974510923776 (-51) }

/-- A calculator of width `n` whose quantity buffer holds the floats of `w`,
oldest first, and whose cumulativeVolume is a float of their exact sum. -/
def ExactVolume (n : Nat) (c : Calculator big.Float) (w : List big.Float) : Prop :=
  InStep n c ∧ c.qs.WF n ∧ c.qs.items = w.map some ∧ (∀ q ∈ w, q.IsInf = false) ∧
    c.cumulativeVolume.IsInf = false ∧ c.cumulativeVolume.toRat = sumR w

/-- Price and quantity texts of a run of four calls: fractions, texts with
trailing zeros, and a quantity of zero. -/
def fractionTexts : List (String × String) :=
  [("0.5", "2.0"), ("1.5", "2"), ("2.25", "4.00"), ("7", "0")]

/-- The floats `fractionTexts` reads as: 0.5 and 2, 1.5 and 2, 2.25 and 4, 7 and
0. -/
def fractionFloats : List (big.Float × big.Float) :=
  [(.finite false 4503599627370496 (-53), .finite false 4503599627370496 (-51)),
   (.finite false 6755399441055744 (-52), .finite false 2 0),
   (.finite false 5066549580791808 (-51), .finite false 4503599627370496 (-50)),
   (.finite false 7 0, .zero false)]

/-- Price and quantity texts of a run of five calls whose products are exact:
0.5 by 2, 0.27 by 1, 0.27 by 4, 1.0 by 3 and 57250.00 by 1e2. -/
def exactProductTexts : List (String × String) :=
  [("0.5", "2"), ("0.27", "1"), ("0.27", "4"), ("1.0", "3"), ("57250.00", "1e2")]

/-- The floats `exactProductTexts` reads as. -/
def exactProductFloats : List (big.Float × big.Float) :=
  [(.finite false 4503599627370496 (-53), .finite false 2 0),
   (.finite false 4863887597560136 (-54), .finite false 1 0),
   (.finite false 4863887597560136 (-54), .finite false 4 0),
   (.finite false 4503599627370496 (-52), .finite false 3 0),
   (.finite false 7868380086272000 (-37), .finite false 25 2)]

/-- The calculator of width 2 after the calls `Update("1", "0.5")` and
`Update("3", "0")`. -/
def afterZeroQuantity : Calculator big.Float :=
  { windowWidth := 2
    pqs := { buf := [some (.finite false 4503599627370496 (-53)), some (.zero false)],
             count := 2, end_ := 0, start := 0, maxCap := 2 }
    cumulativeTypicalPrice := .finite false 4503599627370496 (-53)
    qs := { buf := [some (.finite false 4503599627370496 (-53)), some (.zero false)],
            count := 2, end_ := 0, start := 0, maxCap := 2 }
    cumulativeVolume := .finite false 4503599627370496 (-53)
    vwap := .finite false 4503599627370496 (-52) }

/-- The calculator `afterZeroQuantity` at the division of the call
`Update("2", "1.5")` that follows. -/
def dividingAfterZeroQuantity : Calculator big.Float :=
  { windowWidth := 2
    pqs := { buf := [some (.finite false 6755399441055744 (-51)), some (.zero false)],
             count := 2, end_ := 1, start := 1, maxCap := 2 }
    cumulativeTypicalPrice := .finite false 6755399441055744 (-51)
    qs := { buf := [some (.finite false 6755399441055744 (-52)), some (.zero false)],
            count := 2, end_ := 1, start := 1, maxCap := 2 }
    cumulativeVolume := .finite false 6755399441055744 (-52)
    vwap := .finite false 4503599627370496 (-52) }

/-- The text `t` occurs in the text `s`. -/
def occursIn (t s : String) : Prop := t.data <:+: s.data

instance (t s : String) : Decidable (occursIn t s) :=
  inferInstanceAs (Decidable (t.data <:+: s.data))

end vwap

namespace ringbuf

variable {T : Type}

/-- The buffer after a call of PopFront, `ringbuf.go` lines 44-56, whether the
call returns or traps: both traps (line 46, and the index at line 49) come before
the first write, so a trapping call leaves the buffer as it was. -/
def RingBuffer.PopFrontState (r : RingBuffer T) : RingBuffer T :=
  if r.count ≤ 0 then r
  else
    match r.buf[r.start]? with
    | none => r
    | some _ => { r with start := (r.start + 1) % r.buf.length, count := r.count - 1 }

/-- The buffers reached from `NewRingBuffer(cap)` by PushBack calls and PopFront
calls that return. -/
inductive RingBuffer.Reachable [Inhabited T] (cap : Nat) : RingBuffer T → Prop
  | init : RingBuffer.Reachable cap (NewRingBuffer cap)
  | push (r r1 : RingBuffer T) (x : T) :
      RingBuffer.Reachable cap r → r.PushBack x = some r1 → RingBuffer.Reachable cap r1
  | pop (r r1 : RingBuffer T) (x : T) :
      RingBuffer.Reachable cap r → r.PopFront = some (x, r1) → RingBuffer.Reachable cap r1

/-- Shape of every buffer reached from `NewRingBuffer(cap)`. -/
def RingBuffer.Shape (r : RingBuffer T) (cap : Nat) : Prop :=
  r.buf.length = cap ∧ r.maxCap = cap ∧ r.count ≤ cap ∧ (0 < cap → r.start < cap)

end ringbuf

namespace vwap

open ringbuf

variable {F : Type}

/-- The texts of a run read as the given floats: every entry of the second list
is the price, the quantity and the product `Mul(price, quantity)` of the pair of
texts at the same place. -/
def ParsedAs (ops : FloatOps F) : List (String × String) → List (F × F × F) → Prop
  | [], [] => True
  | s :: ss, v :: vs =>
    ops.SetString s.1 = some v.1 ∧ ops.SetString s.2 = some v.2.1 ∧
      ops.Mul v.1 v.2.1 = some v.2.2 ∧ ParsedAs ops ss vs
  | _, _ => False

/-- A calculator of width `n` whose buffers hold, oldest first, the products and
the quantities of the entries of `w`. -/
def QueueState (n : Nat) (c : Calculator F) (w : List (F × F × F)) : Prop :=
  c.windowWidth = n ∧ c.pqs.WF n ∧ c.qs.WF n ∧
    c.pqs.items = w.map (fun v => some v.2.2) ∧ c.qs.items = w.map (fun v => some v.2.1)

end vwap

namespace coinbase

/-- A Go error value: one made by the connection or by `fmt.Errorf` without a
`%w` verb (`base`), or one made by `fmt.Errorf` with a `%w` verb, which wraps
another error (`wrap`). -/
inductive GoError where
  | base (msg : String)
  | wrap (msg : String) (err : GoError)
deriving DecidableEq, Repr

/-- Error method: the message. -/
def GoError.Error : GoError → String
  | .base msg => msg
  | .wrap msg _ => msg

/-- Unwrap method: the wrapped error, if any. -/
def GoError.Unwrap : GoError → Option GoError
  | .base _ => none
  | .wrap _ err => some err

/-- The call `fmt.Errorf(text + "%w", err)`. -/
def ErrorfW (text : String) (err : GoError) : GoError := .wrap (text ++ err.Error) err

/-- The call `fmt.Errorf(text + "%s", s)`. -/
def ErrorfS (text s : String) : GoError := .base (text ++ s)

/-- Match, `subscription.go` lines 16-42; the time is kept as its text. -/
structure Match where
  Type_ : String
  TradeID : Int
  Sequence : Int
  MakerOrderID : String
  TakerOrderID : String
  Time : String
  ProductID : String
  Size : String
  Price : String
  Side : String
deriving DecidableEq, Repr

/-- MessageChannel, `message.go` lines 3-6. -/
structure MessageChannel where
  Name : String
  ProductIds : List String
deriving DecidableEq, Repr

/-- Subscribe message, `message.go` lines 13-16. -/
structure Subscribe where
  Type_ : String
  Channels : List MessageChannel
deriving DecidableEq, Repr

/-- Message, `message.go` lines 77-93. -/
structure Message where
  Type_ : String
  ProductID : String
  ProductIds : List String
  TradeID : Int
  OrderID : String
  Sequence : Int
  MakerOrderID : String
  TakerOrderID : String
  Size : String
  Price : String
  Side : String
  Reason : String
  Message : String
  Channels : List MessageChannel
  LastTradeID : Int
deriving DecidableEq, Repr

/-- The connection as Subscribe uses it: the error of `WriteJSON` for a request
(`none` for nil), and the result of the one `ReadJSON` that follows, an error or
the decoded message. -/
structure Conn where
  WriteJSON : Subscribe → Option GoError
  ReadJSON : Except GoError Message

/-- The background tasks of a subscription. -/
inductive Task where
  | matchWatcher
  | pinger
deriving DecidableEq, Repr

/-- Subscription, `subscription.go` lines 46-50, as made by NewSubscription, lines
52-59: the capacities of the two channels. -/
structure Subscription where
  doneCap : Nat
  CCap : Nat
deriving DecidableEq, Repr

/-- NewSubscription, `subscription.go` lines 52-59. -/
def NewSubscription (windowWidth : Nat) : Subscription :=
  { doneCap := 2, CCap := windowWidth }

/-- What a call of Subscribe leaves: the two returned values and the tasks the
call started with `go`. -/
structure SubscribeResult where
  subscription : Option Subscription
  err : Option GoError
  started : List Task
deriving DecidableEq, Repr

/-- The request Subscribe writes, `client.go` lines 101-109. -/
def subscribeRequest (productID : String) : Subscribe :=
  { Type_ := "subscribe", Channels := [{ Name := "matches", ProductIds := [productID] }] }

/-- MatchesClient.Subscribe, `client.go` lines 96-134. -/
def MatchesClient.Subscribe (conn : Conn) (productID : String) (windowWidth : Nat) :
    SubscribeResult :=
  match conn.WriteJSON (subscribeRequest productID) with
  | some err => { subscription := none, err := some (ErrorfW "subscribe error: " err),
                  started := [] }
  | none =>
    match conn.ReadJSON with
    | .error err => { subscription := none, err := some (ErrorfW "subscribe failed: " err),
                      started := [] }
    | .ok message =>
      if message.Type_ = "error" then
        { subscription := none, err := some (ErrorfS "subscribe error: " message.Reason),
          started := [] }
      else
        { subscription := some (NewSubscription windowWidth), err := none,
          started := [Task.matchWatcher] }

/-- Whether a task is still running. -/
inductive TaskState where
  | running
  | finished
deriving DecidableEq, Repr

/-- The channels and tasks of a started subscription: the values waiting in `done`
and in `C`, whether each channel is closed, and the state of the two tasks. -/
structure Chans where
  sub : Subscription
  done : List (Option GoError)
  doneClosed : Bool
  C : List Match
  CClosed : Bool
  watcher : TaskState
  pinger : TaskState
deriving DecidableEq, Repr

/-- The result of a step of a task at a channel: it goes on, it waits, or it
panics. -/
inductive Step (α : Type) where
  | returns (a : α)
  | blocks
  | panics
deriving DecidableEq, Repr

/-- The channels right after Subscribe has started the tasks. -/
def Chans.start (sub : Subscription) : Chans :=
  { sub := sub, done := [], doneClosed := false, C := [], CClosed := false,
    watcher := .running, pinger := .running }

/-- A send on `done`: a panic on a closed channel, a wait on a full one. -/
def Chans.sendDone (s : Chans) (v : Option GoError) : Step Chans :=
  if s.doneClosed then .panics
  else if s.done.length < s.sub.doneCap then .returns { s with done := s.done ++ [v] }
  else .blocks

/-- The send `s.C <- match` of the read loop, `subscription.go` line 119. -/
def Chans.watcherSends (s : Chans) (m : Match) : Step Chans :=
  if s.CClosed then .panics
  else if s.C.length < s.sub.CCap then .returns { s with C := s.C ++ [m] }
  else .blocks

/-- The end of matchWatcher: `s.done <- reterr`, `subscription.go` line 121 (or
line 86), after which the task has terminated. -/
def Chans.watcherEnds (s : Chans) (reterr : Option GoError) : Step Chans :=
  match s.sendDone reterr with
  | .returns s1 => .returns { s1 with watcher := .finished }
  | .blocks => .blocks
  | .panics => .panics

/-- The end of the pinger task: `s.done <- pinger(...)`, `subscription.go` line
81, once pinger has returned, after which the task has terminated. -/
def Chans.pingerEnds (s : Chans) (err : Option GoError) : Step Chans :=
  match s.sendDone err with
  | .returns s1 => .returns { s1 with pinger := .finished }
  | .blocks => .blocks
  | .panics => .panics

/-- Subscription.Stop, `subscription.go` lines 155-159: one receive from `done`,
then the two closes, each a panic on a closed channel. The receive waits while
the channel is open and empty; on a closed empty channel it returns at once, and
the close of `done` that follows then panics. -/
def Chans.Stop (s : Chans) : Step Chans :=
  match s.done with
  | [] => if s.doneClosed then .panics else .blocks
  | _ :: rest =>
    if s.CClosed then .panics
    else if s.doneClosed then .panics
    else .returns { s with done := rest, CClosed := true, doneClosed := true }

/-- The place the matchWatcher task is at, `subscription.go` lines 97-122: about
to call ReadJSON (line 109), at the send `s.C <- match` of a decoded match (line
119), at the send `s.done <- reterr` (line 121, or line 86 after a failed
SetReadDeadline), returned, or stopped by a panic. -/
inductive WatcherAt where
  | reading
  | sendingC (m : Match)
  | sendingDone (reterr : Option GoError)
  | returned
  | panicked
deriving DecidableEq, Repr

/-- A run of matchWatcher: the channels and tasks of the subscription, the place
the task is at, the results of the reads it has not made yet, and the matches the
consumer has received from `C`, oldest first. -/
structure Watch where
  chans : Chans
  pos : WatcherAt
  unread : List (Except GoError Match)
  received : List Match

/-- The task matchWatcher, `subscription.go` lines 63-122, when it enters its
loop: `setReadDeadline` is the error of the call at line 85 (`none` for nil) and
`reads` the results of the reads to come. The pinger has been started (line 78);
after a failed SetReadDeadline the task is at the send of that error on `done` and
makes no read (lines 85-88). -/
def matchWatcher (sub : Subscription) (setReadDeadline : Option GoError)
    (reads : List (Except GoError Match)) : Watch :=
  { chans := Chans.start sub
    pos := match setReadDeadline with
      | some err => .sendingDone (some err)
      | none => .reading
    unread := reads
    received := [] }

/-- One step of matchWatcher, `subscription.go` lines 97-121. A read takes the
next result: an error is wrapped and ends the loop, a match is to be sent on `C`.
The send on `C` completes when `C` has room, waits (the state stays as it is) when
`C` is full, and panics when `C` is closed. The send on `done` likewise, and after
it the task has returned. At a read whose result is not there yet, the task
waits. -/
def Watch.step (w : Watch) : Watch :=
  match w.pos with
  | .reading =>
    match w.unread with
    | [] => w
    | .error err :: rest =>
      { w with pos := .sendingDone (some (ErrorfW "matchWatcher read failed: " err)),
               unread := rest }
    | .ok m :: rest => { w with pos := .sendingC m, unread := rest }
  | .sendingC m =>
    match w.chans.watcherSends m with
    | .returns c => { w with chans := c, pos := .reading }
    | .blocks => w
    | .panics => { w with pos := .panicked }
  | .sendingDone reterr =>
    match w.chans.watcherEnds reterr with
    | .returns c => { w with chans := c, pos := .returned }
    | .blocks => w
    | .panics => { w with pos := .panicked }
  | .returned => w
  | .panicked => w

/-- A receive `<-subscription.C` of the consumer (`main.go` line 62,
`client_test.go` line 133): the oldest match waiting in `C`; when none waits and
the task is at its send on the open channel, the match is handed over and the send
completes (the only way a send completes on a channel of capacity 0); else the
consumer waits. -/
def Watch.receive (w : Watch) : Watch :=
  match w.chans.C with
  | m :: rest => { w with chans := { w.chans with C := rest }, received := w.received ++ [m] }
  | [] =>
    match w.pos with
    | .sendingC m =>
      if w.chans.CClosed then w
      else { w with pos := .reading, received := w.received ++ [m] }
    | _ => w

/-- What happens next in a run of matchWatcher: a step of the task, a receive of
the consumer, a call of Stop, or the end of the pinger task with its result. -/
inductive Act where
  | loop
  | receive
  | stop
  | pingerEnds (err : Option GoError)
deriving DecidableEq, Repr

/-- The run after one more event. A call of Stop or an end of the pinger that
waits or panics leaves the run as it is; the pinger ends only once. -/
def Watch.act (w : Watch) : Act → Watch
  | .loop => w.step
  | .receive => w.receive
  | .stop =>
    match w.chans.Stop with
    | .returns c => { w with chans := c }
    | _ => w
  | .pingerEnds err =>
    if w.chans.pinger = .running then
      match w.chans.pingerEnds err with
      | .returns c => { w with chans := c }
      | _ => w
    else w

/-- The run after a sequence of events. -/
def Watch.run (w : Watch) (acts : List Act) : Watch := acts.foldl Watch.act w

/-- The matches delivered on `C`, those whose send has completed, oldest first:
the ones the consumer has received and the ones waiting in the channel. -/
def Watch.delivered (w : Watch) : List Match := w.received ++ w.chans.C

/-- The run of the matchWatcher of `NewSubscription(conn, windowWidth)` on the
given reads, SetReadDeadline having succeeded, after a sequence of events. -/
def watcherRun (windowWidth : Nat) (reads : List (Except GoError Match)) (acts : List Act) :
    Watch :=
  (matchWatcher (NewSubscription windowWidth) none reads).run acts

/-- The events of a run in which the consumer receives every match: for each of
`n` matches a read, the send and a receive, and then the failing read and the send
on `done`. -/
def receivingSchedule (n : Nat) : List Act :=
  (List.replicate n [Act.loop, Act.loop, Act.receive]).flatten ++ [Act.loop, Act.loop]

/-- The matches a call of Subscribe makes available after a sequence of events:
those its matchWatcher has delivered, when the call started one. -/
def SubscribeResult.events (r : SubscribeResult) (setReadDeadline : Option GoError)
    (reads : List (Except GoError Match)) (acts : List Act) : List Match :=
  match r.subscription with
  | some sub =>
    if Task.matchWatcher ∈ r.started then
      ((matchWatcher sub setReadDeadline reads).run acts).delivered
    else []
  | none => []

/-- How far a run of matchWatcher has got on reads of which `pre` are decoded
before the first failing read, with error `err`, and `post` follows: what has been
delivered and what is still to read, at each place of the task. -/
def WatchPos (pre : List Match) (err : GoError) (post : List (Except GoError Match))
    (pos : WatcherAt) (watcher : TaskState) (delivered : List Match)
    (unread : List (Except GoError Match)) (done : List (Option GoError)) : Prop :=
  match pos with
  | .reading => watcher = .running ∧
      ∃ b, pre = delivered ++ b ∧ unread = b.map Except.ok ++ Except.error err :: post
  | .sendingC m => watcher = .running ∧
      ∃ b, pre = delivered ++ m :: b ∧ unread = b.map Except.ok ++ Except.error err :: post
  | .sendingDone e => watcher = .running ∧
      e = some (ErrorfW "matchWatcher read failed: " err) ∧ delivered = pre ∧ unread = post
  | .returned => watcher = .finished ∧ delivered = pre ∧ unread = post ∧
      some (ErrorfW "matchWatcher read failed: " err) ∈ done
  | .panicked => False

/-- The state of a run of matchWatcher while Stop has not been called: both
channels are open, and `done` holds at most one value for each task that has
ended. -/
def WatchInv (windowWidth : Nat) (pre : List Match) (err : GoError)
    (post : List (Except GoError Match)) (w : Watch) : Prop :=
  w.chans.sub = NewSubscription windowWidth ∧ w.chans.CClosed = false ∧
    w.chans.doneClosed = false ∧
    w.chans.done.length ≤
      (if w.chans.pinger = .finished then 1 else 0) +
        (if w.chans.watcher = .finished then 1 else 0) ∧
    WatchPos pre err post w.pos w.chans.watcher w.delivered w.unread w.chans.done

/-- A match of the feed, the first of two. -/
def tradeOne : Match :=
  { Type_ := "match", TradeID := 1, Sequence := 1, MakerOrderID := "", TakerOrderID := "",
    Time := "", ProductID := "BTC-USD", Size := "1", Price := "1", Side := "buy" }

/-- A match of the feed, the second of two. -/
def tradeTwo : Match :=
  { Type_ := "match", TradeID := 2, Sequence := 2, MakerOrderID := "", TakerOrderID := "",
    Time := "", ProductID := "BTC-USD", Size := "2", Price := "3", Side := "sell" }

end coinbase

/-! ## The ring buffer -/

namespace ringbuf

variable {T : Type}

theorem PushBack_some {r r1 : RingBuffer T} {x : T} (h : r.PushBack x = some r1) :
    r1.count = (if r.count < r.maxCap then r.count + 1 else r.count) ∧
      r1.maxCap = r.maxCap ∧ r1.start = r.start ∧ r1.buf = r.buf.set r.end_ x ∧
      r1.end_ = (r.end_ + 1) % r.buf.length ∧ r.end_ < r.buf.length := by
  unfold RingBuffer.PushBack at h
  split at h
  · rename_i hlt
    simp only [Option.some.injEq] at h
    subst h
    simp [hlt]
  · exact absurd h (by simp)

theorem PopFront_some {r r1 : RingBuffer T} {x : T} (h : r.PopFront = some (x, r1)) :
    0 < r.count ∧ r1.count = r.count - 1 ∧ r1.maxCap = r.maxCap ∧ r1.buf = r.buf ∧
      r1.end_ = r.end_ ∧ r1.start = (r.start + 1) % r.buf.length ∧
      r.buf[r.start]? = some x := by
  unfold RingBuffer.PopFront at h
  split at h
  · exact absurd h (by simp)
  · rename_i hc
    split at h
    · exact absurd h (by simp)
    · rename_i item hitem
      simp only [Option.some.injEq, Prod.mk.injEq] at h
      obtain ⟨h1, h2⟩ := h
      subst h1 h2
      simp [hitem]
      omega

end ringbuf

/-! ## Update: parsing and errors -/

namespace vwap

open ringbuf

variable {F : Type}

theorem Update_price_fails (ops : FloatOps F) (c : Calculator F) (price quantity : String)
    (h : ops.SetString price = none) :
    Update ops c price quantity = some (c, "", some (Errorf ErrFloatParse ": " price)) := by
  simp [Update, h]

theorem Update_quantity_fails (ops : FloatOps F) (c : Calculator F) (price quantity : String)
    (p : F) (hp : ops.SetString price = some p) (h : ops.SetString quantity = none) :
    Update ops c price quantity =
      some (c, "", some (Errorf ErrFloatParse " " quantity)) := by
  simp [Update, hp, h]

theorem Update_parsed (ops : FloatOps F) (c : Calculator F) (price quantity : String)
    (p q : F) (hp : ops.SetString price = some p) (hq : ops.SetString quantity = some q) :
    Update ops c price quantity =
      match accumulate ops c p q with
      | none => none
      | some c2 =>
        match ops.Quo c2.cumulativeTypicalPrice c2.cumulativeVolume with
        | none => none
        | some v => some ({ c2 with vwap := v }, ops.TextF v numPrecDigits, none) := by
  simp [Update, hp, hq]

theorem Update_parse_failure (ops : FloatOps F) (c : Calculator F) (price quantity : String)
    (h : ops.SetString price = none ∨ ops.SetString quantity = none) :
    ∃ e, Update ops c price quantity = some (c, "", some e) ∧ e.Unwrap = ErrFloatParse ∧
      (e.Error = ErrFloatParse.Error ++ ": " ++ price ∨
        e.Error = ErrFloatParse.Error ++ " " ++ quantity) := by
  cases hp : ops.SetString price with
  | none =>
    exact ⟨_, Update_price_fails ops c price quantity hp, rfl, Or.inl rfl⟩
  | some p =>
    have hq : ops.SetString quantity = none := by
      rcases h with h | h
      · rw [hp] at h; exact absurd h (by simp)
      · exact h
    exact ⟨_, Update_quantity_fails ops c price quantity p hp hq, rfl, Or.inr rfl⟩

theorem Update_no_error (ops : FloatOps F) (c c1 : Calculator F) (price quantity text : String)
    (err : Option wrapError) (p q : F)
    (hp : ops.SetString price = some p) (hq : ops.SetString quantity = some q)
    (h : Update ops c price quantity = some (c1, text, err)) : err = none := by
  rw [Update_parsed ops c price quantity p q hp hq] at h
  split at h
  · exact absurd h (by simp)
  · split at h
    · exact absurd h (by simp)
    · simp only [Option.some.injEq, Prod.mk.injEq] at h
      exact h.2.2.symm

end vwap

/-! ## Claims on parsing and errors -/

namespace vwap

open ringbuf

variable {F : Type}

/-- C3: when either operand fails to parse, Update returns an error and the
calculator after the call is the calculator before it: both buffers (contents,
indices and lengths), both cumulative sums and the last VWAP are unchanged. -/
theorem C3_parse_failure_keeps_state (ops : FloatOps F) (c : Calculator F)
    (price quantity : String)
    (h : ops.SetString price = none ∨ ops.SetString quantity = none) :
    ∃ c1 e, Update ops c price quantity = some (c1, "", some e) ∧ c1 = c ∧
      c1.pqs.buf = c.pqs.buf ∧ c1.pqs.Len = c.pqs.Len ∧
      c1.qs.buf = c.qs.buf ∧ c1.qs.Len = c.qs.Len ∧
      c1.cumulativeTypicalPrice = c.cumulativeTypicalPrice ∧
      c1.cumulativeVolume = c.cumulativeVolume ∧ c1.vwap = c.vwap := by
  obtain ⟨e, he, _, _⟩ := Update_parse_failure ops c price quantity h
  exact ⟨c, e, he, rfl, rfl, rfl, rfl, rfl, rfl, rfl, rfl⟩

theorem C3_parse_failure_keeps_state_witness :
    (big.big53.SetString "1,625" = none ∨ big.big53.SetString "3.14159265359" = none) ∧
    ∃ c1 e, Update big.big53 (NewCalculator big.big53 1) "1,625" "3.14159265359" =
        some (c1, "", some e) ∧ c1 = NewCalculator big.big53 1 ∧
      c1.pqs.buf = (NewCalculator big.big53 1).pqs.buf ∧
      c1.pqs.Len = (NewCalculator big.big53 1).pqs.Len ∧
      c1.qs.buf = (NewCalculator big.big53 1).qs.buf ∧
      c1.qs.Len = (NewCalculator big.big53 1).qs.Len ∧
      c1.cumulativeTypicalPrice = (NewCalculator big.big53 1).cumulativeTypicalPrice ∧
      c1.cumulativeVolume = (NewCalculator big.big53 1).cumulativeVolume ∧
      c1.vwap = (NewCalculator big.big53 1).vwap :=
  ⟨Or.inl (by decide),
    C3_parse_failure_keeps_state big.big53 (NewCalculator big.big53 1) "1,625" "3.14159265359"
      (Or.inl (by decide))⟩

/-- C4: when the price or the quantity does not parse, Update returns an empty
text and an error for which `errors.Is(err, ErrFloatParse)` holds; when both
parse, no call of Update returns an error. -/
theorem C4_error_iff_parse_failure (ops : FloatOps F) (c : Calculator F)
    (price quantity : String) :
    ((ops.SetString price = none ∨ ops.SetString quantity = none) →
      ∃ c1 e, Update ops c price quantity = some (c1, "", some e) ∧
        errorsIs e ErrFloatParse = true) ∧
    ((ops.SetString price).isSome = true → (ops.SetString quantity).isSome = true →
      ∀ c1 text err, Update ops c price quantity = some (c1, text, err) → err = none) := by
  constructor
  · intro h
    obtain ⟨e, he, hw, _⟩ := Update_parse_failure ops c price quantity h
    exact ⟨c, e, he, by simp [errorsIs, hw]⟩
  · intro hp hq c1 text err h
    obtain ⟨p, hp⟩ := Option.isSome_iff_exists.mp hp
    obtain ⟨q, hq⟩ := Option.isSome_iff_exists.mp hq
    exact Update_no_error ops c c1 price quantity text err p q hp hq h

theorem C4_error_iff_parse_failure_witness :
    (big.big53.SetString "not-a-float" = none ∧ big.big53.SetString "1.13210a" = none ∧
      big.big53.SetString "1.13210.a" = none ∧ big.big53.SetString "1,625" = none) ∧
    (∃ c1 e, Update big.big53 (NewCalculator big.big53 1) "3.14159265359" "1.13210.a" =
        some (c1, "", some e) ∧ errorsIs e ErrFloatParse = true) ∧
    ((Update big.big53 (NewCalculator big.big53 1) "3.14159265359" "2").map (fun r => r.2) =
        some ("3.1415926535900001", none)) ∧
    (∀ c1 text err, Update big.big53 (NewCalculator big.big53 1) "3.14159265359" "2" =
        some (c1, text, err) → err = none) :=
  ⟨by decide,
    (C4_error_iff_parse_failure big.big53 (NewCalculator big.big53 1)
      "3.14159265359" "1.13210.a").1 (Or.inr (by decide)),
    by decide,
    (C4_error_iff_parse_failure big.big53 (NewCalculator big.big53 1)
      "3.14159265359" "2").2 (by decide) (by decide)⟩

theorem Errorf_messages_differ (s : String) :
    (Errorf ErrFloatParse ": " s).Error ≠ (Errorf ErrFloatParse " " s).Error := by
  intro h
  have h2 := congrArg String.data h
  simp [Errorf, wrapError.Error, String.data_append] at h2

theorem occursIn_Errorf (err : floatParseError) (sep s : String) :
    occursIn s (Errorf err sep s).Error := by
  refine ⟨(err.Error ++ sep).data, [], ?_⟩
  simp [Errorf, wrapError.Error, String.data_append]

/-- C5, as the code has it: the error of a failed parse has the message of
ErrFloatParse followed by a colon, a blank and the price text for a bad price,
and followed by a blank and the quantity text for a bad quantity. It holds the
operand's text, and the two messages for one text differ (in the colon). -/
theorem C5_error_message_format (ops : FloatOps F) (c : Calculator F)
    (price quantity : String) :
    (ops.SetString price = none →
      ∃ c1 e, Update ops c price quantity = some (c1, "", some e) ∧
        e.Error = "failed to parse value into float" ++ ": " ++ price ∧
        occursIn price e.Error) ∧
    (∀ p, ops.SetString price = some p → ops.SetString quantity = none →
      ∃ c1 e, Update ops c price quantity = some (c1, "", some e) ∧
        e.Error = "failed to parse value into float" ++ " " ++ quantity ∧
        occursIn quantity e.Error) ∧
    (∀ s : String, (Errorf ErrFloatParse ": " s).Error ≠ (Errorf ErrFloatParse " " s).Error) := by
  refine ⟨?_, ?_, Errorf_messages_differ⟩
  · intro h
    exact ⟨c, _, Update_price_fails ops c price quantity h, rfl, occursIn_Errorf _ _ _⟩
  · intro p hp h
    exact ⟨c, _, Update_quantity_fails ops c price quantity p hp h, rfl, occursIn_Errorf _ _ _⟩

theorem C5_error_message_format_witness :
    (big.big53.SetString "abc" = none ∧ big.big53.SetString "1" = some (big.ofNat 1)) ∧
    (∃ c1 e, Update big.big53 (NewCalculator big.big53 1) "abc" "1" = some (c1, "", some e) ∧
        e.Error = "failed to parse value into float" ++ ": " ++ "abc" ∧
        occursIn "abc" e.Error) ∧
    (∃ c1 e, Update big.big53 (NewCalculator big.big53 1) "1" "abc" = some (c1, "", some e) ∧
        e.Error = "failed to parse value into float" ++ " " ++ "abc" ∧
        occursIn "abc" e.Error) :=
  ⟨by decide,
    (C5_error_message_format big.big53 (NewCalculator big.big53 1) "abc" "1").1 (by decide),
    (C5_error_message_format big.big53 (NewCalculator big.big53 1) "1" "abc").2.1
      (big.ofNat 1) (by decide) (by decide)⟩

/-- C5 as stated fails: the error for the bad price `abc` is
`failed to parse value into float: abc` and the error for the bad quantity `abc`
is `failed to parse value into float abc`; neither names its operand. -/
theorem C5_counterexample :
    ∃ c1 e1 c2 e2,
      Update big.big53 (NewCalculator big.big53 1) "abc" "1" = some (c1, "", some e1) ∧
      e1.Error = "failed to parse value into float: abc" ∧
      ¬ occursIn "price" e1.Error ∧
      Update big.big53 (NewCalculator big.big53 1) "1" "abc" = some (c2, "", some e2) ∧
      e2.Error = "failed to parse value into float abc" ∧
      ¬ occursIn "quantity" e2.Error :=
  ⟨NewCalculator big.big53 1, Errorf ErrFloatParse ": " "abc",
    NewCalculator big.big53 1, Errorf ErrFloatParse " " "abc",
    by decide, by decide, by decide, by decide, by decide, by decide⟩

/-- C6 at the failing input: the price `abc` does not parse, and Value() of the
floatParseError wrapped in the returned error is the empty text, not `abc`. -/
theorem C6_value_is_empty :
    big.big53.SetString "abc" = none ∧
    ∃ c1 e, Update big.big53 (NewCalculator big.big53 1) "abc" "1" = some (c1, "", some e) ∧
      e.Unwrap.Value = "" ∧ e.Unwrap.Value ≠ "abc" :=
  ⟨by decide, NewCalculator big.big53 1, Errorf ErrFloatParse ": " "abc",
    by decide, by decide, by decide⟩

end vwap

/-! ## Lengths of the two buffers -/

namespace vwap

open ringbuf

variable {F : Type}

theorem InStep_new (ops : FloatOps F) (n : Nat) : InStep n (NewCalculator ops n) := by
  simp [InStep, NewCalculator, NewRingBuffer]

theorem evict_InStep (ops : FloatOps F) (n : Nat) (c c1 : Calculator F)
    (hc : InStep n c) (h : evict ops c = some c1) :
    InStep n c1 ∧ (1 ≤ n → c1.pqs.count < n) := by
  obtain ⟨hw, hm1, hm2, heq, hle⟩ := hc
  unfold evict at h
  split at h
  · rename_i hfull
    simp only [RingBuffer.Len] at hfull
    split at h
    · exact absurd h (by simp)
    · rename_i oldPQ pqs hpop
      split at h
      · exact absurd h (by simp)
      · split at h
        · exact absurd h (by simp)
        · rename_i oldQ qs hpop2
          split at h
          · exact absurd h (by simp)
          · simp only [Option.some.injEq] at h
            subst h
            obtain ⟨hpos, hcnt, hmax, _⟩ := PopFront_some hpop
            obtain ⟨_, hcnt2, hmax2, _⟩ := PopFront_some hpop2
            refine ⟨⟨hw, ?_, ?_, ?_, ?_⟩, ?_⟩ <;> simp only [] <;> omega
  · rename_i hfull
    simp only [RingBuffer.Len] at hfull
    simp only [Option.some.injEq] at h
    subst h
    exact ⟨⟨hw, hm1, hm2, heq, hle⟩, fun _ => by omega⟩

theorem accumulate_InStep (ops : FloatOps F) (n : Nat) (c c2 : Calculator F) (p q : F)
    (hc : InStep n c) (h : accumulate ops c p q = some c2) : InStep n c2 := by
  unfold accumulate at h
  split at h
  · exact absurd h (by simp)
  · split at h
    · exact absurd h (by simp)
    · rename_i c1 hev
      obtain ⟨⟨hw, hm1, hm2, heq, hle⟩, _⟩ := evict_InStep ops n c c1 hc hev
      split at h
      · exact absurd h (by simp)
      · split at h
        · exact absurd h (by simp)
        · rename_i pqs hpush
          split at h
          · exact absurd h (by simp)
          · split at h
            · exact absurd h (by simp)
            · rename_i qs hpush2
              simp only [Option.some.injEq] at h
              subst h
              obtain ⟨hc1, hx1, _⟩ := PushBack_some hpush
              obtain ⟨hc2, hx2, _⟩ := PushBack_some hpush2
              refine ⟨hw, ?_, ?_, ?_, ?_⟩ <;> simp only [] <;> split_ifs at hc1 hc2 <;> omega

theorem Update_InStep (ops : FloatOps F) (n : Nat) (c c1 : Calculator F)
    (price quantity text : String) (err : Option wrapError)
    (hc : InStep n c) (h : Update ops c price quantity = some (c1, text, err)) :
    InStep n c1 := by
  cases hp : ops.SetString price with
  | none =>
    rw [Update_price_fails ops c price quantity hp] at h
    simp only [Option.some.injEq, Prod.mk.injEq] at h
    exact h.1 ▸ hc
  | some p =>
    cases hq : ops.SetString quantity with
    | none =>
      rw [Update_quantity_fails ops c price quantity p hp hq] at h
      simp only [Option.some.injEq, Prod.mk.injEq] at h
      exact h.1 ▸ hc
    | some q =>
      rw [Update_parsed ops c price quantity p q hp hq] at h
      split at h
      · exact absurd h (by simp)
      · rename_i c2 hacc
        split at h
        · exact absurd h (by simp)
        · simp only [Option.some.injEq, Prod.mk.injEq] at h
          have h2 := accumulate_InStep ops n c c2 p q hc hacc
          rw [← h.1]
          exact h2

theorem Reachable_InStep (ops : FloatOps F) (n : Nat) (c : Calculator F)
    (h : Reachable ops n c) : InStep n c := by
  induction h with
  | init => exact InStep_new ops n
  | step c c1 price quantity text err _ hu ih =>
    exact Update_InStep ops n c c1 price quantity text err ih hu

/-- C7: in every state a calculator of width `n`, `n` at least 1, reaches from
NewCalculator by Update calls that return (with or without an error), the product
buffer and the quantity buffer have the same length, at most `n`. -/
theorem C7_buffers_same_length (ops : FloatOps F) (n : Nat) (_hn : 1 ≤ n) (c : Calculator F)
    (h : Reachable ops n c) :
    c.pqs.Len = c.qs.Len ∧ c.pqs.Len ≤ n ∧ c.qs.Len ≤ n := by
  obtain ⟨_, _, _, heq, hle⟩ := Reachable_InStep ops n c h
  simp only [RingBuffer.Len]
  omega

theorem C7_buffers_same_length_witness :
    1 ≤ 2 ∧ Reachable big.big53 2 afterOneUpdate ∧
    afterOneUpdate.pqs.Len = afterOneUpdate.qs.Len ∧ afterOneUpdate.pqs.Len ≤ 2 ∧
      afterOneUpdate.qs.Len ≤ 2 :=
  have hr : Reachable big.big53 2 afterOneUpdate :=
    Reachable.step (NewCalculator big.big53 2) afterOneUpdate "1" "2" "1.0000000000000000" none
      Reachable.init (by decide)
  ⟨by decide, hr, C7_buffers_same_length big.big53 2 (by decide) afterOneUpdate hr⟩

end vwap

/-! ## Pushing into a full ring buffer -/

namespace ringbuf

/-- C10 at the failing input: after PushBack of 1, 2, 3 into a new buffer of
capacity 2, Len() is 2 and two PopFront calls return 3 and then 2; the last two
items pushed, oldest first, are 2 and then 3. -/
theorem C10_pops_after_overflow :
    ∃ r r1, (NewRingBuffer 2 : RingBuffer Int).PushBackAll [1, 2, 3] = some r ∧ r.Len = 2 ∧
      r.PopFrontN 2 = some ([3, 2], r1) ∧ vwap.window 2 [(1 : Int), 2, 3] = [2, 3] ∧
      ([3, 2] : List Int) ≠ [2, 3] :=
  ⟨{ buf := [3, 2], count := 2, end_ := 1, start := 0, maxCap := 2 },
    { buf := [3, 2], count := 0, end_ := 1, start := 0, maxCap := 2 },
    by decide, by decide, by decide, by decide, by decide⟩

end ringbuf

/-! ## The number of binary digits -/

namespace big

theorem bitLenAux_le_iff (fuel : Nat) : ∀ (n k : Nat), n ≤ fuel →
    (bitLenAux fuel n ≤ k ↔ n < 2 ^ k) := by
  induction fuel with
  | zero =>
    intro n k hn
    have h0 : n = 0 := by omega
    subst h0
    simp [bitLenAux]
  | succ f ih =>
    intro n k hn
    unfold bitLenAux
    by_cases h0 : n = 0
    · subst h0
      simp
    · rw [if_neg h0]
      cases k with
      | zero =>
        simp only [pow_zero, Nat.lt_one_iff]
        constructor
        · intro h; omega
        · intro h; exact absurd h h0
      | succ k =>
        have hhalf : n / 2 ≤ f := by omega
        rw [Nat.add_le_add_iff_right, ih (n / 2) k hhalf, pow_succ]
        constructor
        · intro h; omega
        · intro h; omega

theorem bitLen_le_iff (n k : Nat) : bitLen n ≤ k ↔ n < 2 ^ k :=
  bitLenAux_le_iff n n k (le_refl n)

theorem bitLen_pos {n : Nat} (h : n ≠ 0) : 0 < bitLen n := by
  by_contra hc
  have h1 : bitLen n ≤ 0 := by omega
  rw [bitLen_le_iff] at h1
  simp at h1
  exact h h1

end big

/-! ## The ring buffer as a queue -/

namespace ringbuf

variable {T : Type}

theorem items_length [Inhabited T] (r : RingBuffer T) : r.items.length = r.count := by
  simp [RingBuffer.items]

theorem WF_new [Inhabited T] (n : Nat) (hn : 1 ≤ n) :
    (NewRingBuffer n : RingBuffer T).WF n ∧ (NewRingBuffer n : RingBuffer T).items = [] ∧
      (NewRingBuffer n : RingBuffer T).count = 0 := by
  refine ⟨⟨by simp [NewRingBuffer], rfl, Nat.zero_le _, by simp only [NewRingBuffer]; omega, ?_⟩,
    by simp [RingBuffer.items, NewRingBuffer], rfl⟩
  simp [NewRingBuffer]

theorem mod_slot_ne (n s i k : Nat) (hik : i < k) (hk : k < n) :
    (s + i) % n ≠ (s + k) % n := by
  intro h
  have h1 : Nat.ModEq n (s + i) (s + k) := h
  have h2 : Nat.ModEq n i k := Nat.ModEq.add_left_cancel' s h1
  have h3 : i % n = k % n := h2
  rw [Nat.mod_eq_of_lt (by omega), Nat.mod_eq_of_lt hk] at h3
  omega

theorem PushBack_WF [Inhabited T] (r : RingBuffer T) (n : Nat) (x : T)
    (hwf : r.WF n) (hlt : r.count < n) :
    ∃ r1, r.PushBack x = some r1 ∧ r1.WF n ∧ r1.items = r.items ++ [x] ∧
      r1.count = r.count + 1 := by
  obtain ⟨hlen, hmax, hcnt, hstart, hend⟩ := hwf
  have hn : 0 < n := by omega
  have hend_lt : r.end_ < r.buf.length := by
    rw [hend, hlen]; exact Nat.mod_lt _ hn
  refine ⟨_, by rw [RingBuffer.PushBack, if_pos hend_lt], ?_, ?_, ?_⟩
  · refine ⟨by simp [hlen], hmax, ?_, hstart, ?_⟩
    · simp only [hmax, if_pos hlt]; omega
    · simp only [hmax, if_pos hlt, List.length_set, hlen, hend, Nat.mod_add_mod]
      rw [Nat.add_assoc]
  · simp only [RingBuffer.items, hmax, if_pos hlt, List.length_set, hlen, List.range_succ,
      List.map_append, List.map_cons, List.map_nil]
    congr 1
    · apply List.map_congr_left
      intro i hi
      have hi2 : i < r.count := List.mem_range.mp hi
      have hne : r.end_ ≠ (r.start + i) % n := by
        rw [hend]; exact (mod_slot_ne n r.start i r.count hi2 hlt).symm
      simp [List.getD_eq_getElem?_getD, List.getElem?_set_ne hne]
    · rw [← hend]
      simp [List.getD_eq_getElem?_getD, List.getElem?_set_self, hend_lt]
  · simp only [hmax, if_pos hlt]

theorem PopFront_WF [Inhabited T] (r : RingBuffer T) (n : Nat)
    (hwf : r.WF n) (hpos : 0 < r.count) :
    ∃ y r1, r.PopFront = some (y, r1) ∧ r1.WF n ∧ r.items = y :: r1.items ∧
      r1.count = r.count - 1 := by
  obtain ⟨hlen, hmax, hcnt, hstart, hend⟩ := hwf
  have hn : 0 < n := by omega
  have hs : r.start < r.buf.length := by omega
  have hget : r.buf[r.start]? = some (r.buf[r.start]) := List.getElem?_eq_getElem hs
  refine ⟨r.buf[r.start],
    { r with start := (r.start + 1) % r.buf.length, count := r.count - 1 }, ?_, ?_, ?_, rfl⟩
  · rw [RingBuffer.PopFront, if_neg (by omega), hget]
  · refine ⟨hlen, hmax, ?_, ?_, ?_⟩
    · simp only; omega
    · simp only [hlen]; exact Nat.mod_lt _ hn
    · simp only [hlen, hend, Nat.mod_add_mod]
      congr 1; omega
  · obtain ⟨k, hk⟩ : ∃ k, r.count = k + 1 := ⟨r.count - 1, by omega⟩
    simp only [RingBuffer.items, hk, Nat.add_sub_cancel, List.range_succ_eq_map, List.map_cons,
      List.map_map, hlen, Nat.add_zero, Nat.mod_eq_of_lt hstart]
    congr 1
    · simp [List.getD_eq_getElem?_getD, hget]
    · apply List.map_congr_left
      intro i _
      simp only [Function.comp, Nat.mod_add_mod]
      congr 2
      omega

end ringbuf

/-! ## Windows of a run -/

namespace vwap

open ringbuf big

theorem opsWith_Mul (parse : String → Option big.Float) : (opsWith parse).Mul = big.Mul := rfl

theorem opsWith_Add (parse : String → Option big.Float) : (opsWith parse).Add = big.Add := rfl

theorem opsWith_Sub (parse : String → Option big.Float) : (opsWith parse).Sub = big.Sub := rfl

theorem opsWith_Quo (parse : String → Option big.Float) : (opsWith parse).Quo = big.Quo := rfl

theorem opsWith_TextF (parse : String → Option big.Float) :
    (opsWith parse).TextF = big.TextF := rfl

theorem opsWith_SetString (parse : String → Option big.Float) :
    (opsWith parse).SetString = parse := rfl

theorem window_nil {α : Type} (n : Nat) : window n ([] : List α) = [] := by
  simp [window]

theorem window_length {α : Type} (n : Nat) (xs : List α) :
    (window n xs).length = min xs.length n := by
  simp only [window, List.length_drop]
  omega

theorem slide_window {α : Type} (n : Nat) (hn : 1 ≤ n) (pre : List α) (x : α) :
    slide n (window n pre) x = window n (pre ++ [x]) := by
  unfold slide
  by_cases hlt : pre.length < n
  · have h1 : window n pre = pre := by
      simp [window, Nat.sub_eq_zero_of_le (Nat.le_of_lt hlt)]
    have h2 : window n (pre ++ [x]) = pre ++ [x] := by
      have h0 : (pre ++ [x]).length - n = 0 := by
        simp only [List.length_append, List.length_singleton]; omega
      rw [window, h0, List.drop_zero]
    rw [h1, h2, if_neg (by omega)]
  · have hl : (window n pre).length = n := by
      rw [window_length]; omega
    rw [if_pos hl]
    simp only [window, List.tail_drop, List.length_append, List.length_singleton]
    have h3 : pre.length + 1 - n = pre.length - n + 1 := by omega
    rw [h3, List.drop_append_of_le_length (by omega)]

theorem foldl_slide_window {α : Type} (n : Nat) (hn : 1 ≤ n) (xs pre : List α) :
    xs.foldl (slide n) (window n pre) = window n (pre ++ xs) := by
  induction xs generalizing pre with
  | nil => simp
  | cons x xs ih =>
    rw [List.foldl_cons, slide_window n hn, ih]
    simp

theorem window_one_take {α : Type} (xs : List α) (k : Nat) (hk : k < xs.length) :
    window 1 (xs.take (k + 1)) = [xs[k]] := by
  have hl : (xs.take (k + 1)).length = k + 1 := by
    rw [List.length_take]; omega
  simp only [window, hl, Nat.add_sub_cancel]
  rw [List.drop_take]
  simp only [Nat.add_sub_cancel_left]
  rw [List.take_one_drop_eq_of_lt_length hk]
  rfl

theorem window_zero {α : Type} (xs : List α) : window 0 xs = [] := by
  simp [window]

end vwap

/-! ## Floats as rational numbers -/

namespace big

theorem roundHalfEven_exact (a d : Nat) (hd : 0 < d) : roundHalfEven (a * d) d = a := by
  unfold roundHalfEven
  simp only [Nat.mul_mod_left, Nat.mul_zero, Nat.mul_div_cancel _ hd]
  have hcond : ¬ (d < 0 ∨ (0 = d ∧ a % 2 = 1)) := by
    intro h
    rcases h with h | h
    · omega
    · omega
  rw [if_neg hcond]

theorem bitLen_lower {n : Nat} (h : n ≠ 0) : 2 ^ (bitLen n - 1) ≤ n := by
  by_contra hc
  have h1 : n < 2 ^ (bitLen n - 1) := by omega
  have h2 := (bitLen_le_iff n (bitLen n - 1)).mpr h1
  have h3 := bitLen_pos h
  omega

theorem bitLen_upper (n : Nat) : n < 2 ^ bitLen n :=
  (bitLen_le_iff n (bitLen n)).mp (le_refl _)

/-- A mantissa of `bitLen m` binary digits at the exponent `e` lies in one binade. -/
theorem zpow_bitLen_bounds (m : Nat) (hm : m ≠ 0) (e : Int) :
    (2 : ℚ) ^ (e + (bitLen m : Int) - 1) ≤ (m : ℚ) * (2 : ℚ) ^ e ∧
    (m : ℚ) * (2 : ℚ) ^ e < (2 : ℚ) ^ (e + (bitLen m : Int)) := by
  have hlo := bitLen_lower hm
  have hhi := bitLen_upper m
  have hpos := bitLen_pos hm
  have hE : (0 : ℚ) < (2 : ℚ) ^ e := zpow_pos (by norm_num) e
  have hlo' : ((2 : ℚ) ^ (bitLen m - 1)) ≤ (m : ℚ) := by exact_mod_cast hlo
  have hhi' : (m : ℚ) < ((2 : ℚ) ^ (bitLen m)) := by exact_mod_cast hhi
  constructor
  · have : e + (bitLen m : Int) - 1 = ((bitLen m - 1 : Nat) : Int) + e := by omega
    rw [this, zpow_add₀ (by norm_num), zpow_natCast]
    exact mul_le_mul_of_nonneg_right hlo' (le_of_lt hE)
  · have : e + (bitLen m : Int) = ((bitLen m : Nat) : Int) + e := by omega
    rw [this, zpow_add₀ (by norm_num), zpow_natCast]
    exact mul_lt_mul_of_pos_right hhi' hE

theorem goExp_unique (M m : Nat) (E e : Int) (hM : M ≠ 0) (hm : m ≠ 0)
    (h : (M : ℚ) * (2 : ℚ) ^ E = (m : ℚ) * (2 : ℚ) ^ e) :
    E + (bitLen M : Int) = e + (bitLen m : Int) := by
  obtain ⟨a1, a2⟩ := zpow_bitLen_bounds M hM E
  obtain ⟨b1, b2⟩ := zpow_bitLen_bounds m hm e
  rw [h] at a1 a2
  have h1 : (2 : ℚ) ^ (E + (bitLen M : Int) - 1) < (2 : ℚ) ^ (e + (bitLen m : Int)) :=
    lt_of_le_of_lt a1 b2
  have h2 : (2 : ℚ) ^ (e + (bitLen m : Int) - 1) < (2 : ℚ) ^ (E + (bitLen M : Int)) :=
    lt_of_le_of_lt b1 a2
  rw [zpow_lt_zpow_iff_right₀ (by norm_num)] at h1 h2
  omega

/-- An equality of two scaled mantissas, read on natural numbers. -/
theorem mant_of_scaled (M m : Nat) (E e : Int) (hle : E ≤ e)
    (h : (M : ℚ) * (2 : ℚ) ^ E = (m : ℚ) * (2 : ℚ) ^ e) :
    M = m * 2 ^ (e - E).toNat := by
  have hE : (2 : ℚ) ^ E ≠ 0 := zpow_ne_zero _ (by norm_num)
  have he : (2 : ℚ) ^ e = (2 : ℚ) ^ (e - E).toNat * (2 : ℚ) ^ E := by
    rw [← zpow_natCast, ← zpow_add₀ (by norm_num)]
    congr 1
    omega
  rw [he, ← mul_assoc] at h
  have h2 := mul_right_cancel₀ hE h
  exact_mod_cast h2

/-- A mantissa whose value at its exponent is a float of 53 bits is not rounded. -/
theorem setExpAndRound_exact (neg : Bool) (M : Nat) (E : Int) (hM : M ≠ 0)
    (m : Nat) (e : Int) (hm : m ≠ 0) (hm53 : m < 2 ^ 53)
    (hlo : MinExp ≤ e + (bitLen m : Int)) (hhi : e + (bitLen m : Int) ≤ MaxExp)
    (h : (M : ℚ) * (2 : ℚ) ^ E = (m : ℚ) * (2 : ℚ) ^ e) :
    ∃ M1 E1, setExpAndRound neg M E false = .finite neg M1 E1 ∧ M1 ≠ 0 ∧
      (M1 : ℚ) * (2 : ℚ) ^ E1 = (M : ℚ) * (2 : ℚ) ^ E := by
  have hg := goExp_unique M m E e hM hm h
  have hl53 : bitLen m ≤ 53 := (bitLen_le_iff m 53).mpr hm53
  unfold setExpAndRound
  rw [if_neg hM, if_neg (by omega), if_neg (by omega)]
  unfold roundMant
  simp only [prec]
  by_cases hfit : bitLen M ≤ 53
  · rw [if_pos hfit]
    simp only [Nat.cast_zero, add_zero]
    rw [if_neg (by omega)]
    exact ⟨M, E, rfl, hM, rfl⟩
  · rw [if_neg hfit]
    have hle : E ≤ e := by omega
    have hMm := mant_of_scaled M m E e hle h
    have hs1 : 1 ≤ bitLen M - 53 := by omega
    have hst : bitLen M - 53 ≤ (e - E).toNat := by omega
    generalize hsd : bitLen M - 53 = s at hs1 hst
    obtain ⟨j, hj⟩ : ∃ j, (e - E).toNat = j + s := ⟨(e - E).toNat - s, by omega⟩
    have hM2 : M = m * 2 ^ j * 2 ^ s := by
      rw [hMm, hj, pow_add, Nat.mul_assoc]
    have hlow : M % 2 ^ s = 0 := by
      rw [hM2]; exact Nat.mul_mod_left _ _
    have hq : M / 2 ^ s = m * 2 ^ j := by
      rw [hM2]; exact Nat.mul_div_cancel _ (by positivity)
    have hhalf : 0 < 2 ^ (s - 1) := by positivity
    rw [hlow, hq]
    have hcond : ¬ (2 ^ (s - 1) < 0 ∨ (0 = 2 ^ (s - 1) ∧ (false = true ∨ m * 2 ^ j % 2 = 1))) := by
      intro h
      rcases h with h | h
      · omega
      · omega
    rw [if_neg hcond]
    simp only
    have hq0 : m * 2 ^ j ≠ 0 := Nat.mul_ne_zero hm (by positivity)
    have hval : ((m * 2 ^ j : Nat) : ℚ) * (2 : ℚ) ^ (E + (s : Int)) = (M : ℚ) * (2 : ℚ) ^ E := by
      rw [hM2, zpow_add₀ (by norm_num), zpow_natCast]
      push_cast
      ring
    have hg2 := goExp_unique (m * 2 ^ j) M (E + (s : Int)) E hq0 hM hval
    rw [if_neg (by omega)]
    exact ⟨_, _, rfl, hq0, hval⟩

theorem Rep53_neg (x : ℚ) (h : Rep53 x) : Rep53 (-x) := by
  rcases h with h | ⟨m, e, h1, h2, h3, h4, h5⟩
  · left; rw [h]; simp
  · right; exact ⟨m, e, h1, h2, h3, h4, by rw [abs_neg]; exact h5⟩

theorem Rep53_zero : Rep53 0 := Or.inl rfl

theorem setExpAndRound_val (neg : Bool) (M : Nat) (E : Int)
    (h : Rep53 ((M : ℚ) * (2 : ℚ) ^ E)) :
    (setExpAndRound neg M E false).IsInf = false ∧
    (setExpAndRound neg M E false).toRat = (if neg then -1 else 1) * ((M : ℚ) * (2 : ℚ) ^ E) := by
  by_cases hM : M = 0
  · subst hM
    simp [setExpAndRound, Float.IsInf, Float.toRat]
  · have hE : (0 : ℚ) < (2 : ℚ) ^ E := zpow_pos (by norm_num) E
    have hMq : (0 : ℚ) < (M : ℚ) := by exact_mod_cast Nat.pos_of_ne_zero hM
    have hpos : (0 : ℚ) < (M : ℚ) * (2 : ℚ) ^ E := mul_pos hMq hE
    rcases h with h | ⟨m, e, h1, h2, h3, h4, h5⟩
    · exact absurd h (ne_of_gt hpos)
    · rw [abs_of_pos hpos] at h5
      obtain ⟨M1, E1, hr, _, hv⟩ := setExpAndRound_exact neg M E hM m e h1 h2 h3 h4 h5
      rw [hr]
      refine ⟨rfl, ?_⟩
      simp only [Float.toRat]
      rw [mul_assoc, hv]

theorem alignMant_val (m : Nat) (e e0 : Int) (h : e0 ≤ e) :
    ((alignMant m e e0 : Nat) : ℚ) * (2 : ℚ) ^ e0 = (m : ℚ) * (2 : ℚ) ^ e := by
  unfold alignMant
  push_cast
  rw [mul_assoc, ← zpow_natCast, ← zpow_add₀ (by norm_num)]
  congr 2
  omega

theorem uadd_val (neg : Bool) (m1 : Nat) (e1 : Int) (m2 : Nat) (e2 : Int)
    (h : Rep53 ((m1 : ℚ) * (2 : ℚ) ^ e1 + (m2 : ℚ) * (2 : ℚ) ^ e2)) :
    (uadd neg m1 e1 m2 e2).IsInf = false ∧
    (uadd neg m1 e1 m2 e2).toRat =
      (if neg then -1 else 1) * ((m1 : ℚ) * (2 : ℚ) ^ e1 + (m2 : ℚ) * (2 : ℚ) ^ e2) := by
  have h1 := alignMant_val m1 e1 (min e1 e2) (min_le_left _ _)
  have h2 := alignMant_val m2 e2 (min e1 e2) (min_le_right _ _)
  have hs : ((alignMant m1 e1 (min e1 e2) + alignMant m2 e2 (min e1 e2) : Nat) : ℚ) *
      (2 : ℚ) ^ (min e1 e2) = (m1 : ℚ) * (2 : ℚ) ^ e1 + (m2 : ℚ) * (2 : ℚ) ^ e2 := by
    push_cast
    rw [add_mul, h1, h2]
  unfold uadd
  simp only []
  rw [← hs] at h ⊢
  exact setExpAndRound_val neg _ _ h

theorem usub_val (neg : Bool) (m1 : Nat) (e1 : Int) (m2 : Nat) (e2 : Int)
    (hle : (m2 : ℚ) * (2 : ℚ) ^ e2 ≤ (m1 : ℚ) * (2 : ℚ) ^ e1)
    (h : Rep53 ((m1 : ℚ) * (2 : ℚ) ^ e1 - (m2 : ℚ) * (2 : ℚ) ^ e2)) :
    (usub neg m1 e1 m2 e2).IsInf = false ∧
    (usub neg m1 e1 m2 e2).toRat =
      (if neg then -1 else 1) * ((m1 : ℚ) * (2 : ℚ) ^ e1 - (m2 : ℚ) * (2 : ℚ) ^ e2) := by
  have h1 := alignMant_val m1 e1 (min e1 e2) (min_le_left _ _)
  have h2 := alignMant_val m2 e2 (min e1 e2) (min_le_right _ _)
  have hE : (0 : ℚ) < (2 : ℚ) ^ (min e1 e2) := zpow_pos (by norm_num) _
  have hnat : alignMant m2 e2 (min e1 e2) ≤ alignMant m1 e1 (min e1 e2) := by
    rw [← h1, ← h2] at hle
    have := le_of_mul_le_mul_right hle hE
    exact_mod_cast this
  have hs : ((alignMant m1 e1 (min e1 e2) - alignMant m2 e2 (min e1 e2) : Nat) : ℚ) *
      (2 : ℚ) ^ (min e1 e2) = (m1 : ℚ) * (2 : ℚ) ^ e1 - (m2 : ℚ) * (2 : ℚ) ^ e2 := by
    rw [Nat.cast_sub hnat, sub_mul, h1, h2]
  unfold usub
  simp only []
  rw [← hs] at h ⊢
  by_cases hd : alignMant m1 e1 (min e1 e2) - alignMant m2 e2 (min e1 e2) = 0
  · rw [if_pos hd, hd]
    simp [Float.IsInf, Float.toRat]
  · rw [if_neg hd]
    exact setExpAndRound_val neg _ _ h

theorem ugt_iff (m1 : Nat) (e1 : Int) (m2 : Nat) (e2 : Int) :
    ugt m1 e1 m2 e2 = true ↔ (m2 : ℚ) * (2 : ℚ) ^ e2 < (m1 : ℚ) * (2 : ℚ) ^ e1 := by
  have h1 := alignMant_val m1 e1 (min e1 e2) (min_le_left _ _)
  have h2 := alignMant_val m2 e2 (min e1 e2) (min_le_right _ _)
  have hE : (0 : ℚ) < (2 : ℚ) ^ (min e1 e2) := zpow_pos (by norm_num) _
  unfold ugt
  rw [decide_eq_true_iff, ← h1, ← h2]
  constructor
  · intro h
    exact mul_lt_mul_of_pos_right (by exact_mod_cast h) hE
  · intro h
    have := lt_of_mul_lt_mul_right h (le_of_lt hE)
    exact_mod_cast this

/-- Add without rounding. -/
theorem Add_exact (x y : Float) (hx : x.IsInf = false) (hy : y.IsInf = false)
    (h : Rep53 (x.toRat + y.toRat)) :
    ∃ z, Add x y = some z ∧ z.IsInf = false ∧ z.toRat = x.toRat + y.toRat := by
  cases x with
  | inf n => simp [Float.IsInf] at hx
  | zero xn =>
    cases y with
    | inf n => simp [Float.IsInf] at hy
    | zero yn => exact ⟨_, rfl, rfl, by simp [Float.toRat]⟩
    | finite yn ym ye => exact ⟨_, rfl, rfl, by simp [Float.toRat]⟩
  | finite xn xm xe =>
    cases y with
    | inf n => simp [Float.IsInf] at hy
    | zero yn => exact ⟨_, rfl, rfl, by simp [Float.toRat]⟩
    | finite yn ym ye =>
      have tx : (Float.finite xn xm xe).toRat =
          (if xn then -1 else 1) * (xm : ℚ) * (2 : ℚ) ^ xe := rfl
      have ty : (Float.finite yn ym ye).toRat =
          (if yn then -1 else 1) * (ym : ℚ) * (2 : ℚ) ^ ye := rfl
      rw [tx, ty] at h ⊢
      unfold Add
      simp only []
      by_cases hs : xn = yn
      · subst hs
        rw [if_pos rfl]
        have hr : Rep53 ((xm : ℚ) * (2 : ℚ) ^ xe + (ym : ℚ) * (2 : ℚ) ^ ye) := by
          cases xn
          · simpa [mul_assoc] using h
          · have := Rep53_neg _ h
            have e : -(((if true = true then (-1 : ℚ) else 1) * (xm : ℚ) * (2 : ℚ) ^ xe) +
                ((if true = true then (-1 : ℚ) else 1) * (ym : ℚ) * (2 : ℚ) ^ ye)) =
                (xm : ℚ) * (2 : ℚ) ^ xe + (ym : ℚ) * (2 : ℚ) ^ ye := by
              simp only [if_true]; ring
            rw [e] at this
            exact this
        obtain ⟨a, b⟩ := uadd_val xn xm xe ym ye hr
        refine ⟨_, rfl, a, ?_⟩
        rw [b]
        ring
      · rw [if_neg hs]
        by_cases hg : ugt xm xe ym ye = true
        · rw [if_pos hg]
          have hlt := (ugt_iff xm xe ym ye).mp hg
          have hr : Rep53 ((xm : ℚ) * (2 : ℚ) ^ xe - (ym : ℚ) * (2 : ℚ) ^ ye) := by
            cases xn <;> cases yn <;> simp at hs
            · have e : (if false = true then (-1 : ℚ) else 1) * (xm : ℚ) * (2 : ℚ) ^ xe +
                  (if true = true then (-1 : ℚ) else 1) * (ym : ℚ) * (2 : ℚ) ^ ye =
                  (xm : ℚ) * (2 : ℚ) ^ xe - (ym : ℚ) * (2 : ℚ) ^ ye := by
                simp only [eq_self_iff_true, if_true, Bool.false_eq_true, if_false]; ring
              rw [e] at h; exact h
            · have := Rep53_neg _ h
              have e : -((if true = true then (-1 : ℚ) else 1) * (xm : ℚ) * (2 : ℚ) ^ xe +
                  (if false = true then (-1 : ℚ) else 1) * (ym : ℚ) * (2 : ℚ) ^ ye) =
                  (xm : ℚ) * (2 : ℚ) ^ xe - (ym : ℚ) * (2 : ℚ) ^ ye := by
                simp only [eq_self_iff_true, if_true, Bool.false_eq_true, if_false]; ring
              rw [e] at this; exact this
          obtain ⟨a, b⟩ := usub_val xn xm xe ym ye (le_of_lt hlt) hr
          refine ⟨_, rfl, a, ?_⟩
          rw [b]
          cases xn <;> cases yn <;> simp at hs <;> simp <;> ring
        · rw [if_neg hg]
          have hle : (xm : ℚ) * (2 : ℚ) ^ xe ≤ (ym : ℚ) * (2 : ℚ) ^ ye := by
            by_contra hc
            exact hg ((ugt_iff xm xe ym ye).mpr (lt_of_not_le hc))
          have hr : Rep53 ((ym : ℚ) * (2 : ℚ) ^ ye - (xm : ℚ) * (2 : ℚ) ^ xe) := by
            cases xn <;> cases yn <;> simp at hs
            · have := Rep53_neg _ h
              have e : -((if false = true then (-1 : ℚ) else 1) * (xm : ℚ) * (2 : ℚ) ^ xe +
                  (if true = true then (-1 : ℚ) else 1) * (ym : ℚ) * (2 : ℚ) ^ ye) =
                  (ym : ℚ) * (2 : ℚ) ^ ye - (xm : ℚ) * (2 : ℚ) ^ xe := by
                simp only [eq_self_iff_true, if_true, Bool.false_eq_true, if_false]; ring
              rw [e] at this; exact this
            · have e : (if true = true then (-1 : ℚ) else 1) * (xm : ℚ) * (2 : ℚ) ^ xe +
                  (if false = true then (-1 : ℚ) else 1) * (ym : ℚ) * (2 : ℚ) ^ ye =
                  (ym : ℚ) * (2 : ℚ) ^ ye - (xm : ℚ) * (2 : ℚ) ^ xe := by
                simp only [eq_self_iff_true, if_true, Bool.false_eq_true, if_false]; ring
              rw [e] at h; exact h
          obtain ⟨a, b⟩ := usub_val (!xn) ym ye xm xe hle hr
          refine ⟨_, rfl, a, ?_⟩
          rw [b]
          cases xn <;> cases yn <;> simp at hs <;> simp <;> ring

/-- Sub without rounding. -/
theorem Sub_exact (x y : Float) (hx : x.IsInf = false) (hy : y.IsInf = false)
    (h : Rep53 (x.toRat - y.toRat)) :
    ∃ z, Sub x y = some z ∧ z.IsInf = false ∧ z.toRat = x.toRat - y.toRat := by
  cases x with
  | inf n => simp [Float.IsInf] at hx
  | zero xn =>
    cases y with
    | inf n => simp [Float.IsInf] at hy
    | zero yn => exact ⟨_, rfl, rfl, by simp [Float.toRat]⟩
    | finite yn ym ye =>
      refine ⟨_, rfl, rfl, ?_⟩
      cases yn <;> simp [Float.toRat]
  | finite xn xm xe =>
    cases y with
    | inf n => simp [Float.IsInf] at hy
    | zero yn => exact ⟨_, rfl, rfl, by simp [Float.toRat]⟩
    | finite yn ym ye =>
      have tx : (Float.finite xn xm xe).toRat =
          (if xn then -1 else 1) * (xm : ℚ) * (2 : ℚ) ^ xe := rfl
      have ty : (Float.finite yn ym ye).toRat =
          (if yn then -1 else 1) * (ym : ℚ) * (2 : ℚ) ^ ye := rfl
      rw [tx, ty] at h ⊢
      unfold Sub
      simp only []
      by_cases hs : xn ≠ yn
      · rw [if_pos hs]
        have hr : Rep53 ((xm : ℚ) * (2 : ℚ) ^ xe + (ym : ℚ) * (2 : ℚ) ^ ye) := by
          cases xn <;> cases yn <;> simp at hs
          · have e : (if false = true then (-1 : ℚ) else 1) * (xm : ℚ) * (2 : ℚ) ^ xe -
                (if true = true then (-1 : ℚ) else 1) * (ym : ℚ) * (2 : ℚ) ^ ye =
                (xm : ℚ) * (2 : ℚ) ^ xe + (ym : ℚ) * (2 : ℚ) ^ ye := by
              simp only [eq_self_iff_true, if_true, Bool.false_eq_true, if_false]; ring
            rw [e] at h; exact h
          · have := Rep53_neg _ h
            have e : -((if true = true then (-1 : ℚ) else 1) * (xm : ℚ) * (2 : ℚ) ^ xe -
                (if false = true then (-1 : ℚ) else 1) * (ym : ℚ) * (2 : ℚ) ^ ye) =
                (xm : ℚ) * (2 : ℚ) ^ xe + (ym : ℚ) * (2 : ℚ) ^ ye := by
              simp only [eq_self_iff_true, if_true, Bool.false_eq_true, if_false]; ring
            rw [e] at this; exact this
        obtain ⟨a, b⟩ := uadd_val xn xm xe ym ye hr
        refine ⟨_, rfl, a, ?_⟩
        rw [b]
        cases xn <;> cases yn <;> simp at hs <;> simp <;> ring
      · rw [if_neg hs]
        have hs2 : xn = yn := by
          by_contra hc
          exact hs hc
        subst hs2
        by_cases hg : ugt xm xe ym ye = true
        · rw [if_pos hg]
          have hlt := (ugt_iff xm xe ym ye).mp hg
          have hr : Rep53 ((xm : ℚ) * (2 : ℚ) ^ xe - (ym : ℚ) * (2 : ℚ) ^ ye) := by
            cases xn
            · simpa [mul_assoc] using h
            · have := Rep53_neg _ h
              have e : -((if true = true then (-1 : ℚ) else 1) * (xm : ℚ) * (2 : ℚ) ^ xe -
                  (if true = true then (-1 : ℚ) else 1) * (ym : ℚ) * (2 : ℚ) ^ ye) =
                  (xm : ℚ) * (2 : ℚ) ^ xe - (ym : ℚ) * (2 : ℚ) ^ ye := by
                simp only [eq_self_iff_true, if_true, Bool.false_eq_true, if_false]; ring
              rw [e] at this; exact this
          obtain ⟨a, b⟩ := usub_val xn xm xe ym ye (le_of_lt hlt) hr
          refine ⟨_, rfl, a, ?_⟩
          rw [b]
          ring
        · rw [if_neg hg]
          have hle : (xm : ℚ) * (2 : ℚ) ^ xe ≤ (ym : ℚ) * (2 : ℚ) ^ ye := by
            by_contra hc
            exact hg ((ugt_iff xm xe ym ye).mpr (lt_of_not_le hc))
          have hr : Rep53 ((ym : ℚ) * (2 : ℚ) ^ ye - (xm : ℚ) * (2 : ℚ) ^ xe) := by
            cases xn
            · have := Rep53_neg _ h
              have e : -((if false = true then (-1 : ℚ) else 1) * (xm : ℚ) * (2 : ℚ) ^ xe -
                  (if false = true then (-1 : ℚ) else 1) * (ym : ℚ) * (2 : ℚ) ^ ye) =
                  (ym : ℚ) * (2 : ℚ) ^ ye - (xm : ℚ) * (2 : ℚ) ^ xe := by
                simp only [eq_self_iff_true, if_true, Bool.false_eq_true, if_false]; ring
              rw [e] at this; exact this
            · have e : (if true = true then (-1 : ℚ) else 1) * (xm : ℚ) * (2 : ℚ) ^ xe -
                  (if true = true then (-1 : ℚ) else 1) * (ym : ℚ) * (2 : ℚ) ^ ye =
                  (ym : ℚ) * (2 : ℚ) ^ ye - (xm : ℚ) * (2 : ℚ) ^ xe := by
                simp only [eq_self_iff_true, if_true, Bool.false_eq_true, if_false]; ring
              rw [e] at h; exact h
          obtain ⟨a, b⟩ := usub_val (!xn) ym ye xm xe hle hr
          refine ⟨_, rfl, a, ?_⟩
          rw [b]
          cases xn <;> simp <;> ring

/-- Mul without rounding. -/
theorem Mul_exact (x y : Float) (hx : x.IsInf = false) (hy : y.IsInf = false)
    (h : Rep53 (x.toRat * y.toRat)) :
    ∃ z, Mul x y = some z ∧ z.IsInf = false ∧ z.toRat = x.toRat * y.toRat := by
  cases x with
  | inf n => simp [Float.IsInf] at hx
  | zero xn =>
    cases y with
    | inf n => simp [Float.IsInf] at hy
    | zero yn => exact ⟨_, rfl, rfl, by simp [Float.toRat]⟩
    | finite yn ym ye => exact ⟨_, rfl, rfl, by simp [Float.toRat]⟩
  | finite xn xm xe =>
    cases y with
    | inf n => simp [Float.IsInf] at hy
    | zero yn => exact ⟨_, rfl, rfl, by simp [Float.toRat]⟩
    | finite yn ym ye =>
      have tx : (Float.finite xn xm xe).toRat =
          (if xn then -1 else 1) * (xm : ℚ) * (2 : ℚ) ^ xe := rfl
      have ty : (Float.finite yn ym ye).toRat =
          (if yn then -1 else 1) * (ym : ℚ) * (2 : ℚ) ^ ye := rfl
      rw [tx, ty] at h ⊢
      have hv : ((xm * ym : Nat) : ℚ) * (2 : ℚ) ^ (xe + ye) =
          ((xm : ℚ) * (2 : ℚ) ^ xe) * ((ym : ℚ) * (2 : ℚ) ^ ye) := by
        rw [zpow_add₀ (by norm_num)]
        push_cast
        ring
      have hr : Rep53 (((xm * ym : Nat) : ℚ) * (2 : ℚ) ^ (xe + ye)) := by
        rw [hv]
        cases xn <;> cases yn
        · simpa [mul_assoc] using h
        · have := Rep53_neg _ h
          have e : -((if false = true then (-1 : ℚ) else 1) * (xm : ℚ) * (2 : ℚ) ^ xe *
              ((if true = true then (-1 : ℚ) else 1) * (ym : ℚ) * (2 : ℚ) ^ ye)) =
              ((xm : ℚ) * (2 : ℚ) ^ xe) * ((ym : ℚ) * (2 : ℚ) ^ ye) := by
            simp only [eq_self_iff_true, if_true, Bool.false_eq_true, if_false]; ring
          rw [e] at this; exact this
        · have := Rep53_neg _ h
          have e : -((if true = true then (-1 : ℚ) else 1) * (xm : ℚ) * (2 : ℚ) ^ xe *
              ((if false = true then (-1 : ℚ) else 1) * (ym : ℚ) * (2 : ℚ) ^ ye)) =
              ((xm : ℚ) * (2 : ℚ) ^ xe) * ((ym : ℚ) * (2 : ℚ) ^ ye) := by
            simp only [eq_self_iff_true, if_true, Bool.false_eq_true, if_false]; ring
          rw [e] at this; exact this
        · have e : (if true = true then (-1 : ℚ) else 1) * (xm : ℚ) * (2 : ℚ) ^ xe *
              ((if true = true then (-1 : ℚ) else 1) * (ym : ℚ) * (2 : ℚ) ^ ye) =
              ((xm : ℚ) * (2 : ℚ) ^ xe) * ((ym : ℚ) * (2 : ℚ) ^ ye) := by
            simp only [eq_self_iff_true, if_true, Bool.false_eq_true, if_false]; ring
          rw [e] at h; exact h
      obtain ⟨a, b⟩ := setExpAndRound_val (xn != yn) (xm * ym) (xe + ye) hr
      refine ⟨_, rfl, a, ?_⟩
      rw [b, hv]
      cases xn <;> cases yn <;> simp

/-- Rounding a mantissa of more than 53 bits, the exact value being
`q + rem / b` with `rem < b`: the result has 53 bits, or is `2 ^ 53`, is within
half a unit of the exact value, and is even when the exact value is half way. -/
theorem roundMant_nearest (q b rem : Nat) (hq : ¬ bitLen q ≤ 53) (hrem : rem < b) :
    (roundMant q (decide (rem ≠ 0))).2 = bitLen q - 53 ∧
    2 ^ 52 ≤ (roundMant q (decide (rem ≠ 0))).1 ∧
    (roundMant q (decide (rem ≠ 0))).1 ≤ 2 ^ 53 ∧
    2 * ((roundMant q (decide (rem ≠ 0))).1 * 2 ^ (bitLen q - 53) * b) ≤
      2 * (q * b + rem) + 2 ^ (bitLen q - 53) * b ∧
    2 * (q * b + rem) ≤
      2 * ((roundMant q (decide (rem ≠ 0))).1 * 2 ^ (bitLen q - 53) * b) +
        2 ^ (bitLen q - 53) * b ∧
    ((2 * ((roundMant q (decide (rem ≠ 0))).1 * 2 ^ (bitLen q - 53) * b) =
        2 * (q * b + rem) + 2 ^ (bitLen q - 53) * b ∨
      2 * (q * b + rem) =
        2 * ((roundMant q (decide (rem ≠ 0))).1 * 2 ^ (bitLen q - 53) * b) +
          2 ^ (bitLen q - 53) * b) →
      (roundMant q (decide (rem ≠ 0))).1 % 2 = 0) := by
  have hq0 : q ≠ 0 := by
    intro h; subst h
    exact hq (by simp [bitLen, bitLenAux])
  have hlo := bitLen_lower hq0
  have hhi := bitLen_upper q
  obtain ⟨s, hs⟩ : ∃ s, bitLen q = 53 + (s + 1) := ⟨bitLen q - 54, by omega⟩
  have hs' : bitLen q - 53 = s + 1 := by omega
  have hs'' : bitLen q - 1 = 52 + (s + 1) := by omega
  rw [hs''] at hlo
  rw [hs] at hhi
  unfold roundMant
  simp only [prec, if_neg hq, hs', Nat.add_sub_cancel]
  have hX : 0 < 2 ^ (s + 1) := by positivity
  have hdm := Nat.div_add_mod q (2 ^ (s + 1))
  have hlow := Nat.mod_lt q hX
  have hm0lo : 2 ^ 52 ≤ q / 2 ^ (s + 1) := by
    rw [Nat.le_div_iff_mul_le hX, ← pow_add]; exact hlo
  have hm0hi : q / 2 ^ (s + 1) < 2 ^ 53 := by
    rw [Nat.div_lt_iff_lt_mul hX, ← pow_add]; exact hhi
  generalize q / 2 ^ (s + 1) = m0 at hdm hm0lo hm0hi ⊢
  generalize q % 2 ^ (s + 1) = low at hdm hlow ⊢
  have hXH : 2 ^ (s + 1) = 2 * 2 ^ s := by rw [pow_succ]; ring
  have hH : 0 < 2 ^ s := by positivity
  generalize 2 ^ s = H at hXH hH ⊢
  rw [hXH] at hdm hlow ⊢
  subst hdm
  have e1 : (2 * H * m0 + low) * b = 2 * (H * m0 * b) + low * b := by ring
  have e2 : ∀ m, m * (2 * H) * b = 2 * (H * m * b) := by intro m; ring
  have e3 : (2 * H) * b = 2 * (H * b) := by ring
  have e4 : H * (m0 + 1) * b = H * m0 * b + H * b := by ring
  have hb1 : H * b ≥ b := Nat.le_mul_of_pos_left b hH
  have hup : low * b ≤ (2 * H - 1) * b := Nat.mul_le_mul_right b (by omega)
  have e5 : (2 * H - 1) * b + b = 2 * (H * b) := by
    have : 2 * H - 1 + 1 = 2 * H := by omega
    calc (2 * H - 1) * b + b = (2 * H - 1 + 1) * b := by ring
      _ = 2 * (H * b) := by rw [this]; ring
  split_ifs with hc
  · simp only [e1, e2, e3, e4]
    refine ⟨trivial, by omega, by omega, ?_, ?_, ?_⟩
    · rcases hc with hc | ⟨hc, _⟩
      · have : (H + 1) * b ≤ low * b := Nat.mul_le_mul_right b hc
        have e6 : (H + 1) * b = H * b + b := by ring
        omega
      · subst hc
        omega
    · omega
    · intro ht
      rcases hc with hc | ⟨hc, hc2⟩
      · have : (H + 1) * b ≤ low * b := Nat.mul_le_mul_right b hc
        have e6 : (H + 1) * b = H * b + b := by ring
        omega
      · subst hc
        have hr : rem = 0 := by omega
        subst hr
        rcases hc2 with hc2 | hc2
        · simp at hc2
        · omega
  · simp only [e1, e2, e3]
    have hle : low ≤ H := by
      by_contra h
      exact hc (Or.inl (by omega))
    have hcase : (low = H ∧ rem = 0 ∧ m0 % 2 = 0) ∨ low * b + b ≤ H * b := by
      by_cases heq : low = H
      · left
        subst heq
        have hr : rem = 0 := by
          by_contra h
          exact hc (Or.inr ⟨rfl, Or.inl (by simp [h])⟩)
        refine ⟨rfl, hr, ?_⟩
        by_contra h
        exact hc (Or.inr ⟨rfl, Or.inr (by omega)⟩)
      · right
        have : low * b ≤ (H - 1) * b := Nat.mul_le_mul_right b (by omega)
        have e6 : (H - 1) * b + b = H * b := by
          have : H - 1 + 1 = H := by omega
          calc (H - 1) * b + b = (H - 1 + 1) * b := by ring
            _ = H * b := by rw [this]
        omega
    refine ⟨trivial, by omega, by omega, by omega, ?_, ?_⟩
    · rcases hcase with ⟨h1, h2, _⟩ | h
      · subst h1; subst h2; omega
      · omega
    · intro ht
      rcases hcase with ⟨_, _, h3⟩ | h
      · exact h3
      · omega

/-- The quotient of two magnitudes is the exact quotient rounded once: a mantissa
from `2 ^ 52` to `2 ^ 53` in the binade of the quotient, within half a unit of it,
and even on a tie. -/
theorem uquo_rounded (neg : Bool) (m1 : Nat) (e1 : Int) (m2 : Nat) (e2 : Int)
    (h1 : m1 ≠ 0) (h2 : m2 ≠ 0)
    (hr : InRange ((m1 : ℚ) * (2 : ℚ) ^ e1 / ((m2 : ℚ) * (2 : ℚ) ^ e2))) :
    ∃ m e, uquo neg m1 e1 m2 e2 = .finite neg m e ∧ 2 ^ 52 ≤ m ∧ m ≤ 2 ^ 53 ∧
      (2 : ℚ) ^ 52 * (2 : ℚ) ^ e ≤ (m1 : ℚ) * (2 : ℚ) ^ e1 / ((m2 : ℚ) * (2 : ℚ) ^ e2) ∧
      (m1 : ℚ) * (2 : ℚ) ^ e1 / ((m2 : ℚ) * (2 : ℚ) ^ e2) < (2 : ℚ) ^ 53 * (2 : ℚ) ^ e ∧
      |(m : ℚ) * (2 : ℚ) ^ e - (m1 : ℚ) * (2 : ℚ) ^ e1 / ((m2 : ℚ) * (2 : ℚ) ^ e2)| ≤
        (2 : ℚ) ^ e / 2 ∧
      (|(m : ℚ) * (2 : ℚ) ^ e - (m1 : ℚ) * (2 : ℚ) ^ e1 / ((m2 : ℚ) * (2 : ℚ) ^ e2)| =
        (2 : ℚ) ^ e / 2 → m % 2 = 0) := by
  have hB : (0 : ℚ) < (m2 : ℚ) := by exact_mod_cast Nat.pos_of_ne_zero h2
  have hA0 : (0 : ℚ) < (m1 : ℚ) := by exact_mod_cast Nat.pos_of_ne_zero h1
  have hratio_pos : (0 : ℚ) < (m1 : ℚ) * (2 : ℚ) ^ e1 / ((m2 : ℚ) * (2 : ℚ) ^ e2) :=
    div_pos (mul_pos hA0 (zpow_pos (by norm_num) _)) (mul_pos hB (zpow_pos (by norm_num) _))
  obtain ⟨hr1, hr2⟩ := hr
  rw [abs_of_pos hratio_pos] at hr1 hr2
  unfold uquo setExpAndRound
  simp only []
  have hbk : m2 * 2 ^ 64 ≤ 2 ^ (bitLen m2 + 64) := by
    rw [pow_add]
    exact Nat.mul_le_mul_right _ (Nat.le_of_lt (bitLen_upper m2))
  -- the exact ratio through the integer quotient
  have hratio : ∀ k : Nat, (m1 : ℚ) * (2 : ℚ) ^ e1 / ((m2 : ℚ) * (2 : ℚ) ^ e2) =
      ((m1 : ℚ) * (2 : ℚ) ^ k / (m2 : ℚ)) * (2 : ℚ) ^ (e1 - e2 - (k : Int)) := by
    intro k
    have hk0 : (2 : ℚ) ^ k ≠ 0 := by positivity
    have he2 : (2 : ℚ) ^ e2 ≠ 0 := zpow_ne_zero _ (by norm_num)
    rw [zpow_sub₀ (by norm_num), zpow_sub₀ (by norm_num), zpow_natCast]
    field_simp
    ring
  rw [hratio (bitLen m2 + 64)] at hr1 hr2 ⊢
  generalize bitLen m2 + 64 = k at hbk hr1 hr2 ⊢
  generalize e1 - e2 - (k : Int) = E at hr1 hr2 ⊢
  have hbpos : 0 < m2 := Nat.pos_of_ne_zero h2
  have hrem : m1 * 2 ^ k % m2 < m2 := Nat.mod_lt _ hbpos
  have hdm := Nat.div_add_mod (m1 * 2 ^ k) m2
  have hqlo : 2 ^ 64 ≤ m1 * 2 ^ k / m2 := by
    rw [Nat.le_div_iff_mul_le hbpos]
    calc 2 ^ 64 * m2 = m2 * 2 ^ 64 := Nat.mul_comm _ _
      _ ≤ 2 ^ k := hbk
      _ ≤ m1 * 2 ^ k := Nat.le_mul_of_pos_left _ (Nat.pos_of_ne_zero h1)
  have hA : (m1 : ℚ) * (2 : ℚ) ^ k = (m2 : ℚ) * ((m1 * 2 ^ k / m2 : Nat) : ℚ) +
      ((m1 * 2 ^ k % m2 : Nat) : ℚ) := by
    exact_mod_cast hdm.symm
  rw [hA] at hr1 hr2 ⊢
  generalize m1 * 2 ^ k / m2 = q at hdm hqlo hr1 hr2 ⊢
  generalize m1 * 2 ^ k % m2 = rem at hdm hrem hr1 hr2 ⊢
  have hq0 : q ≠ 0 := by
    have : 0 < 2 ^ 64 := by positivity
    omega
  have hL1 : ¬ bitLen q ≤ 64 := by
    rw [bitLen_le_iff]; omega
  have hL0 : ¬ bitLen q ≤ 53 := by omega
  obtain ⟨hr2', hmlo, hmhi, hi, hii, htie⟩ := roundMant_nearest q m2 rem hL0 hrem
  have hbm : bitLen (roundMant q (decide (rem ≠ 0))).1 ≤ 54 := by
    rw [bitLen_le_iff]
    have : (2 : Nat) ^ 53 < 2 ^ 54 := by norm_num
    omega
  -- the exact ratio W * 2 ^ E lies in the binade of q
  have hE : (0 : ℚ) < (2 : ℚ) ^ E := zpow_pos (by norm_num) E
  obtain ⟨hb1, hb2⟩ := zpow_bitLen_bounds q hq0 E
  have hremq : ((rem : Nat) : ℚ) < (m2 : ℚ) := by exact_mod_cast hrem
  have hrem0 : (0 : ℚ) ≤ (rem : ℚ) := by positivity
  have hWlo : (q : ℚ) ≤ ((m2 : ℚ) * (q : ℚ) + (rem : ℚ)) / (m2 : ℚ) := by
    rw [le_div_iff₀ hB]; nlinarith
  have hWhi : ((m2 : ℚ) * (q : ℚ) + (rem : ℚ)) / (m2 : ℚ) < (q : ℚ) + 1 := by
    rw [div_lt_iff₀ hB]; nlinarith
  have hq1 : (q : ℚ) + 1 ≤ (2 : ℚ) ^ (bitLen q) := by
    have := bitLen_upper q
    exact_mod_cast this
  have hup : ((m2 : ℚ) * (q : ℚ) + (rem : ℚ)) / (m2 : ℚ) * (2 : ℚ) ^ E <
      (2 : ℚ) ^ (E + (bitLen q : Int)) := by
    have : E + (bitLen q : Int) = ((bitLen q : Nat) : Int) + E := by omega
    rw [this, zpow_add₀ (by norm_num), zpow_natCast]
    exact mul_lt_mul_of_pos_right (lt_of_lt_of_le hWhi hq1) hE
  have hdown : (2 : ℚ) ^ (E + (bitLen q : Int) - 1) ≤
      ((m2 : ℚ) * (q : ℚ) + (rem : ℚ)) / (m2 : ℚ) * (2 : ℚ) ^ E :=
    le_trans hb1 (mul_le_mul_of_nonneg_right hWlo (le_of_lt hE))
  have hg1 : MinExp ≤ E + (bitLen q : Int) := by
    have := lt_of_le_of_lt hr1 hup
    rw [zpow_lt_zpow_iff_right₀ (by norm_num)] at this
    omega
  have hg2 : E + (bitLen q : Int) < MaxExp := by
    have := lt_of_le_of_lt hdown hr2
    rw [zpow_lt_zpow_iff_right₀ (by norm_num)] at this
    omega
  rw [if_neg hq0, if_neg (by omega), if_neg (by omega)]
  simp only [hr2']
  rw [if_neg (by omega)]
  refine ⟨_, _, rfl, hmlo, hmhi, ?_⟩
  generalize (roundMant q (decide (rem ≠ 0))).1 = m at hi hii htie
  obtain ⟨s, hs⟩ : ∃ s, bitLen q = 53 + s := ⟨bitLen q - 53, by omega⟩
  have hs2 : bitLen q - 53 = s := by omega
  rw [hs2] at hi hii htie ⊢
  have he : (2 : ℚ) ^ (E + (s : Int)) = (2 : ℚ) ^ s * (2 : ℚ) ^ E := by
    rw [add_comm, zpow_add₀ (by norm_num), zpow_natCast]
  rw [he]
  have hX : (0 : ℚ) < (2 : ℚ) ^ s := by positivity
  have hi' : 2 * ((m : ℚ) * (2 : ℚ) ^ s * (m2 : ℚ)) ≤
      2 * ((q : ℚ) * (m2 : ℚ) + (rem : ℚ)) + (2 : ℚ) ^ s * (m2 : ℚ) := by
    exact_mod_cast hi
  have hii' : 2 * ((q : ℚ) * (m2 : ℚ) + (rem : ℚ)) ≤
      2 * ((m : ℚ) * (2 : ℚ) ^ s * (m2 : ℚ)) + (2 : ℚ) ^ s * (m2 : ℚ) := by
    exact_mod_cast hii
  have hF : (0 : ℚ) < (2 : ℚ) ^ E / (m2 : ℚ) := div_pos hE hB
  have hD : (m : ℚ) * ((2 : ℚ) ^ s * (2 : ℚ) ^ E) -
      ((m2 : ℚ) * (q : ℚ) + (rem : ℚ)) / (m2 : ℚ) * (2 : ℚ) ^ E =
      ((m : ℚ) * (2 : ℚ) ^ s * (m2 : ℚ) - ((q : ℚ) * (m2 : ℚ) + (rem : ℚ))) *
        ((2 : ℚ) ^ E / (m2 : ℚ)) := by
    field_simp
    ring
  have hU : (2 : ℚ) ^ s * (2 : ℚ) ^ E / 2 =
      ((2 : ℚ) ^ s * (m2 : ℚ) / 2) * ((2 : ℚ) ^ E / (m2 : ℚ)) := by
    field_simp
    ring
  refine ⟨?_, ?_, ?_, ?_⟩
  · -- lower end of the binade
    have : (2 : ℚ) ^ 52 * ((2 : ℚ) ^ s * (2 : ℚ) ^ E) = (2 : ℚ) ^ (E + (bitLen q : Int) - 1) := by
      have e : E + (bitLen q : Int) - 1 = ((52 + s : Nat) : Int) + E := by omega
      rw [e, zpow_add₀ (by norm_num), zpow_natCast, pow_add]
      ring
    rw [this]
    exact hdown
  · have : (2 : ℚ) ^ 53 * ((2 : ℚ) ^ s * (2 : ℚ) ^ E) = (2 : ℚ) ^ (E + (bitLen q : Int)) := by
      have e : E + (bitLen q : Int) = ((53 + s : Nat) : Int) + E := by omega
      rw [e, zpow_add₀ (by norm_num), zpow_natCast, pow_add]
      ring
    rw [this]
    exact hup
  · rw [hD, hU, abs_mul, abs_of_pos hF]
    apply mul_le_mul_of_nonneg_right _ (le_of_lt hF)
    rw [abs_le]
    constructor <;> linarith
  · intro ht
    rw [hD, hU, abs_mul, abs_of_pos hF] at ht
    have ht2 := mul_right_cancel₀ (ne_of_gt hF) ht
    apply htie
    rcases abs_eq (by positivity : (0 : ℚ) ≤ (2 : ℚ) ^ s * (m2 : ℚ) / 2) |>.mp ht2 with h | h
    · left
      have : 2 * ((m : ℚ) * (2 : ℚ) ^ s * (m2 : ℚ)) =
          2 * ((q : ℚ) * (m2 : ℚ) + (rem : ℚ)) + (2 : ℚ) ^ s * (m2 : ℚ) := by linarith
      exact_mod_cast this
    · right
      have : 2 * ((q : ℚ) * (m2 : ℚ) + (rem : ℚ)) =
          2 * ((m : ℚ) * (2 : ℚ) ^ s * (m2 : ℚ)) + (2 : ℚ) ^ s * (m2 : ℚ) := by linarith
      exact_mod_cast this

theorem bitLen_mul_le (a b : Nat) : bitLen (a * b) ≤ bitLen a + bitLen b := by
  rw [bitLen_le_iff, pow_add]
  have ha := bitLen_upper a
  have hb := bitLen_upper b
  exact Nat.mul_lt_mul_of_lt_of_le ha (le_of_lt hb) (by positivity)

/-- A quotient that is a float of 53 bits is returned as it is. -/
theorem uquo_exact (neg : Bool) (m1 : Nat) (e1 : Int) (m2 : Nat) (e2 : Int)
    (h2 : m2 ≠ 0)
    (hr : Rep53 ((m1 : ℚ) * (2 : ℚ) ^ e1 / ((m2 : ℚ) * (2 : ℚ) ^ e2))) :
    (uquo neg m1 e1 m2 e2).IsInf = false ∧
    (uquo neg m1 e1 m2 e2).toRat =
      (if neg then -1 else 1) * ((m1 : ℚ) * (2 : ℚ) ^ e1 / ((m2 : ℚ) * (2 : ℚ) ^ e2)) := by
  have hB : (0 : ℚ) < (m2 : ℚ) := by exact_mod_cast Nat.pos_of_ne_zero h2
  by_cases h1 : m1 = 0
  · subst h1
    simp [uquo, setExpAndRound, Float.IsInf, Float.toRat]
  have hA0 : (0 : ℚ) < (m1 : ℚ) := by exact_mod_cast Nat.pos_of_ne_zero h1
  have hratio_pos : (0 : ℚ) < (m1 : ℚ) * (2 : ℚ) ^ e1 / ((m2 : ℚ) * (2 : ℚ) ^ e2) :=
    div_pos (mul_pos hA0 (zpow_pos (by norm_num) _)) (mul_pos hB (zpow_pos (by norm_num) _))
  have hratio : ∀ k : Nat, (m1 : ℚ) * (2 : ℚ) ^ e1 / ((m2 : ℚ) * (2 : ℚ) ^ e2) =
      ((m1 : ℚ) * (2 : ℚ) ^ k / (m2 : ℚ)) * (2 : ℚ) ^ (e1 - e2 - (k : Int)) := by
    intro k
    have hk0 : (2 : ℚ) ^ k ≠ 0 := by positivity
    have he2 : (2 : ℚ) ^ e2 ≠ 0 := zpow_ne_zero _ (by norm_num)
    rw [zpow_sub₀ (by norm_num), zpow_sub₀ (by norm_num), zpow_natCast]
    field_simp
    ring
  rcases hr with hr | ⟨m0, e0, hm0, hm53, hlo, hhi, hv⟩
  · exact absurd hr (ne_of_gt hratio_pos)
  rw [abs_of_pos hratio_pos] at hv
  unfold uquo
  simp only []
  have hkk : bitLen m2 + 64 = bitLen m2 + 64 := rfl
  generalize hk : bitLen m2 + 64 = k at hkk
  -- (m1 * 2 ^ k) * 2 ^ E = (m0 * m2) * 2 ^ e0
  have hE : (2 : ℚ) ^ (e1 - e2 - (k : Int)) ≠ 0 := zpow_ne_zero _ (by norm_num)
  have hval : ((m1 * 2 ^ k : Nat) : ℚ) * (2 : ℚ) ^ (e1 - e2 - (k : Int)) =
      ((m0 * m2 : Nat) : ℚ) * (2 : ℚ) ^ e0 := by
    have := hratio k
    rw [hv] at this
    push_cast
    field_simp at this
    linarith
  have hM0 : m1 * 2 ^ k ≠ 0 := Nat.mul_ne_zero h1 (by positivity)
  have hP0 : m0 * m2 ≠ 0 := Nat.mul_ne_zero hm0 h2
  have hg := goExp_unique _ _ _ _ hM0 hP0 hval
  have hb1 : ¬ bitLen (m1 * 2 ^ k) ≤ k := by
    rw [bitLen_le_iff]
    have : 2 ^ k ≤ m1 * 2 ^ k := Nat.le_mul_of_pos_left _ (Nat.pos_of_ne_zero h1)
    omega
  have hb2 := bitLen_mul_le m0 m2
  have hb3 : bitLen m0 ≤ 53 := (bitLen_le_iff m0 53).mpr hm53
  have hle : e1 - e2 - (k : Int) ≤ e0 := by omega
  have hnat := mant_of_scaled _ _ _ _ hle hval
  generalize (e0 - (e1 - e2 - (k : Int))).toNat = t at hnat
  have hn2 : m1 * 2 ^ k = m0 * 2 ^ t * m2 := by rw [hnat]; ring
  have hq : m1 * 2 ^ k / m2 = m0 * 2 ^ t := by
    rw [hn2]; exact Nat.mul_div_cancel _ (Nat.pos_of_ne_zero h2)
  have hrem : m1 * 2 ^ k % m2 = 0 := by
    rw [hn2]; exact Nat.mul_mod_left _ _
  rw [hq, hrem]
  simp only [ne_eq, not_true_eq_false, decide_False]
  have hqv : ((m0 * 2 ^ t : Nat) : ℚ) * (2 : ℚ) ^ (e1 - e2 - (k : Int)) =
      (m1 : ℚ) * (2 : ℚ) ^ e1 / ((m2 : ℚ) * (2 : ℚ) ^ e2) := by
    rw [hratio k, ← hq]
    have hdiv : ((m1 * 2 ^ k / m2 : Nat) : ℚ) = (m1 : ℚ) * (2 : ℚ) ^ k / (m2 : ℚ) := by
      rw [eq_div_iff (ne_of_gt hB), hq]
      have : ((m1 * 2 ^ k : Nat) : ℚ) = ((m0 * 2 ^ t * m2 : Nat) : ℚ) := by rw [hn2]
      push_cast at this ⊢
      linarith
    rw [hdiv]
  have hrep : Rep53 (((m0 * 2 ^ t : Nat) : ℚ) * (2 : ℚ) ^ (e1 - e2 - (k : Int))) := by
    rw [hqv]
    right
    exact ⟨m0, e0, hm0, hm53, hlo, hhi, by rw [abs_of_pos hratio_pos]; exact hv⟩
  obtain ⟨a, b⟩ := setExpAndRound_val neg _ _ hrep
  rw [hqv] at b
  exact ⟨a, b⟩

theorem toRat_finite (neg : Bool) (m : Nat) (e : Int) :
    (Float.finite neg m e).toRat = (if neg then -1 else 1) * (m : ℚ) * (2 : ℚ) ^ e := rfl

theorem toRat_ratio (xn yn : Bool) (xm ym : Nat) (xe ye : Int) :
    (Float.finite xn xm xe).toRat / (Float.finite yn ym ye).toRat =
      (if (xn != yn) then -1 else 1) *
        ((xm : ℚ) * (2 : ℚ) ^ xe / ((ym : ℚ) * (2 : ℚ) ^ ye)) := by
  rw [toRat_finite, toRat_finite]
  cases xn <;> cases yn <;> simp [mul_assoc, neg_div, div_neg]

/-- Quo without rounding. -/
theorem Quo_exact (x y : Float) (hx : x.IsInf = false) (hy : y.IsInf = false)
    (hy0 : y.toRat ≠ 0) (h : Rep53 (x.toRat / y.toRat)) :
    ∃ z, Quo x y = some z ∧ z.IsInf = false ∧ z.toRat = x.toRat / y.toRat := by
  cases y with
  | inf n => simp [Float.IsInf] at hy
  | zero yn => simp [Float.toRat] at hy0
  | finite yn ym ye =>
    have hym : ym ≠ 0 := by
      intro h0; subst h0
      simp [Float.toRat] at hy0
    cases x with
    | inf n => simp [Float.IsInf] at hx
    | zero xn => exact ⟨_, rfl, rfl, by simp [Float.toRat]⟩
    | finite xn xm xe =>
      rw [toRat_ratio] at h ⊢
      have hr : Rep53 ((xm : ℚ) * (2 : ℚ) ^ xe / ((ym : ℚ) * (2 : ℚ) ^ ye)) := by
        cases hb : (xn != yn)
        · rw [hb] at h; simpa using h
        · rw [hb] at h
          have := Rep53_neg _ h
          simpa using this
      obtain ⟨a, b⟩ := uquo_exact (xn != yn) xm xe ym ye hym hr
      exact ⟨_, rfl, a, b⟩

/-- Quo rounds the exact quotient once. -/
theorem Quo_rounded (x y : Float) (hx : x.IsInf = false) (hy : y.IsInf = false)
    (hy0 : y.toRat ≠ 0) (h : x.toRat / y.toRat = 0 ∨ InRange (x.toRat / y.toRat)) :
    ∃ z, Quo x y = some z ∧ IsRounded53 (x.toRat / y.toRat) z := by
  cases y with
  | inf n => simp [Float.IsInf] at hy
  | zero yn => simp [Float.toRat] at hy0
  | finite yn ym ye =>
    have hym : ym ≠ 0 := by
      intro h0; subst h0
      simp [Float.toRat] at hy0
    cases x with
    | inf n => simp [Float.IsInf] at hx
    | zero xn => exact ⟨_, rfl, by simp [IsRounded53, Float.toRat]⟩
    | finite xn xm xe =>
      by_cases hxm : xm = 0
      · subst hxm
        refine ⟨_, rfl, ?_⟩
        simp [uquo, setExpAndRound, IsRounded53, Float.toRat]
      · have hB : (0 : ℚ) < (ym : ℚ) := by exact_mod_cast Nat.pos_of_ne_zero hym
        have hA0 : (0 : ℚ) < (xm : ℚ) := by exact_mod_cast Nat.pos_of_ne_zero hxm
        have hpos : (0 : ℚ) < (xm : ℚ) * (2 : ℚ) ^ xe / ((ym : ℚ) * (2 : ℚ) ^ ye) :=
          div_pos (mul_pos hA0 (zpow_pos (by norm_num) _))
            (mul_pos hB (zpow_pos (by norm_num) _))
        rw [toRat_ratio] at h ⊢
        have habs : abs ((if (xn != yn) = true then (-1 : ℚ) else 1) *
            ((xm : ℚ) * (2 : ℚ) ^ xe / ((ym : ℚ) * (2 : ℚ) ^ ye))) =
            (xm : ℚ) * (2 : ℚ) ^ xe / ((ym : ℚ) * (2 : ℚ) ^ ye) := by
          rw [abs_mul, abs_of_pos hpos]
          cases (xn != yn) <;> simp
        have hne : (if (xn != yn) = true then (-1 : ℚ) else 1) *
            ((xm : ℚ) * (2 : ℚ) ^ xe / ((ym : ℚ) * (2 : ℚ) ^ ye)) ≠ 0 := by
          have := ne_of_gt hpos
          cases (xn != yn)
          · simpa only [Bool.false_eq_true, if_false, one_mul] using this
          · simp only [if_true, neg_mul, one_mul, ne_eq, neg_eq_zero]
            exact this
        have hr : InRange ((xm : ℚ) * (2 : ℚ) ^ xe / ((ym : ℚ) * (2 : ℚ) ^ ye)) := by
          rcases h with h | h
          · exact absurd h hne
          · unfold InRange at h ⊢
            rw [habs] at h
            rw [abs_of_pos hpos]
            exact h
        obtain ⟨m, e, hq, c1, c2, c3, c4, c5, c6⟩ := uquo_rounded (xn != yn) xm xe ym ye hxm hym hr
        refine ⟨_, rfl, ?_⟩
        rw [hq]
        unfold IsRounded53
        simp only []
        rw [habs]
        refine ⟨hne, ?_, c1, c2, c3, c4, c5, c6⟩
        cases (xn != yn)
        · simp; exact le_of_lt hpos
        · simp; exact hpos

theorem roundHalfEven_scale (a b c : Nat) (hc : 0 < c) :
    roundHalfEven (a * c) (b * c) = roundHalfEven a b := by
  unfold roundHalfEven
  simp only [Nat.mul_div_mul_right _ _ hc, Nat.mul_mod_mul_right]
  have h1 : (b * c < 2 * (a % b * c)) ↔ (b < 2 * (a % b)) := by
    rw [show 2 * (a % b * c) = (2 * (a % b)) * c by ring]
    exact Nat.mul_lt_mul_right hc
  have h2 : (2 * (a % b * c) = b * c) ↔ (2 * (a % b) = b) := by
    rw [show 2 * (a % b * c) = (2 * (a % b)) * c by ring]
    exact Nat.mul_left_inj (Nat.pos_iff_ne_zero.mp hc)
  simp only [h1, h2]

theorem TextF_shift (neg : Bool) (m : Nat) (e : Int) (t d : Nat) :
    TextF (.finite neg (m * 2 ^ t) (e - (t : Int))) d = TextF (.finite neg m e) d := by
  unfold TextF
  simp only []
  congr 2
  by_cases h1 : 0 ≤ e - (t : Int)
  · have h2 : 0 ≤ e := by omega
    rw [if_pos h1, if_pos h2]
    have : e.toNat = t + (e - (t : Int)).toNat := by omega
    rw [this, pow_add]
    ring
  · rw [if_neg h1]
    by_cases h2 : 0 ≤ e
    · rw [if_pos h2]
      obtain ⟨u, hu⟩ : ∃ u, (-(e - (t : Int))).toNat = u := ⟨_, rfl⟩
      have ht : t = e.toNat + u := by omega
      rw [hu, ht, pow_add]
      have : m * (2 ^ e.toNat * 2 ^ u) * 10 ^ d = m * 2 ^ e.toNat * 10 ^ d * 2 ^ u := by ring
      rw [this, roundHalfEven_exact _ _ (by positivity)]
    · rw [if_neg h2]
      have : (-(e - (t : Int))).toNat = (-e).toNat + t := by omega
      rw [this, pow_add]
      have e1 : m * 2 ^ t * 10 ^ d = m * 10 ^ d * 2 ^ t := by ring
      rw [e1, roundHalfEven_scale _ _ _ (by positivity)]

theorem TextF_congr (neg : Bool) (m m1 : Nat) (e e1 : Int) (d : Nat)
    (h : (m : ℚ) * (2 : ℚ) ^ e = (m1 : ℚ) * (2 : ℚ) ^ e1) :
    TextF (.finite neg m e) d = TextF (.finite neg m1 e1) d := by
  by_cases hle : e ≤ e1
  · have hm := mant_of_scaled m m1 e e1 hle h
    have he : e = e1 - ((e1 - e).toNat : Int) := by omega
    rw [hm, he]
    have : (e1 - (e1 - ((e1 - e).toNat : Int))).toNat = (e1 - e).toNat := by omega
    rw [this]
    exact TextF_shift neg m1 e1 _ d
  · have hle2 : e1 ≤ e := by omega
    have hm := mant_of_scaled m1 m e1 e hle2 h.symm
    have he : e1 = e - ((e - e1).toNat : Int) := by omega
    rw [hm, he]
    have : (e - (e - ((e - e1).toNat : Int))).toNat = (e - e1).toNat := by omega
    rw [this]
    exact (TextF_shift neg m e _ d).symm

/-- The text depends on the number only, for a number that is not zero. -/
theorem TextF_of_toRat_eq (x y : Float) (d : Nat) (hx : x.IsInf = false)
    (hy : y.IsInf = false) (h : x.toRat = y.toRat) (h0 : y.toRat ≠ 0) :
    TextF x d = TextF y d := by
  cases y with
  | inf n => simp [Float.IsInf] at hy
  | zero yn => simp [Float.toRat] at h0
  | finite yn ym ye =>
    cases x with
    | inf n => simp [Float.IsInf] at hx
    | zero xn =>
      rw [← h] at h0
      simp [Float.toRat] at h0
    | finite xn xm xe =>
      rw [toRat_finite, toRat_finite] at h
      rw [toRat_finite] at h0
      have hym : (0 : ℚ) < (ym : ℚ) * (2 : ℚ) ^ ye := by
        have h2 : (ym : ℚ) ≠ 0 := by
          intro hz; apply h0; rw [hz]; simp
        have h3 : (0 : ℚ) ≤ (ym : ℚ) := by positivity
        exact mul_pos (lt_of_le_of_ne h3 (Ne.symm h2)) (zpow_pos (by norm_num) _)
      have hxm : (0 : ℚ) ≤ (xm : ℚ) * (2 : ℚ) ^ xe := by positivity
      have hsign : xn = yn ∧ (xm : ℚ) * (2 : ℚ) ^ xe = (ym : ℚ) * (2 : ℚ) ^ ye := by
        cases xn <;> cases yn <;>
          simp only [Bool.false_eq_true, if_false, if_true, one_mul, neg_mul, mul_assoc] at h
        · exact ⟨rfl, h⟩
        · exfalso; linarith
        · exfalso; linarith
        · exact ⟨rfl, by linarith⟩
      obtain ⟨hs, hv⟩ := hsign
      subst hs
      exact TextF_congr xn xm ym xe ye d hv

theorem InRange_of (x : ℚ) (a b : Int) (ha : MinExp - 1 ≤ a) (hb : b ≤ MaxExp - 1)
    (h1 : (2 : ℚ) ^ a ≤ |x|) (h2 : |x| < (2 : ℚ) ^ b) : InRange x :=
  ⟨le_trans (zpow_le_zpow_right₀ (by norm_num) ha) h1,
    lt_of_lt_of_le h2 (zpow_le_zpow_right₀ (by norm_num) hb)⟩

theorem Rep53_of (x : ℚ) (m : Nat) (e : Int) (hm : m < 2 ^ 53)
    (hlo : MinExp ≤ e) (hhi : e + 53 ≤ MaxExp) (h : |x| = (m : ℚ) * (2 : ℚ) ^ e) : Rep53 x := by
  by_cases h0 : m = 0
  · left
    subst h0
    simpa using h
  · right
    have hb := (bitLen_le_iff m 53).mpr hm
    exact ⟨m, e, h0, hm, by omega, by omega, h⟩

/-- The number of a float made by the arithmetic is a float of 53 bits. -/
theorem Rep53_toRat_finite (neg : Bool) (m : Nat) (e : Int) (hm : m < 2 ^ 53)
    (hlo : MinExp ≤ e) (hhi : e + 53 ≤ MaxExp) : Rep53 (Float.finite neg m e).toRat := by
  apply Rep53_of _ m e hm hlo hhi
  rw [toRat_finite, abs_mul, abs_mul]
  have : |(2 : ℚ) ^ e| = (2 : ℚ) ^ e := abs_of_pos (zpow_pos (by norm_num) _)
  rw [this]
  cases neg <;> simp

theorem nearest_unique (m m1 : Nat) (u a : ℚ) (hu : 0 < u)
    (h1 : abs ((m : ℚ) * u - a) ≤ u / 2) (h2 : abs ((m1 : ℚ) * u - a) ≤ u / 2)
    (t1 : abs ((m : ℚ) * u - a) = u / 2 → m % 2 = 0)
    (t2 : abs ((m1 : ℚ) * u - a) = u / 2 → m1 % 2 = 0) : m = m1 := by
  have key : ∀ (p q : Nat), p < q → abs ((p : ℚ) * u - a) ≤ u / 2 →
      abs ((q : ℚ) * u - a) ≤ u / 2 →
      abs ((p : ℚ) * u - a) = u / 2 ∧ abs ((q : ℚ) * u - a) = u / 2 ∧ q = p + 1 := by
    intro p q hpq hp hq
    rw [abs_le] at hp hq
    have c1 : (p : ℚ) + 1 ≤ (q : ℚ) := by exact_mod_cast hpq
    have c2 : ((p : ℚ) + 1) * u ≤ (q : ℚ) * u := mul_le_mul_of_nonneg_right c1 (le_of_lt hu)
    have c3 : ((p : ℚ) + 1) * u = (p : ℚ) * u + u := by ring
    rw [c3] at c2
    have e1 : (q : ℚ) * u = (p : ℚ) * u + u := by linarith
    have e2 : a = (p : ℚ) * u + u / 2 := by linarith
    refine ⟨?_, ?_, ?_⟩
    · rw [abs_sub_comm, abs_of_nonneg (by linarith)]; linarith
    · rw [abs_of_nonneg (by linarith)]; linarith
    · have e3 : (q : ℚ) * u = ((p : ℚ) + 1) * u := by rw [e1]; ring
      have e4 : (q : ℚ) = (p : ℚ) + 1 := mul_right_cancel₀ (ne_of_gt hu) e3
      exact_mod_cast e4
  by_contra hne
  rcases Nat.lt_or_gt_of_ne hne with h | h
  · obtain ⟨k1, k2, k3⟩ := key m m1 h h1 h2
    have := t1 k1
    have := t2 k2
    omega
  · obtain ⟨k1, k2, k3⟩ := key m1 m h h2 h1
    have := t1 k2
    have := t2 k1
    omega

/-- A number that is not zero has one rounding. -/
theorem IsRounded53_unique (x : ℚ) (f g : Float) (hf : IsRounded53 x f) (hg : IsRounded53 x g)
    (hx : x ≠ 0) : f = g := by
  cases f with
  | zero n => exact absurd hf hx
  | inf n => exact absurd hf (by simp [IsRounded53])
  | finite n m e =>
    cases g with
    | zero n1 => exact absurd hg hx
    | inf n1 => exact absurd hg (by simp [IsRounded53])
    | finite n1 m1 e1 =>
      obtain ⟨_, a1, _, _, a4, a5, a6, a7⟩ := hf
      obtain ⟨_, b1, _, _, b4, b5, b6, b7⟩ := hg
      have hn : n = n1 := by
        cases n <;> cases n1 <;> simp only [Bool.false_eq_true, false_iff, true_iff, not_lt] at a1 b1
        · rfl
        · exact absurd b1 (not_lt.mpr a1)
        · exact absurd a1 (not_lt.mpr b1)
        · rfl
      have he : e = e1 := by
        have c52 : (2 : ℚ) ^ (52 : Int) = (2 : ℚ) ^ (52 : Nat) := by
          rw [← zpow_natCast]; rfl
        have c53 : (2 : ℚ) ^ (53 : Int) = (2 : ℚ) ^ (53 : Nat) := by
          rw [← zpow_natCast]; rfl
        have h1 : (2 : ℚ) ^ ((52 : Int) + e) < (2 : ℚ) ^ ((53 : Int) + e1) := by
          rw [zpow_add₀ (by norm_num), zpow_add₀ (by norm_num), c52, c53]
          exact lt_of_le_of_lt a4 b5
        have h2 : (2 : ℚ) ^ ((52 : Int) + e1) < (2 : ℚ) ^ ((53 : Int) + e) := by
          rw [zpow_add₀ (by norm_num), zpow_add₀ (by norm_num), c52, c53]
          exact lt_of_le_of_lt b4 a5
        rw [zpow_lt_zpow_iff_right₀ (by norm_num)] at h1 h2
        omega
      subst hn he
      have hu : (0 : ℚ) < (2 : ℚ) ^ e := zpow_pos (by norm_num) e
      rw [nearest_unique m m1 ((2 : ℚ) ^ e) (abs x) hu a6 b6 a7 b7]

/-- The float `roundRatio a b` is the exact quotient `a / b` rounded once. -/
theorem roundRatio_rounded (a b : Nat) (hb : b ≠ 0)
    (hr : a = 0 ∨ InRange ((a : ℚ) / (b : ℚ))) :
    IsRounded53 ((a : ℚ) / (b : ℚ)) (roundRatio a b) := by
  unfold roundRatio
  by_cases ha : a = 0
  · subst ha
    simp [IsRounded53]
  · rw [if_neg ha]
    have hB : (0 : ℚ) < (b : ℚ) := by exact_mod_cast Nat.pos_of_ne_zero hb
    have hA : (0 : ℚ) < (a : ℚ) := by exact_mod_cast Nat.pos_of_ne_zero ha
    have hpos : (0 : ℚ) < (a : ℚ) / (b : ℚ) := div_pos hA hB
    have hrr : InRange ((a : ℚ) * (2 : ℚ) ^ (0 : Int) / ((b : ℚ) * (2 : ℚ) ^ (0 : Int))) := by
      rcases hr with h | h
      · exact absurd h ha
      · simpa using h
    obtain ⟨m, e, hq, c1, c2, c3, c4, c5, c6⟩ := uquo_rounded false a 0 b 0 ha hb hrr
    simp only [zpow_zero, mul_one] at c3 c4 c5 c6
    rw [hq]
    refine ⟨ne_of_gt hpos, ?_, c1, c2, ?_, ?_, ?_, ?_⟩
    · simp only [Bool.false_eq_true, false_iff, not_lt]
      exact le_of_lt hpos
    · rw [abs_of_pos hpos]; exact c3
    · rw [abs_of_pos hpos]; exact c4
    · rw [abs_of_pos hpos]; exact c5
    · rw [abs_of_pos hpos]; exact c6

end big

/-! ## Update without rounding -/

namespace vwap

open ringbuf big

theorem sumPQr_cons (x : big.Float × big.Float) (w : List (big.Float × big.Float)) :
    sumPQr (x :: w) = x.1.toRat * x.2.toRat + sumPQr w := by
  simp [sumPQr]

theorem sumQr_cons (x : big.Float × big.Float) (w : List (big.Float × big.Float)) :
    sumQr (x :: w) = x.2.toRat + sumQr w := by
  simp [sumQr]

theorem sumPQr_append (w : List (big.Float × big.Float)) (x : big.Float × big.Float) :
    sumPQr (w ++ [x]) = sumPQr w + x.1.toRat * x.2.toRat := by
  simp [sumPQr]

theorem sumQr_append (w : List (big.Float × big.Float)) (x : big.Float × big.Float) :
    sumQr (w ++ [x]) = sumQr w + x.2.toRat := by
  simp [sumQr]

theorem ExactSums_count (n : Nat) (c : Calculator big.Float)
    (w : List (big.Float × big.Float)) (hc : ExactSums n c w) :
    c.pqs.count = w.length ∧ c.qs.count = w.length := by
  obtain ⟨_, _, _, _, hi1, hi2, _⟩ := hc
  have h1 := items_length c.pqs
  have h2 := items_length c.qs
  have h3 := congrArg List.length hi1
  rw [hi2] at h2
  simp only [List.length_map] at h2 h3
  exact ⟨by omega, h2.symm⟩

theorem ExactSums_new (parse : String → Option big.Float) (n : Nat) (hn : 1 ≤ n) :
    ExactSums n (NewCalculator (opsWith parse) n) [] := by
  obtain ⟨hwf, hitems, _⟩ := WF_new (T := Option big.Float) n hn
  have h1 : (NewCalculator (opsWith parse) n).pqs.items = [] := by
    simpa [NewCalculator] using hitems
  have h2 : (NewCalculator (opsWith parse) n).qs.items = [] := by
    simpa [NewCalculator] using hitems
  refine ⟨rfl, hwf, hwf, ?_, ?_, ?_, ?_, rfl, ?_, rfl, ?_⟩
  · intro y hy; rw [h1] at hy; simp at hy
  · rw [h1]; rfl
  · rw [h2]; rfl
  · intro v hv; simp at hv
  · simp [NewCalculator, opsWith, sumPQr, Float.toRat]
  · simp [NewCalculator, opsWith, sumQr, Float.toRat]

theorem evict_sums (parse : String → Option big.Float) (n : Nat) (hn : 1 ≤ n)
    (c : Calculator big.Float) (w : List (big.Float × big.Float)) (hc : ExactSums n c w)
    (hb : w.length = n → Rep53 (sumPQr w.tail) ∧ Rep53 (sumQr w.tail)) :
    ∃ c1, evict (opsWith parse) c = some c1 ∧
      ExactSums n c1 (if w.length = n then w.tail else w) ∧
      c1.pqs.count < n ∧ c1.qs.count < n ∧ c1.vwap = c.vwap := by
  obtain ⟨hcnt1, hcnt2⟩ := ExactSums_count n c w hc
  obtain ⟨hw, hwf1, hwf2, hf1, hi1, hi2, hf2, hx1, hs1, hx2, hs2⟩ := hc
  by_cases hfull : w.length = n
  · rw [if_pos hfull]
    obtain ⟨hb1, hb2⟩ := hb hfull
    obtain ⟨y1, r1, hpop1, hwf1', hit1, hc1⟩ := PopFront_WF c.pqs n hwf1 (by omega)
    obtain ⟨y2, r2, hpop2, hwf2', hit2, hc2⟩ := PopFront_WF c.qs n hwf2 (by omega)
    cases w with
    | nil => simp at hfull; omega
    | cons x0 wt =>
      rw [hit1] at hi1 hf1
      rw [hi2] at hit2
      simp only [List.map_cons, List.cons.injEq] at hi1 hit2
      obtain ⟨hy1, hr1⟩ := hi1
      obtain ⟨hy2, hr2⟩ := hit2
      obtain ⟨f1, hf1a, hf1b⟩ := hf1 y1 (List.mem_cons_self _ _)
      subst hf1a
      simp only [ptrToRat] at hy1
      simp only [List.tail_cons] at hb1 hb2 ⊢
      rw [sumPQr_cons] at hs1
      rw [sumQr_cons] at hs2
      have hq0 := hf2 x0 (List.mem_cons_self _ _)
      obtain ⟨z1, hz1, hz1a, hz1b⟩ := Sub_exact c.cumulativeTypicalPrice f1 hx1 hf1b (by
        rw [hs1, hy1]; simpa using hb1)
      obtain ⟨z2, hz2, hz2a, hz2b⟩ := Sub_exact c.cumulativeVolume x0.2 hx2 hq0 (by
        rw [hs2]; simpa using hb2)
      refine ⟨{ c with pqs := r1, cumulativeTypicalPrice := z1,
                       qs := r2, cumulativeVolume := z2 }, ?_, ?_, ?_, ?_, rfl⟩
      · have hlen : c.pqs.Len = c.windowWidth := by
          simp only [RingBuffer.Len]; omega
        simp only [evict, if_pos hlen, hpop1, hpop2, ← hy2, derefOp, opsWith_Sub, hz1, hz2]
      · refine ⟨hw, hwf1', hwf2', ?_, hr1, hr2.symm, ?_, hz1a, ?_, hz2a, ?_⟩
        · intro y hy
          exact hf1 y (List.mem_cons_of_mem _ hy)
        · intro v hv
          exact hf2 v (List.mem_cons_of_mem _ hv)
        · rw [hz1b, hs1, hy1]; ring
        · rw [hz2b, hs2]; ring
      · simp only [hc1]; omega
      · simp only [hc2]; omega
  · rw [if_neg hfull]
    have hlen : ¬ c.pqs.Len = c.windowWidth := by
      simp only [RingBuffer.Len]; omega
    have hle1 := hwf1.2.2.1
    have hle2 := hwf2.2.2.1
    refine ⟨c, by simp only [evict, if_neg hlen],
      ⟨hw, hwf1, hwf2, hf1, hi1, hi2, hf2, hx1, hs1, hx2, hs2⟩, by omega, by omega, rfl⟩

theorem accumulate_sums (parse : String → Option big.Float) (n : Nat) (hn : 1 ≤ n)
    (c : Calculator big.Float) (w : List (big.Float × big.Float)) (v : big.Float × big.Float)
    (hc : ExactSums n c w) (hp : v.1.IsInf = false) (hq : v.2.IsInf = false)
    (hprod : Rep53 (v.1.toRat * v.2.toRat))
    (hb : w.length = n → Rep53 (sumPQr w.tail) ∧ Rep53 (sumQr w.tail))
    (hs1 : Rep53 (sumPQr (slide n w v))) (hs2 : Rep53 (sumQr (slide n w v))) :
    ∃ c2, accumulate (opsWith parse) c v.1 v.2 = some c2 ∧
      ExactSums n c2 (slide n w v) ∧ c2.vwap = c.vwap := by
  obtain ⟨c1, hev, hc1, hlt1, hlt2, hv⟩ := evict_sums parse n hn c w hc hb
  obtain ⟨hw, hwf1, hwf2, hf1, hi1, hi2, hf2, hx1, ht1, hx2, ht2⟩ := hc1
  unfold slide at hs1 hs2 ⊢
  rw [sumPQr_append] at hs1
  rw [sumQr_append] at hs2
  obtain ⟨pq, hmul, hpq1, hpq2⟩ := Mul_exact v.1 v.2 hp hq hprod
  obtain ⟨r1, hpush1, hwf1', hit1, _⟩ := PushBack_WF c1.pqs n (some pq) hwf1 hlt1
  obtain ⟨r2, hpush2, hwf2', hit2, _⟩ := PushBack_WF c1.qs n (some v.2) hwf2 hlt2
  obtain ⟨z1, hz1, hz1a, hz1b⟩ := Add_exact c1.cumulativeTypicalPrice pq hx1 hpq1 (by
    rw [ht1, hpq2]; exact hs1)
  obtain ⟨z2, hz2, hz2a, hz2b⟩ := Add_exact c1.cumulativeVolume v.2 hx2 hq (by
    rw [ht2]; exact hs2)
  refine ⟨{ c1 with pqs := r1, cumulativeTypicalPrice := z1, qs := r2,
                    cumulativeVolume := z2 }, ?_, ?_, hv⟩
  · simp only [accumulate, opsWith_Mul, opsWith_Add, hmul, hev, hz1, hz2, hpush1, hpush2]
  · refine ⟨hw, hwf1', hwf2', ?_, ?_, ?_, ?_, hz1a, ?_, hz2a, ?_⟩
    · intro y hy
      rw [hit1, List.mem_append] at hy
      rcases hy with hy | hy
      · exact hf1 y hy
      · simp only [List.mem_singleton] at hy
        exact ⟨pq, hy, hpq1⟩
    · simp only [hit1, List.map_append, hi1, List.map_cons, List.map_nil, ptrToRat, hpq2]
    · simp only [hit2, hi2, List.map_append, List.map_cons, List.map_nil]
    · intro u hu
      rw [List.mem_append] at hu
      rcases hu with hu | hu
      · exact hf2 u hu
      · simp only [List.mem_singleton] at hu
        rw [hu]; exact hq
    · rw [hz1b, ht1, hpq2, sumPQr_append]
    · rw [hz2b, ht2, sumQr_append]

theorem Quo_some (x y : big.Float) (hx : x.IsInf = false) (hy : y.IsInf = false)
    (hy0 : y.toRat ≠ 0) : ∃ f, Quo x y = some f := by
  cases y with
  | inf n => simp [Float.IsInf] at hy
  | zero yn => simp [Float.toRat] at hy0
  | finite yn ym ye =>
    cases x with
    | inf n => simp [Float.IsInf] at hx
    | zero xn => exact ⟨_, rfl⟩
    | finite xn xm xe => exact ⟨_, rfl⟩

/-- One Update without rounding before the division. -/
theorem Update_sums (parse : String → Option big.Float) (n : Nat) (hn : 1 ≤ n)
    (c : Calculator big.Float) (w : List (big.Float × big.Float)) (v : big.Float × big.Float)
    (s : String × String) (hc : ExactSums n c w)
    (hps : parse s.1 = some v.1) (hqs : parse s.2 = some v.2)
    (hp : v.1.IsInf = false) (hq : v.2.IsInf = false)
    (hprod : Rep53 (v.1.toRat * v.2.toRat))
    (hb : w.length = n → Rep53 (sumPQr w.tail) ∧ Rep53 (sumQr w.tail))
    (hs1 : Rep53 (sumPQr (slide n w v))) (hs2 : Rep53 (sumQr (slide n w v)))
    (hnz : sumQr (slide n w v) ≠ 0) :
    ∃ c3 X Y f, Update (opsWith parse) c s.1 s.2 = some (c3, TextF f numPrecDigits, none) ∧
      ExactSums n c3 (slide n w v) ∧
      X.IsInf = false ∧ Y.IsInf = false ∧ X.toRat = sumPQr (slide n w v) ∧
      Y.toRat = sumQr (slide n w v) ∧ Quo X Y = some f := by
  obtain ⟨c2, hacc, hc2, _⟩ := accumulate_sums parse n hn c w v hc hp hq hprod hb hs1 hs2
  obtain ⟨hw, hwf1, hwf2, hf1, hi1, hi2, hf2, hx1, ht1, hx2, ht2⟩ := hc2
  obtain ⟨f, hf⟩ := Quo_some c2.cumulativeTypicalPrice c2.cumulativeVolume hx1 hx2 (by
    rw [ht2]; exact hnz)
  refine ⟨{ c2 with vwap := f }, c2.cumulativeTypicalPrice, c2.cumulativeVolume, f, ?_,
    ⟨hw, hwf1, hwf2, hf1, hi1, hi2, hf2, hx1, ht1, hx2, ht2⟩, hx1, hx2, ht1, ht2, hf⟩
  rw [Update_parsed (opsWith parse) c s.1 s.2 v.1 v.2 hps hqs]
  simp only [hacc, opsWith_Quo, hf, opsWith_TextF]

theorem window_tail {α : Type} (n : Nat) (hn : 1 ≤ n) (pre : List α)
    (h : (window n pre).length = n) : (window n pre).tail = window (n - 1) pre := by
  rw [window_length] at h
  simp only [window, List.tail_drop]
  congr 1
  omega

theorem run_sums (parse : String → Option big.Float) (n : Nat) (hn : 1 ≤ n) :
    ∀ (vals : List (big.Float × big.Float)) (ins : List (String × String))
      (c : Calculator big.Float) (pre : List (big.Float × big.Float)),
      ExactSums n c (window n pre) → ReadFinite parse ins vals →
      (∀ v ∈ vals, Rep53 (v.1.toRat * v.2.toRat)) →
      (∀ k, k < vals.length →
        Rep53 (sumPQr (window n (pre ++ vals.take (k + 1)))) ∧
        Rep53 (sumQr (window n (pre ++ vals.take (k + 1)))) ∧
        sumQr (window n (pre ++ vals.take (k + 1))) ≠ 0 ∧
        (n ≤ pre.length + k →
          Rep53 (sumPQr (window (n - 1) (pre ++ vals.take k))) ∧
          Rep53 (sumQr (window (n - 1) (pre ++ vals.take k))))) →
      ∃ c1 texts, UpdateAll (opsWith parse) c ins = some (c1, texts) ∧
        ExactSums n c1 (window n (pre ++ vals)) ∧ texts.length = vals.length ∧
        ∀ k, k < vals.length → ∃ X Y f, X.IsInf = false ∧ Y.IsInf = false ∧
          X.toRat = sumPQr (window n (pre ++ vals.take (k + 1))) ∧
          Y.toRat = sumQr (window n (pre ++ vals.take (k + 1))) ∧ Quo X Y = some f ∧
          texts[k]? = some (TextF f numPrecDigits) := by
  intro vals
  induction vals with
  | nil =>
    intro ins c pre hc hr _ _
    cases ins with
    | nil =>
      refine ⟨c, [], rfl, by simpa using hc, rfl, ?_⟩
      intro k hk
      simp at hk
    | cons s ss => exact absurd hr (by simp [ReadFinite])
  | cons v vs ih =>
    intro ins c pre hc hr hprod hsum
    cases ins with
    | nil => exact absurd hr (by simp [ReadFinite])
    | cons s ss =>
      obtain ⟨hps, hqs, hp, hq, hrest⟩ := hr
      have h0 := hsum 0 (by simp)
      simp only [List.take_succ_cons, List.take_zero, List.append_nil, Nat.add_zero] at h0
      obtain ⟨h01, h02, h03, h04⟩ := h0
      have hsl := slide_window n hn pre v
      have hb : (window n pre).length = n →
          Rep53 (sumPQr (window n pre).tail) ∧ Rep53 (sumQr (window n pre).tail) := by
        intro hl
        rw [window_tail n hn pre hl]
        apply h04
        rw [window_length] at hl
        omega
      obtain ⟨c3, X, Y, f, hu, hc3, hX, hY, hXv, hYv, hquo⟩ :=
        Update_sums parse n hn c (window n pre) v s hc hps hqs hp hq
          (hprod v (List.mem_cons_self _ _)) hb (by rw [hsl]; exact h01)
          (by rw [hsl]; exact h02) (by rw [hsl]; exact h03)
      rw [hsl] at hc3 hXv hYv
      obtain ⟨c1, texts, hrun, hfin, hlen, hall⟩ := ih ss c3 (pre ++ [v]) hc3 hrest
        (fun u hu => hprod u (List.mem_cons_of_mem _ hu))
        (by
          intro k hk
          have h := hsum (k + 1) (by simp only [List.length_cons]; omega)
          simp only [List.take_succ_cons] at h
          simp only [List.append_assoc, List.singleton_append, List.length_append,
            List.length_singleton]
          refine ⟨h.1, h.2.1, h.2.2.1, ?_⟩
          intro hle
          exact h.2.2.2 (by omega))
      refine ⟨c1, TextF f numPrecDigits :: texts, ?_, ?_, ?_, ?_⟩
      · simp only [UpdateAll, hu, hrun, Option.map_some']
      · simpa using hfin
      · simp [hlen]
      · intro k hk
        cases k with
        | zero =>
          refine ⟨X, Y, f, hX, hY, ?_, ?_, hquo, by simp⟩
          · simpa using hXv
          · simpa using hYv
        | succ k =>
          obtain ⟨X1, Y1, f1, a1, a2, a3, a4, a5, a6⟩ :=
            hall k (by simp only [List.length_cons] at hk; omega)
          refine ⟨X1, Y1, f1, a1, a2, ?_, ?_, a5, by simpa using a6⟩
          · simpa using a3
          · simpa using a4

theorem run_sums_new (parse : String → Option big.Float) (n : Nat) (hn : 1 ≤ n)
    (ins : List (String × String)) (vals : List (big.Float × big.Float))
    (hread : ReadFinite parse ins vals)
    (hprod : ∀ v ∈ vals, Rep53 (v.1.toRat * v.2.toRat))
    (hsum : ∀ k, k < vals.length →
      Rep53 (sumPQr (window n (vals.take (k + 1)))) ∧
      Rep53 (sumQr (window n (vals.take (k + 1)))) ∧
      (n ≤ k → Rep53 (sumPQr (window (n - 1) (vals.take k))) ∧
        Rep53 (sumQr (window (n - 1) (vals.take k)))))
    (hnz : ∀ k, k < vals.length → sumQr (window n (vals.take (k + 1))) ≠ 0) :
    ∃ c texts, UpdateAll (opsWith parse) (NewCalculator (opsWith parse) n) ins =
        some (c, texts) ∧ texts.length = vals.length ∧
      ∀ k, k < vals.length → ∃ X Y f, X.IsInf = false ∧ Y.IsInf = false ∧
        X.toRat = sumPQr (window n (vals.take (k + 1))) ∧
        Y.toRat = sumQr (window n (vals.take (k + 1))) ∧ Quo X Y = some f ∧
        texts[k]? = some (TextF f numPrecDigits) := by
  have h0 : ExactSums n (NewCalculator (opsWith parse) n) (window n []) := by
    rw [window_nil]; exact ExactSums_new parse n hn
  obtain ⟨c, texts, hrun, _, hlen, hall⟩ := run_sums parse n hn vals ins
    (NewCalculator (opsWith parse) n) [] h0 hread hprod (by
      intro k hk
      simp only [List.nil_append, List.length_nil, Nat.zero_add]
      exact ⟨(hsum k hk).1, (hsum k hk).2.1, hnz k hk, (hsum k hk).2.2⟩)
  refine ⟨c, texts, hrun, hlen, ?_⟩
  intro k hk
  simpa using hall k hk

end vwap

/-! ## Claims on the value returned -/

namespace vwap

open ringbuf big

/-- C1, as the code has it: for a width `n` of at least 1 and a run of Update
calls on a new calculator whose price and quantity texts read as floats, none an
infinity, such that nothing is rounded before the division (every product of a
price and its quantity, the exact sum of the products and the exact sum of the
quantities over every window, and the same two sums over every full window less
its oldest pair, which the eviction forms, are floats of 53 bits), the exact sum
of the quantities of no window is zero, and the exact ratio of the two sums of a
window, when it is not zero, is within the exponent range: every call returns
without error, and the `k`-th call returns the text, with 16 digits after the
point, of a float that is the exact ratio of the two sums over the most recent
`min k n` pairs rounded once to 53 bits, to nearest and to even on a tie. -/
theorem C1_window_ratio_rounded_once (parse : String → Option big.Float) (n : Nat)
    (hn : 1 ≤ n) (ins : List (String × String)) (vals : List (big.Float × big.Float))
    (hread : ReadFinite parse ins vals)
    (hprod : ∀ v ∈ vals, Rep53 (v.1.toRat * v.2.toRat))
    (hsum : ∀ k, k < vals.length →
      Rep53 (sumPQr (window n (vals.take (k + 1)))) ∧
      Rep53 (sumQr (window n (vals.take (k + 1)))) ∧
      (n ≤ k → Rep53 (sumPQr (window (n - 1) (vals.take k))) ∧
        Rep53 (sumQr (window (n - 1) (vals.take k)))))
    (hnz : ∀ k, k < vals.length → sumQr (window n (vals.take (k + 1))) ≠ 0)
    (hrange : ∀ k, k < vals.length → sumPQr (window n (vals.take (k + 1))) = 0 ∨
      InRange (sumPQr (window n (vals.take (k + 1))) / sumQr (window n (vals.take (k + 1))))) :
    ∃ c texts, UpdateAll (opsWith parse) (NewCalculator (opsWith parse) n) ins =
        some (c, texts) ∧ texts.length = vals.length ∧
      ∀ k, k < vals.length →
        (window n (vals.take (k + 1))).length = min (k + 1) n ∧
        ∃ f, texts[k]? = some (TextF f numPrecDigits) ∧
          IsRounded53 (sumPQr (window n (vals.take (k + 1))) /
            sumQr (window n (vals.take (k + 1)))) f := by
  obtain ⟨c, texts, hrun, hlen, hall⟩ := run_sums_new parse n hn ins vals hread hprod hsum hnz
  refine ⟨c, texts, hrun, hlen, ?_⟩
  intro k hk
  refine ⟨?_, ?_⟩
  · rw [window_length, List.length_take]
    omega
  · obtain ⟨X, Y, f, hX, hY, hXv, hYv, hquo, ht⟩ := hall k hk
    have hY0 : Y.toRat ≠ 0 := by rw [hYv]; exact hnz k hk
    obtain ⟨z, hz, hr⟩ := Quo_rounded X Y hX hY hY0 (by
      rw [hXv, hYv]
      rcases hrange k hk with h | h
      · left; rw [h]; simp
      · right; exact h)
    rw [hquo] at hz
    simp only [Option.some.injEq] at hz
    subst hz
    rw [hXv, hYv] at hr
    exact ⟨f, ht, hr⟩

theorem fraction_read : ReadFinite SetString fractionTexts fractionFloats := by
  simp only [fractionTexts, fractionFloats, ReadFinite]; decide

theorem fraction_products : ∀ v ∈ fractionFloats, Rep53 (v.1.toRat * v.2.toRat) := by
  intro v hv
  simp only [fractionFloats, List.mem_cons, List.mem_singleton, List.not_mem_nil,
    or_false] at hv
  rcases hv with h | h | h | h <;> subst h
  · exact Rep53_of _ 1 0 (by norm_num) (by decide) (by decide) (by norm_num [Float.toRat])
  · exact Rep53_of _ 3 0 (by norm_num) (by decide) (by decide) (by norm_num [Float.toRat])
  · exact Rep53_of _ 9 0 (by norm_num) (by decide) (by decide) (by norm_num [Float.toRat])
  · exact Rep53_of _ 0 0 (by norm_num) (by decide) (by decide) (by norm_num [Float.toRat])

theorem fraction_sums : ∀ k, k < fractionFloats.length →
    Rep53 (sumPQr (window 2 (fractionFloats.take (k + 1)))) ∧
    Rep53 (sumQr (window 2 (fractionFloats.take (k + 1)))) ∧
    (2 ≤ k → Rep53 (sumPQr (window (2 - 1) (fractionFloats.take k))) ∧
      Rep53 (sumQr (window (2 - 1) (fractionFloats.take k)))) := by
  intro k hk
  simp only [fractionFloats, List.length_cons, List.length_nil] at hk
  interval_cases k
  · refine ⟨Rep53_of _ 1 0 (by norm_num) (by decide) (by decide)
        (by norm_num [fractionFloats, sumPQr, window, Float.toRat]),
      Rep53_of _ 2 0 (by norm_num) (by decide) (by decide)
        (by norm_num [fractionFloats, sumQr, window, Float.toRat]), ?_⟩
    intro h; omega
  · refine ⟨Rep53_of _ 4 0 (by norm_num) (by decide) (by decide)
        (by norm_num [fractionFloats, sumPQr, window, Float.toRat]),
      Rep53_of _ 4 0 (by norm_num) (by decide) (by decide)
        (by norm_num [fractionFloats, sumQr, window, Float.toRat]), ?_⟩
    intro h; omega
  · refine ⟨Rep53_of _ 12 0 (by norm_num) (by decide) (by decide)
        (by norm_num [fractionFloats, sumPQr, window, Float.toRat]),
      Rep53_of _ 6 0 (by norm_num) (by decide) (by decide)
        (by norm_num [fractionFloats, sumQr, window, Float.toRat]), ?_⟩
    intro _
    exact ⟨Rep53_of _ 3 0 (by norm_num) (by decide) (by decide)
        (by norm_num [fractionFloats, sumPQr, window, Float.toRat]),
      Rep53_of _ 2 0 (by norm_num) (by decide) (by decide)
        (by norm_num [fractionFloats, sumQr, window, Float.toRat])⟩
  · refine ⟨Rep53_of _ 9 0 (by norm_num) (by decide) (by decide)
        (by norm_num [fractionFloats, sumPQr, window, Float.toRat]),
      Rep53_of _ 4 0 (by norm_num) (by decide) (by decide)
        (by norm_num [fractionFloats, sumQr, window, Float.toRat]), ?_⟩
    intro _
    exact ⟨Rep53_of _ 9 0 (by norm_num) (by decide) (by decide)
        (by norm_num [fractionFloats, sumPQr, window, Float.toRat]),
      Rep53_of _ 4 0 (by norm_num) (by decide) (by decide)
        (by norm_num [fractionFloats, sumQr, window, Float.toRat])⟩

theorem fraction_totals : ∀ k, k < fractionFloats.length →
    sumQr (window 2 (fractionFloats.take (k + 1))) ≠ 0 := by
  intro k hk
  simp only [fractionFloats, List.length_cons, List.length_nil] at hk
  interval_cases k <;> norm_num [fractionFloats, sumQr, window, Float.toRat]

theorem fraction_ranges : ∀ k, k < fractionFloats.length →
    sumPQr (window 2 (fractionFloats.take (k + 1))) = 0 ∨
    InRange (sumPQr (window 2 (fractionFloats.take (k + 1))) /
      sumQr (window 2 (fractionFloats.take (k + 1)))) := by
  intro k hk
  simp only [fractionFloats, List.length_cons, List.length_nil] at hk
  right
  interval_cases k <;>
    exact InRange_of _ (-2) 2 (by decide) (by decide)
      (by norm_num [fractionFloats, sumPQr, sumQr, window, Float.toRat, abs_of_pos])
      (by norm_num [fractionFloats, sumPQr, sumQr, window, Float.toRat, abs_of_pos])

theorem C1_window_ratio_rounded_once_witness :
    (1 ≤ 2 ∧ ReadFinite SetString fractionTexts fractionFloats ∧
      (∀ v ∈ fractionFloats, Rep53 (v.1.toRat * v.2.toRat)) ∧
      (∀ k, k < fractionFloats.length →
        sumQr (window 2 (fractionFloats.take (k + 1))) ≠ 0)) ∧
    (∃ c texts, UpdateAll (opsWith SetString) (NewCalculator (opsWith SetString) 2)
        fractionTexts = some (c, texts) ∧ texts.length = fractionFloats.length ∧
      ∀ k, k < fractionFloats.length →
        (window 2 (fractionFloats.take (k + 1))).length = min (k + 1) 2 ∧
        ∃ f, texts[k]? = some (TextF f numPrecDigits) ∧
          IsRounded53 (sumPQr (window 2 (fractionFloats.take (k + 1))) /
            sumQr (window 2 (fractionFloats.take (k + 1)))) f) ∧
    (UpdateAll (opsWith SetString) (NewCalculator (opsWith SetString) 2) fractionTexts).map
        (fun r => r.2) =
      some ["0.5000000000000000", "1.0000000000000000", "2.0000000000000000",
        "2.2500000000000000"] ∧
    [sumPQr (window 2 (fractionFloats.take 4)), sumQr (window 2 (fractionFloats.take 4))] =
      [9, 4] :=
  ⟨⟨by decide, fraction_read, fraction_products, fraction_totals⟩,
    C1_window_ratio_rounded_once SetString 2 (by decide) fractionTexts fractionFloats
      fraction_read fraction_products fraction_sums fraction_totals fraction_ranges,
    by decide,
    by norm_num [fractionFloats, sumPQr, sumQr, window, Float.toRat]⟩

/-- The test of the repository (`vwap_test.go` lines 50-58): width 2, prices 1 to
6, quantities 2, 3, 5, 7, 11, 13. The texts returned read back as the expected
floats 1, 1.6, 2.625, 3.5833333333333335, 4.611111111111111 and
5.541666666666667. -/
theorem Update_test_vector :
    (UpdateAll big53 (NewCalculator big53 2)
        [("1", "2"), ("2", "3"), ("3", "5"), ("4", "7"), ("5", "11"), ("6", "13")]).map
        (fun r => r.2) =
      some ["1.0000000000000000", "1.6000000000000001", "2.6250000000000000",
        "3.5833333333333335", "4.6111111111111107", "5.5416666666666670"] ∧
    (List.zipWith (fun s t => (SetString s).bind (fun x => (SetString t).map (sameValue x)))
        ["1.0000000000000000", "1.6000000000000001", "2.6250000000000000",
          "3.5833333333333335", "4.6111111111111107", "5.5416666666666670"]
        ["1", "1.6", "2.625", "3.5833333333333335", "4.611111111111111", "5.541666666666667"] =
      [some true, some true, some true, some true, some true, some true]) :=
  ⟨by decide, by decide⟩

/-- C1 as stated fails: with width 2 and the pairs (1, 9007199254740992) and
(3, 1), the second Update returns 1.0000000000000004 (the float
4503599627370498 * 2^-52), while the exact ratio 9007199254740995 / 9007199254740993
rounded once to 53 bits is 4503599627370497 * 2^-52, which prints as
1.0000000000000002: the sum of the quantities was rounded before the division.
The second float is within `2 ^ -53`, half a unit in the last place, of the exact
ratio; the returned one is not. -/
theorem C1_counterexample :
    [SetString "1", SetString "9007199254740992", SetString "3"] =
      [some (.finite false 1 0), some (.finite false 4503599627370496 1),
        some (.finite false 3 0)] ∧
    [(Float.finite false 1 0).toRat, (Float.finite false 4503599627370496 1).toRat,
        (Float.finite false 3 0).toRat] = [1, 9007199254740992, 3] ∧
    (UpdateAll big53 (NewCalculator big53 2) [("1", "9007199254740992"), ("3", "1")]).map
        (fun r => (r.1.vwap, r.2)) =
      some (.finite false 4503599627370498 (-52),
        ["1.0000000000000000", "1.0000000000000004"]) ∧
    exactVWAP (window 2 [(1, 9007199254740992), (3, 1)]) =
      .finite false 4503599627370497 (-52) ∧
    TextF (exactVWAP (window 2 [(1, 9007199254740992), (3, 1)])) numPrecDigits =
      "1.0000000000000002" ∧
    (Float.finite false 4503599627370498 (-52)).toRat ≠
      (Float.finite false 4503599627370497 (-52)).toRat ∧
    |(Float.finite false 4503599627370497 (-52)).toRat -
        (1 * 9007199254740992 + 3 * 1) / (9007199254740992 + 1)| < (2 : ℚ) ^ (-53 : Int) ∧
    (2 : ℚ) ^ (-53 : Int) < |(Float.finite false 4503599627370498 (-52)).toRat -
        (1 * 9007199254740992 + 3 * 1) / (9007199254740992 + 1)| := by
  refine ⟨by decide, ?_, by decide, by decide, by decide, ?_, ?_, ?_⟩
  · simp only [Float.toRat]
    norm_num
  · simp only [Float.toRat]
    norm_num
  · simp only [Float.toRat]
    norm_num [abs_lt]
  · simp only [Float.toRat]
    norm_num [lt_abs]

/-- With width 2 and the pairs (1, 9007199254740992) and (3, 1), the float
`exactVWAP` of the window is the exact ratio of the two sums rounded once, and
the float 4503599627370498 * 2^-52 that the second Update returns is not. -/
theorem rounded_sums_not_rounded_once :
    IsRounded53 (((1 * 9007199254740992 + 3 * 1 : Nat) : ℚ) / ((9007199254740992 + 1 : Nat) : ℚ))
      (exactVWAP (window 2 [(1, 9007199254740992), (3, 1)])) ∧
    ¬ IsRounded53 (((1 * 9007199254740992 + 3 * 1 : Nat) : ℚ) / ((9007199254740992 + 1 : Nat) : ℚ))
      (.finite false 4503599627370498 (-52)) := by
  constructor
  · have h : exactVWAP (window 2 [(1, 9007199254740992), (3, 1)]) =
        roundRatio (1 * 9007199254740992 + 3 * 1) (9007199254740992 + 1) := by decide
    rw [h]
    apply roundRatio_rounded _ _ (by norm_num)
    right
    exact InRange_of _ (-1) 1 (by decide) (by decide) (by norm_num [abs_of_pos])
      (by norm_num [abs_of_pos])
  · intro h
    have h5 := h.2.2.2.2.2.2.1
    rw [abs_le] at h5
    have h6 := h5.2
    norm_num [abs_of_pos] at h6

/-- C2, as the code has it: for a calculator of width 1 and a run of Update
calls whose price and quantity texts read as floats of 53 bits, none an infinity,
with every quantity other than zero and every product of a price and its quantity
a float of 53 bits (the product is not rounded): every call returns without error
the text, with 16 digits after the point, of a float equal to the price passed in
that same call; for a price that is not zero this is the text of the price
itself. -/
theorem C2_width_one_exact_product (parse : String → Option big.Float)
    (ins : List (String × String)) (vals : List (big.Float × big.Float))
    (hread : ReadFinite parse ins vals)
    (hval : ∀ v ∈ vals, Rep53 v.1.toRat ∧ Rep53 v.2.toRat)
    (hprod : ∀ v ∈ vals, Rep53 (v.1.toRat * v.2.toRat))
    (hnz : ∀ v ∈ vals, v.2.toRat ≠ 0) :
    ∃ c texts, UpdateAll (opsWith parse) (NewCalculator (opsWith parse) 1) ins =
        some (c, texts) ∧ texts.length = vals.length ∧
      ∀ (k : Nat) (hk : k < vals.length),
        ∃ f, texts[k]? = some (TextF f numPrecDigits) ∧ f.IsInf = false ∧
          f.toRat = (vals[k]).1.toRat ∧
          ((vals[k]).1.toRat ≠ 0 → texts[k]? = some (TextF (vals[k]).1 numPrecDigits)) := by
  have hfin : ∀ (k : Nat) (hk : k < vals.length), (vals[k]).1.IsInf = false := by
    have : ∀ (ins : List (String × String)) (vals : List (big.Float × big.Float)),
        ReadFinite parse ins vals → ∀ v ∈ vals, v.1.IsInf = false := by
      intro ins vals
      induction vals generalizing ins with
      | nil => intro _ v hv; simp at hv
      | cons v vs ih =>
        intro hr u hu
        cases ins with
        | nil => exact absurd hr (by simp [ReadFinite])
        | cons s ss =>
          obtain ⟨_, _, hp, _, hrest⟩ := hr
          rcases List.mem_cons.mp hu with h | h
          · rw [h]; exact hp
          · exact ih ss hrest u h
    intro k hk
    exact this ins vals hread _ (List.getElem_mem hk)
  obtain ⟨c, texts, hrun, hlen, hall⟩ := run_sums_new parse 1 (le_refl 1) ins vals hread hprod
    (by
      intro k hk
      have hm := List.getElem_mem hk
      rw [window_one_take vals k hk]
      refine ⟨by simpa [sumPQr] using hprod _ hm, by simpa [sumQr] using (hval _ hm).2, ?_⟩
      intro _
      simp only [Nat.sub_self, window_zero]
      exact ⟨by simp [sumPQr, Rep53_zero], by simp [sumQr, Rep53_zero]⟩)
    (by
      intro k hk
      rw [window_one_take vals k hk]
      simpa [sumQr] using hnz _ (List.getElem_mem hk))
  refine ⟨c, texts, hrun, hlen, ?_⟩
  intro k hk
  have hm := List.getElem_mem hk
  obtain ⟨X, Y, f, hX, hY, hXv, hYv, hquo, ht⟩ := hall k hk
  rw [window_one_take vals k hk] at hXv hYv
  simp only [sumPQr, sumQr, List.map_cons, List.map_nil, List.sum_cons, List.sum_nil,
    add_zero] at hXv hYv
  have hq0 := hnz _ hm
  have hY0 : Y.toRat ≠ 0 := by rw [hYv]; exact hq0
  have hratio : X.toRat / Y.toRat = (vals[k]).1.toRat := by
    rw [hXv, hYv]
    field_simp
  obtain ⟨z, hz, hz1, hz2⟩ := Quo_exact X Y hX hY hY0 (by rw [hratio]; exact (hval _ hm).1)
  rw [hquo] at hz
  simp only [Option.some.injEq] at hz
  subst hz
  rw [hratio] at hz2
  refine ⟨f, ht, hz1, hz2, ?_⟩
  intro hne
  rw [ht, TextF_of_toRat_eq f (vals[k]).1 numPrecDigits hz1 (hfin k hk) hz2 hne]

theorem exactProduct_read : ReadFinite SetString exactProductTexts exactProductFloats := by
  simp only [exactProductTexts, exactProductFloats, ReadFinite]; decide

theorem exactProduct_floats :
    ∀ v ∈ exactProductFloats, Rep53 v.1.toRat ∧ Rep53 v.2.toRat := by
  intro v hv
  simp only [exactProductFloats, List.mem_cons, List.mem_singleton, List.not_mem_nil,
    or_false] at hv
  rcases hv with h | h | h | h | h <;> subst h <;>
    exact ⟨Rep53_toRat_finite _ _ _ (by norm_num) (by decide) (by decide),
      Rep53_toRat_finite _ _ _ (by norm_num) (by decide) (by decide)⟩

theorem exactProduct_products :
    ∀ v ∈ exactProductFloats, Rep53 (v.1.toRat * v.2.toRat) := by
  intro v hv
  simp only [exactProductFloats, List.mem_cons, List.mem_singleton, List.not_mem_nil,
    or_false] at hv
  rcases hv with h | h | h | h | h <;> subst h
  · exact Rep53_of _ 1 0 (by norm_num) (by decide) (by decide) (by norm_num [Float.toRat])
  · exact Rep53_of _ 4863887597560136 (-54) (by norm_num) (by decide) (by decide)
      (by norm_num [Float.toRat])
  · exact Rep53_of _ 4863887597560136 (-52) (by norm_num) (by decide) (by decide)
      (by norm_num [Float.toRat])
  · exact Rep53_of _ 3 0 (by norm_num) (by decide) (by decide) (by norm_num [Float.toRat])
  · exact Rep53_of _ 5725000 0 (by norm_num) (by decide) (by decide)
      (by norm_num [Float.toRat])

theorem exactProduct_quantities : ∀ v ∈ exactProductFloats, v.2.toRat ≠ 0 := by
  intro v hv
  simp only [exactProductFloats, List.mem_cons, List.mem_singleton, List.not_mem_nil,
    or_false] at hv
  rcases hv with h | h | h | h | h <;> subst h <;> norm_num [Float.toRat]

theorem C2_width_one_exact_product_witness :
    (ReadFinite SetString exactProductTexts exactProductFloats ∧
      (∀ v ∈ exactProductFloats, Rep53 v.1.toRat ∧ Rep53 v.2.toRat) ∧
      (∀ v ∈ exactProductFloats, Rep53 (v.1.toRat * v.2.toRat)) ∧
      (∀ v ∈ exactProductFloats, v.2.toRat ≠ 0)) ∧
    (∃ c texts, UpdateAll (opsWith SetString) (NewCalculator (opsWith SetString) 1)
        exactProductTexts = some (c, texts) ∧ texts.length = exactProductFloats.length ∧
      ∀ (k : Nat) (hk : k < exactProductFloats.length),
        ∃ f, texts[k]? = some (TextF f numPrecDigits) ∧ f.IsInf = false ∧
          f.toRat = (exactProductFloats[k]).1.toRat ∧
          ((exactProductFloats[k]).1.toRat ≠ 0 →
            texts[k]? = some (TextF (exactProductFloats[k]).1 numPrecDigits))) ∧
    (UpdateAll (opsWith SetString) (NewCalculator (opsWith SetString) 1)
        exactProductTexts).map (fun r => r.2) =
      some ["0.5000000000000000", "0.2700000000000000", "0.2700000000000000",
        "1.0000000000000000", "57250.0000000000000000"] :=
  ⟨⟨exactProduct_read, exactProduct_floats, exactProduct_products, exactProduct_quantities⟩,
    C2_width_one_exact_product SetString exactProductTexts exactProductFloats
      exactProduct_read exactProduct_floats exactProduct_products exactProduct_quantities,
    by decide⟩

/-- C2 as stated fails: with width 1, the call `Update("0.27", "15")` returns
0.2700000000000001, the float 4863887597560137 * 2^-54, and not the price, which
reads as the float 4863887597560136 * 2^-54 and prints as 0.2700000000000000: the
product of the price and the quantity is rounded before the division. The float
of the price is nearer to 27/100 than the returned one. -/
theorem C2_counterexample :
    (UpdateAll big53 (NewCalculator big53 1) [("0.27", "15")]).map
        (fun r => (r.1.vwap, r.2)) =
      some (.finite false 4863887597560137 (-54), ["0.2700000000000001"]) ∧
    SetString "0.27" = some (.finite false 4863887597560136 (-54)) ∧
    TextF (.finite false 4863887597560136 (-54)) numPrecDigits = "0.2700000000000000" ∧
    sameValue (.finite false 4863887597560137 (-54))
      (.finite false 4863887597560136 (-54)) = false ∧
    (Float.finite false 4863887597560137 (-54)).toRat ≠
      (Float.finite false 4863887597560136 (-54)).toRat ∧
    |(Float.finite false 4863887597560136 (-54)).toRat - 27 / 100| <
      |(Float.finite false 4863887597560137 (-54)).toRat - 27 / 100| := by
  refine ⟨by decide, by decide, by decide, by decide, ?_, ?_⟩
  · simp only [Float.toRat]
    norm_num
  · simp only [Float.toRat]
    norm_num [abs_lt, lt_abs]

end vwap

/-! ## Claim on the cumulative sums -/

namespace vwap

open ringbuf big

/-- C8 at the failing run: with width 2, after the calls
`Update("1", "9007199254740992")`, `Update("1", "1")` and `Update("1", "1")`, a
state reached from NewCalculator(2), both buffers hold 1 and 1, whose exact sum is
2, while cumulativeTypicalPrice and cumulativeVolume are both 1: the second
addition was rounded to `2 ^ 53`, and the eviction of `2 ^ 53` then left 0. The
comments of the two fields (`vwap..go` lines 25-34) say that they are the sums of
what is used for the current VWAP, which is what the buffers hold. -/
theorem C8_sums_drift_after_rounding :
    UpdateAll big53 (NewCalculator big53 2)
        [("1", "9007199254740992"), ("1", "1"), ("1", "1")] =
      some (driftedState,
        ["1.0000000000000000", "1.0000000000000000", "1.0000000000000000"]) ∧
    Reachable big53 2 driftedState ∧
    driftedState.qs.items = [some (.finite false 1 0), some (.finite false 1 0)] ∧
    driftedState.pqs.items = [some (.finite false 1 0), some (.finite false 1 0)] ∧
    driftedState.cumulativeVolume.toRat = 1 ∧
    (driftedState.qs.items.map ptrToRat).sum = 2 ∧
    driftedState.cumulativeTypicalPrice.toRat = 1 ∧
    (driftedState.pqs.items.map ptrToRat).sum = 2 := by
  have hq : driftedState.qs.items = [some (.finite false 1 0), some (.finite false 1 0)] := by
    decide
  have hp : driftedState.pqs.items = [some (.finite false 1 0), some (.finite false 1 0)] := by
    decide
  refine ⟨by decide, ?_, hq, hp, ?_, ?_, ?_, ?_⟩
  · have h1 : Reachable big53 2
        { windowWidth := 2
          pqs := { buf := [some (.finite false 4503599627370496 1), none], count := 1,
                   end_ := 1, start := 0, maxCap := 2 }
          cumulativeTypicalPrice := .finite false 4503599627370496 1
          qs := { buf := [some (.finite false 4503599627370496 1), none], count := 1,
                  end_ := 1, start := 0, maxCap := 2 }
          cumulativeVolume := .finite false 4503599627370496 1
          vwap := .finite false 4503599627370496 (-52) } :=
      Reachable.step _ _ "1" "9007199254740992" "1.0000000000000000" none
        Reachable.init (by decide)
    have h2 : Reachable big53 2
        { windowWidth := 2
          pqs := { buf := [some (.finite false 4503599627370496 1), some (.finite false 1 0)],
                   count := 2, end_ := 0, start := 0, maxCap := 2 }
          cumulativeTypicalPrice := .finite false 4503599627370496 1
          qs := { buf := [some (.finite false 4503599627370496 1), some (.finite false 1 0)],
                  count := 2, end_ := 0, start := 0, maxCap := 2 }
          cumulativeVolume := .finite false 4503599627370496 1
          vwap := .finite false 4503599627370496 (-52) } :=
      Reachable.step _ _ "1" "1" "1.0000000000000000" none h1 (by decide)
    exact Reachable.step _ _ "1" "1" "1.0000000000000000" none h2 (by decide)
  · simp [driftedState, Float.toRat]
  · rw [hq]; simp [ptrToRat, Float.toRat]; norm_num
  · simp [driftedState, Float.toRat]
  · rw [hp]; simp [ptrToRat, Float.toRat]; norm_num

end vwap

/-! ## Claim on the divisor -/

namespace vwap

open ringbuf big

variable {F : Type}

theorem evict_volume (ops : FloatOps F) (c c1 : Calculator F) (h : evict ops c = some c1) :
    (c.pqs.Len = c.windowWidth ∧ ∃ y, c.qs.PopFront = some (y, c1.qs) ∧
        derefOp ops.Sub c.cumulativeVolume y = some c1.cumulativeVolume) ∨
      (c.pqs.Len ≠ c.windowWidth ∧ c1 = c) := by
  unfold evict at h
  split at h
  · rename_i hfull
    split at h
    · exact absurd h (by simp)
    · rename_i oldPQ pqs hpop
      split at h
      · exact absurd h (by simp)
      · split at h
        · exact absurd h (by simp)
        · rename_i oldQ qs hpop2
          split at h
          · exact absurd h (by simp)
          · rename_i cv hsub
            simp only [Option.some.injEq] at h
            subst h
            exact Or.inl ⟨hfull, oldQ, hpop2, hsub⟩
  · rename_i hfull
    simp only [Option.some.injEq] at h
    exact Or.inr ⟨hfull, h.symm⟩

theorem accumulate_volume (ops : FloatOps F) (c c2 : Calculator F) (p q : F)
    (h : accumulate ops c p q = some c2) :
    ∃ c1, evict ops c = some c1 ∧ ops.Add c1.cumulativeVolume q = some c2.cumulativeVolume ∧
      c1.qs.PushBack (some q) = some c2.qs := by
  unfold accumulate at h
  split at h
  · exact absurd h (by simp)
  · split at h
    · exact absurd h (by simp)
    · rename_i c1 hev
      split at h
      · exact absurd h (by simp)
      · split at h
        · exact absurd h (by simp)
        · split at h
          · exact absurd h (by simp)
          · rename_i cv hadd
            split at h
            · exact absurd h (by simp)
            · rename_i qs hpush2
              simp only [Option.some.injEq] at h
              subst h
              exact ⟨c1, hev, hadd, hpush2⟩

theorem sumR_cons (x : big.Float) (w : List big.Float) : sumR (x :: w) = x.toRat + sumR w := by
  simp [sumR]

theorem sumR_append (w : List big.Float) (x : big.Float) :
    sumR (w ++ [x]) = sumR w + x.toRat := by
  simp [sumR]

theorem ExactVolume_new (parse : String → Option big.Float) (n : Nat) (hn : 1 ≤ n) :
    ExactVolume n (NewCalculator (opsWith parse) n) [] := by
  obtain ⟨hwf, hitems, _⟩ := WF_new (T := Option big.Float) n hn
  refine ⟨InStep_new _ n, hwf, by simpa [NewCalculator] using hitems, ?_, rfl, ?_⟩
  · intro q hq; simp at hq
  · simp [NewCalculator, opsWith, sumR, Float.toRat]

theorem accumulate_ExactVolume (parse : String → Option big.Float) (n : Nat) (hn : 1 ≤ n)
    (c c2 : Calculator big.Float) (w : List big.Float) (p q : big.Float)
    (hc : ExactVolume n c w) (hq : q.IsInf = false)
    (hb : w.length = n → Rep53 (sumR w.tail)) (hs : Rep53 (sumR (slide n w q)))
    (h : accumulate (opsWith parse) c p q = some c2) : ExactVolume n c2 (slide n w q) := by
  have hin2 := accumulate_InStep (opsWith parse) n c c2 p q hc.1 h
  obtain ⟨hin, hwf, hi, hf, hx, hv⟩ := hc
  obtain ⟨c1, hev, hadd, hpush⟩ := accumulate_volume (opsWith parse) c c2 p q h
  have hcnt : c.qs.count = w.length := by
    have h2 := items_length c.qs
    rw [hi] at h2
    simpa using h2.symm
  obtain ⟨hw, _, _, heq, _⟩ := hin
  have hmid : c1.qs.WF n ∧ c1.qs.items = (if w.length = n then w.tail else w).map some ∧
      (∀ u ∈ (if w.length = n then w.tail else w), u.IsInf = false) ∧
      c1.cumulativeVolume.IsInf = false ∧
      c1.cumulativeVolume.toRat = sumR (if w.length = n then w.tail else w) ∧
      c1.qs.count < n := by
    rcases evict_volume (opsWith parse) c c1 hev with ⟨hfull, y, hpop, hsub⟩ | ⟨hnot, hc1⟩
    · simp only [RingBuffer.Len] at hfull
      have hwn : w.length = n := by omega
      obtain ⟨y2, r2, hp2, hwf2, hit2, hc2⟩ := PopFront_WF c.qs n hwf (by omega)
      rw [hpop] at hp2
      simp only [Option.some.injEq, Prod.mk.injEq] at hp2
      obtain ⟨hy, hr⟩ := hp2
      subst hy hr
      rw [if_pos hwn]
      cases w with
      | nil => simp only [List.length_nil] at hwn; omega
      | cons q0 wt =>
        rw [hi] at hit2
        simp only [List.map_cons, List.cons.injEq] at hit2
        obtain ⟨hy, hr⟩ := hit2
        subst hy
        simp only [List.tail_cons] at hb ⊢
        rw [sumR_cons] at hv
        obtain ⟨z, hz, hz1, hz2⟩ := Sub_exact c.cumulativeVolume q0 hx
          (hf q0 (List.mem_cons_self _ _)) (by rw [hv]; simpa using hb hwn)
        simp only [derefOp, opsWith_Sub, hz, Option.some.injEq] at hsub
        rw [← hsub]
        refine ⟨hwf2, hr.symm, fun u hu => hf u (List.mem_cons_of_mem _ hu), hz1, ?_, ?_⟩
        · rw [hz2, hv]; ring
        · simp only [List.length_cons] at hcnt
          omega
    · simp only [RingBuffer.Len] at hnot
      subst hc1
      have hwn : ¬ w.length = n := by omega
      rw [if_neg hwn]
      have hle := hwf.2.2.1
      exact ⟨hwf, hi, hf, hx, hv, by omega⟩
  obtain ⟨hwf1, hi1, hf1, hx1, hv1, hlt⟩ := hmid
  obtain ⟨r, hpb, hwfr, hitr, _⟩ := PushBack_WF c1.qs n (some q) hwf1 hlt
  rw [hpush] at hpb
  simp only [Option.some.injEq] at hpb
  unfold slide at hs ⊢
  rw [sumR_append] at hs
  obtain ⟨z, hz, hz1, hz2⟩ := Add_exact c1.cumulativeVolume q hx1 hq (by rw [hv1]; exact hs)
  rw [opsWith_Add, hz] at hadd
  simp only [Option.some.injEq] at hadd
  refine ⟨hin2, hpb ▸ hwfr, ?_, ?_, ?_, ?_⟩
  · rw [hpb, hitr, hi1]
    simp
  · intro u hu
    rw [List.mem_append] at hu
    rcases hu with hu | hu
    · exact hf1 u hu
    · simp only [List.mem_singleton] at hu
      rw [hu]; exact hq
  · rw [← hadd]; exact hz1
  · rw [← hadd, hz2, hv1, sumR_append]

theorem Update_ExactVolume (parse : String → Option big.Float) (n : Nat) (hn : 1 ≤ n)
    (c c1 : Calculator big.Float) (w : List big.Float) (q : big.Float) (s : String × String)
    (text : String) (hc : ExactVolume n c w) (hqs : parse s.2 = some q)
    (hq : q.IsInf = false) (hb : w.length = n → Rep53 (sumR w.tail))
    (hs : Rep53 (sumR (slide n w q)))
    (h : Update (opsWith parse) c s.1 s.2 = some (c1, text, none)) :
    ExactVolume n c1 (slide n w q) := by
  cases hp : (opsWith parse).SetString s.1 with
  | none =>
    rw [Update_price_fails (opsWith parse) c s.1 s.2 hp] at h
    simp at h
  | some p =>
    rw [Update_parsed (opsWith parse) c s.1 s.2 p q hp hqs] at h
    split at h
    · exact absurd h (by simp)
    · rename_i c2 hacc
      split at h
      · exact absurd h (by simp)
      · simp only [Option.some.injEq, Prod.mk.injEq] at h
        have h2 := accumulate_ExactVolume parse n hn c c2 w p q hc hq hb hs hacc
        rw [← h.1]
        exact h2

theorem run_ExactVolume (parse : String → Option big.Float) (n : Nat) (hn : 1 ≤ n) :
    ∀ (qs : List big.Float) (ins : List (String × String)) (c c1 : Calculator big.Float)
      (pre : List big.Float) (texts : List String),
      ExactVolume n c (window n pre) → QuantitiesAs parse ins qs →
      UpdateAll (opsWith parse) c ins = some (c1, texts) →
      (∀ k, k < qs.length →
        Rep53 (sumR (window n (pre ++ qs.take (k + 1)))) ∧
        (n ≤ pre.length + k → Rep53 (sumR (window (n - 1) (pre ++ qs.take k))))) →
      ExactVolume n c1 (window n (pre ++ qs)) := by
  intro qs
  induction qs with
  | nil =>
    intro ins c c1 pre texts hc hqa hrun _
    cases ins with
    | nil =>
      simp only [UpdateAll, Option.some.injEq, Prod.mk.injEq] at hrun
      rw [← hrun.1]
      simpa using hc
    | cons s ss => exact absurd hqa (by simp [QuantitiesAs])
  | cons q qs ih =>
    intro ins c c1 pre texts hc hqa hrun hsum
    cases ins with
    | nil => exact absurd hqa (by simp [QuantitiesAs])
    | cons s ss =>
      obtain ⟨hqs, hq, hrest⟩ := hqa
      have h0 := hsum 0 (by simp)
      simp only [List.take_succ_cons, List.take_zero, List.append_nil, Nat.add_zero] at h0
      have hsl := slide_window n hn pre q
      have hb : (window n pre).length = n → Rep53 (sumR (window n pre).tail) := by
        intro hl
        rw [window_tail n hn pre hl]
        apply h0.2
        rw [window_length] at hl
        omega
      unfold UpdateAll at hrun
      split at hrun
      · rename_i cm text hu
        have hcm := Update_ExactVolume parse n hn c cm (window n pre) q s text hc hqs hq hb
          (by rw [hsl]; exact h0.1) hu
        rw [hsl] at hcm
        cases hrest2 : UpdateAll (opsWith parse) cm ss with
        | none =>
          rw [hrest2] at hrun
          exact absurd hrun (by simp)
        | some r =>
          rw [hrest2] at hrun
          simp only [Option.map_some', Option.some.injEq, Prod.mk.injEq] at hrun
          have := ih ss cm r.1 (pre ++ [q]) r.2 hcm hrest hrest2 (by
            intro k hk
            have h := hsum (k + 1) (by simp only [List.length_cons]; omega)
            simp only [List.take_succ_cons] at h
            simp only [List.append_assoc, List.singleton_append, List.length_append,
              List.length_singleton]
            refine ⟨h.1, ?_⟩
            intro hle
            exact h.2 (by omega))
          rw [← hrun.1]
          simpa using this
      · exact absurd hrun (by simp)

theorem Quo_returns (x y : big.Float) (hy : y.IsInf = false) (hy0 : y.toRat ≠ 0) :
    ∃ f, Quo x y = some f := by
  cases y with
  | inf n => simp [Float.IsInf] at hy
  | zero yn => simp [Float.toRat] at hy0
  | finite yn ym ye =>
    cases x with
    | inf n => exact ⟨_, rfl⟩
    | zero xn => exact ⟨_, rfl⟩
    | finite xn xm xe => exact ⟨_, rfl⟩

/-- C9, as the code has it: for a width `n` of at least 1, take a run of Update
calls on a new calculator that all return without error, followed by one more
call that reaches its division, the quantity texts reading as floats, none an
infinity, such that no addition or subtraction of the quantities is rounded (the
exact sum of the quantities over every window, and over every full window less
its oldest quantity, is a float of 53 bits). Then cumulativeVolume at the division
of the last call is the exact sum of the quantities of the window; so when that
sum is not zero, the divisor is not zero and the call returns without error. -/
theorem C9_divisor_is_window_total (parse : String → Option big.Float) (n : Nat)
    (hn : 1 ≤ n) (ins : List (String × String)) (qs : List big.Float) (s : String × String)
    (p q : big.Float) (c c2 : Calculator big.Float) (texts : List String)
    (hquant : QuantitiesAs parse ins qs) (hps : parse s.1 = some p) (hqs : parse s.2 = some q)
    (hq : q.IsInf = false)
    (hsum : ∀ k, k < (qs ++ [q]).length →
      Rep53 (sumR (window n ((qs ++ [q]).take (k + 1)))) ∧
      (n ≤ k → Rep53 (sumR (window (n - 1) ((qs ++ [q]).take k)))))
    (hrun : UpdateAll (opsWith parse) (NewCalculator (opsWith parse) n) ins = some (c, texts))
    (hacc : accumulate (opsWith parse) c p q = some c2) :
    c2.cumulativeVolume.IsInf = false ∧
    c2.cumulativeVolume.toRat = sumR (window n (qs ++ [q])) ∧
    (sumR (window n (qs ++ [q])) ≠ 0 →
      c2.cumulativeVolume.toRat ≠ 0 ∧ (∀ neg, c2.cumulativeVolume ≠ .zero neg) ∧
      ∃ c3 text, Update (opsWith parse) c s.1 s.2 = some (c3, text, none)) := by
  have h0 : ExactVolume n (NewCalculator (opsWith parse) n) (window n []) := by
    rw [window_nil]; exact ExactVolume_new parse n hn
  have hc : ExactVolume n c (window n qs) := by
    have := run_ExactVolume parse n hn qs ins (NewCalculator (opsWith parse) n) c [] texts h0
      hquant hrun (by
        intro k hk
        have h := hsum k (by simp only [List.length_append, List.length_singleton]; omega)
        simp only [List.nil_append, List.length_nil, Nat.zero_add]
        rw [List.take_append_of_le_length (by omega)] at h
        refine ⟨h.1, ?_⟩
        intro hle
        have h2 := h.2 hle
        rw [List.take_append_of_le_length (by omega)] at h2
        exact h2)
    simpa using this
  have hlast := hsum qs.length (by simp)
  have ht1 : (qs ++ [q]).take (qs.length + 1) = qs ++ [q] := by
    apply List.take_of_length_le
    simp
  have ht2 : (qs ++ [q]).take qs.length = qs := by
    simp
  rw [ht1, ht2] at hlast
  have hsl := slide_window n hn qs q
  have hb : (window n qs).length = n → Rep53 (sumR (window n qs).tail) := by
    intro hl
    rw [window_tail n hn qs hl]
    apply hlast.2
    rw [window_length] at hl
    omega
  have hc2 := accumulate_ExactVolume parse n hn c c2 (window n qs) p q hc hq hb
    (by rw [hsl]; exact hlast.1) hacc
  rw [hsl] at hc2
  obtain ⟨_, _, _, _, hx, hv⟩ := hc2
  refine ⟨hx, hv, ?_⟩
  intro hne
  have hne2 : c2.cumulativeVolume.toRat ≠ 0 := by rw [hv]; exact hne
  refine ⟨hne2, ?_, ?_⟩
  · intro neg hz
    rw [hz] at hne2
    simp [Float.toRat] at hne2
  · obtain ⟨f, hf⟩ := Quo_returns c2.cumulativeTypicalPrice c2.cumulativeVolume hx hne2
    refine ⟨{ c2 with vwap := f }, TextF f numPrecDigits, ?_⟩
    rw [Update_parsed (opsWith parse) c s.1 s.2 p q hps hqs]
    simp only [hacc, opsWith_Quo, hf, opsWith_TextF]

theorem zeroQuantity_sums : ∀ k,
    k < ([big.Float.finite false 4503599627370496 (-53), big.Float.zero false] ++
      [big.Float.finite false 6755399441055744 (-52)]).length →
    Rep53 (sumR (window 2
      (([big.Float.finite false 4503599627370496 (-53), big.Float.zero false] ++
        [big.Float.finite false 6755399441055744 (-52)]).take (k + 1)))) ∧
    (2 ≤ k → Rep53 (sumR (window (2 - 1)
      (([big.Float.finite false 4503599627370496 (-53), big.Float.zero false] ++
        [big.Float.finite false 6755399441055744 (-52)]).take k)))) := by
  intro k hk
  simp only [List.cons_append, List.nil_append, List.length_cons, List.length_nil] at hk
  interval_cases k
  · refine ⟨Rep53_of _ 1 (-1) (by norm_num) (by decide) (by decide)
        (by norm_num [sumR, window, Float.toRat]), ?_⟩
    intro h; omega
  · refine ⟨Rep53_of _ 1 (-1) (by norm_num) (by decide) (by decide)
        (by norm_num [sumR, window, Float.toRat]), ?_⟩
    intro h; omega
  · refine ⟨Rep53_of _ 3 (-1) (by norm_num) (by decide) (by decide)
        (by norm_num [sumR, window, Float.toRat]), ?_⟩
    intro _
    exact Rep53_of _ 0 0 (by norm_num) (by decide) (by decide)
      (by norm_num [sumR, window, Float.toRat])

theorem C9_divisor_is_window_total_witness :
    (1 ≤ 2 ∧
      QuantitiesAs SetString [("1", "0.5"), ("3", "0")]
        [.finite false 4503599627370496 (-53), .zero false] ∧
      SetString "2" = some (.finite false 2 0) ∧
      SetString "1.5" = some (.finite false 6755399441055744 (-52)) ∧
      UpdateAll (opsWith SetString) (NewCalculator (opsWith SetString) 2)
          [("1", "0.5"), ("3", "0")] =
        some (afterZeroQuantity, ["1.0000000000000000", "1.0000000000000000"]) ∧
      accumulate (opsWith SetString) afterZeroQuantity (.finite false 2 0)
          (.finite false 6755399441055744 (-52)) = some dividingAfterZeroQuantity) ∧
    (dividingAfterZeroQuantity.cumulativeVolume.IsInf = false ∧
      dividingAfterZeroQuantity.cumulativeVolume.toRat =
        sumR (window 2 ([.finite false 4503599627370496 (-53), .zero false] ++
          [.finite false 6755399441055744 (-52)])) ∧
      (sumR (window 2 ([.finite false 4503599627370496 (-53), .zero false] ++
          [.finite false 6755399441055744 (-52)])) ≠ 0 →
        dividingAfterZeroQuantity.cumulativeVolume.toRat ≠ 0 ∧
        (∀ neg, dividingAfterZeroQuantity.cumulativeVolume ≠ .zero neg) ∧
        ∃ c3 text, Update (opsWith SetString) afterZeroQuantity "2" "1.5" =
          some (c3, text, none))) ∧
    sumR (window 2 ([.finite false 4503599627370496 (-53), .zero false] ++
        [.finite false 6755399441055744 (-52)])) = 3 / 2 :=
  have hq : QuantitiesAs SetString [("1", "0.5"), ("3", "0")]
      [.finite false 4503599627370496 (-53), .zero false] := by
    simp only [QuantitiesAs]; decide
  ⟨⟨by decide, hq, by decide, by decide, by decide, by decide⟩,
    C9_divisor_is_window_total SetString 2 (by decide) [("1", "0.5"), ("3", "0")]
      [.finite false 4503599627370496 (-53), .zero false] ("2", "1.5") (.finite false 2 0)
      (.finite false 6755399441055744 (-52)) afterZeroQuantity dividingAfterZeroQuantity
      ["1.0000000000000000", "1.0000000000000000"] hq (by decide) (by decide) rfl
      zeroQuantity_sums (by decide) (by decide),
    by norm_num [sumR, window, Float.toRat]⟩

/-- C9 as stated fails. With width 3 and the quantities 1, 9007199254740992, 1,
1, 1, 1, 0.5, 0.5, all positive, every Update returns without error, and in the
eighth one cumulativeVolume is zero at the division: the call returns `+Inf`.
With width 1, after `Update("1", "1")` the call `Update("1", "0")` divides zero
by zero and traps. -/
theorem C9_counterexample :
    [SetString "1", SetString "9007199254740992", SetString "0.5"] =
      [some (.finite false 1 0), some (.finite false 4503599627370496 1),
        some (.finite false 4503599627370496 (-53))] ∧
    (0 < (Float.finite false 1 0).toRat ∧ 0 < (Float.finite false 4503599627370496 1).toRat ∧
      0 < (Float.finite false 4503599627370496 (-53)).toRat) ∧
    (UpdateAll big53 (NewCalculator big53 3)
        [("1", "1"), ("1", "9007199254740992"), ("1", "1"), ("1", "1"), ("1", "1"), ("1", "1"),
          ("1", "0.5"), ("2", "0.5")]).map
        (fun r => (r.1.cumulativeTypicalPrice, r.1.cumulativeVolume, r.1.vwap, r.2)) =
      some (.finite false 4503599627370496 (-53), .zero false, .inf false,
        ["1.0000000000000000", "1.0000000000000000", "1.0000000000000000",
          "1.0000000000000000", "1.0000000000000000", "1.0000000000000000",
          "1.0000000000000000", "+Inf"]) ∧
    (Float.zero false).toRat = 0 ∧
    ((UpdateAll big53 (NewCalculator big53 1) [("1", "1")]).bind
        (fun r => (accumulate big53 r.1 (.finite false 1 0) (.zero false)).map
          (fun c2 => (c2.cumulativeTypicalPrice, c2.cumulativeVolume)))) =
      some (.zero false, .zero false) ∧
    SetString "0" = some (.zero false) ∧
    UpdateAll big53 (NewCalculator big53 1) [("1", "1"), ("1", "0")] = none := by
  refine ⟨by decide, ?_, by decide, rfl, by decide, by decide, by decide⟩
  simp only [Float.toRat]
  norm_num

end vwap

/-! ## Claims on the ring buffer -/

namespace ringbuf

variable {T : Type}

theorem Shape_new [Inhabited T] (cap : Nat) : (NewRingBuffer cap : RingBuffer T).Shape cap :=
  ⟨by simp [NewRingBuffer], rfl, Nat.zero_le _, fun h => h⟩

theorem Reachable_Shape [Inhabited T] (cap : Nat) (r : RingBuffer T)
    (h : r.Reachable cap) : r.Shape cap := by
  induction h with
  | init => exact Shape_new cap
  | push r r1 x _ hp ih =>
    obtain ⟨hlen, hmax, hcnt, hst⟩ := ih
    obtain ⟨hc, hm, hs, hb, _, _⟩ := PushBack_some hp
    refine ⟨by rw [hb, List.length_set, hlen], by rw [hm, hmax], ?_, by rw [hs]; exact hst⟩
    rw [hc]
    split_ifs <;> omega
  | pop r r1 x _ hp ih =>
    obtain ⟨hlen, hmax, hcnt, hst⟩ := ih
    obtain ⟨hpos, hc, hm, hb, _, hs, _⟩ := PopFront_some hp
    refine ⟨by rw [hb, hlen], by rw [hm, hmax], by omega, fun hcap => ?_⟩
    rw [hs, hlen]
    exact Nat.mod_lt _ hcap

theorem PopFront_of_Shape (cap : Nat) (r : RingBuffer T) (hs : r.Shape cap)
    (hpos : 0 < r.count) :
    ∃ x, r.buf[r.start]? = some x ∧
      r.PopFront = some (x, { r with start := (r.start + 1) % r.buf.length,
                                     count := r.count - 1 }) := by
  obtain ⟨hlen, _, hcnt, hst⟩ := hs
  have hlt : r.start < r.buf.length := by
    rw [hlen]; exact hst (by omega)
  refine ⟨r.buf[r.start], List.getElem?_eq_getElem hlt, ?_⟩
  rw [RingBuffer.PopFront, if_neg (by omega), List.getElem?_eq_getElem hlt]

/-- C11: for every buffer reached from NewRingBuffer by PushBack and PopFront,
PopFront traps exactly when Len() is 0. On an empty buffer it returns nothing (no
zero value) and the buffer after the call is the buffer before it; on a non-empty
buffer it returns the element at `start` and Len() goes down by one. -/
theorem C11_PopFront_traps_iff_empty [Inhabited T] (cap : Nat) (r : RingBuffer T)
    (h : r.Reachable cap) :
    (r.PopFront = none ↔ r.Len = 0) ∧
    (r.Len = 0 → r.PopFront = none ∧ r.PopFrontState = r) ∧
    (r.Len ≠ 0 → ∃ x r1, r.PopFront = some (x, r1) ∧ r.buf[r.start]? = some x ∧
      r.PopFrontState = r1 ∧ r1.Len + 1 = r.Len) := by
  have hs := Reachable_Shape cap r h
  have hempty : r.Len = 0 → r.PopFront = none ∧ r.PopFrontState = r := by
    intro h0
    simp only [RingBuffer.Len] at h0
    constructor
    · rw [RingBuffer.PopFront, if_pos (by omega)]
    · rw [RingBuffer.PopFrontState, if_pos (by omega)]
  have hfull : r.Len ≠ 0 → ∃ x r1, r.PopFront = some (x, r1) ∧ r.buf[r.start]? = some x ∧
      r.PopFrontState = r1 ∧ r1.Len + 1 = r.Len := by
    intro h0
    simp only [RingBuffer.Len] at h0
    obtain ⟨x, hx, hp⟩ := PopFront_of_Shape cap r hs (by omega)
    refine ⟨x, _, hp, hx, ?_, ?_⟩
    · rw [RingBuffer.PopFrontState, if_neg (by omega), hx]
    · simp only [RingBuffer.Len]
      omega
  refine ⟨⟨fun hn => ?_, fun h0 => (hempty h0).1⟩, hempty, hfull⟩
  by_contra h0
  obtain ⟨x, r1, hp, _⟩ := hfull h0
  rw [hn] at hp
  exact absurd hp (by simp)

theorem C11_PopFront_traps_iff_empty_witness :
    (NewRingBuffer 2 : RingBuffer Int).Reachable 2 ∧
    (({ buf := [7, 0], count := 1, end_ := 1, start := 0, maxCap := 2 } :
        RingBuffer Int).Reachable 2) ∧
    ((NewRingBuffer 2 : RingBuffer Int).PopFront = none ∧
      (NewRingBuffer 2 : RingBuffer Int).PopFrontState = NewRingBuffer 2) ∧
    (∃ x r1, ({ buf := [7, 0], count := 1, end_ := 1, start := 0, maxCap := 2 } :
        RingBuffer Int).PopFront = some (x, r1) ∧
      ({ buf := [7, 0], count := 1, end_ := 1, start := 0, maxCap := 2 } :
        RingBuffer Int).buf[0]? = some x ∧
      ({ buf := [7, 0], count := 1, end_ := 1, start := 0, maxCap := 2 } :
        RingBuffer Int).PopFrontState = r1 ∧ r1.Len + 1 = 1) :=
  have h1 : ({ buf := [7, 0], count := 1, end_ := 1, start := 0, maxCap := 2 } :
      RingBuffer Int).Reachable 2 :=
    RingBuffer.Reachable.push (NewRingBuffer 2) _ 7 RingBuffer.Reachable.init (by decide)
  ⟨RingBuffer.Reachable.init, h1,
    (C11_PopFront_traps_iff_empty 2 (NewRingBuffer 2) RingBuffer.Reachable.init).2.1 (by decide),
    (C11_PopFront_traps_iff_empty 2 _ h1).2.2 (by decide)⟩

end ringbuf

namespace ringbuf

variable {T : Type}

/-- C13: Len() is a total function; it is 0 for a nil buffer and for a new buffer,
and in every state reached from NewRingBuffer(cap) by PushBack calls and PopFront
calls that return, Len() is at least 0 and at most `cap`; a PopFront that returns
lowers a positive count by one, so the count never goes below zero. -/
theorem C13_Len_bounded [Inhabited T] (cap : Nat) :
    Len (none : Option (RingBuffer T)) = 0 ∧
    Len (some (NewRingBuffer cap : RingBuffer T)) = 0 ∧
    (NewRingBuffer cap : RingBuffer T).Len = 0 ∧
    ∀ r : RingBuffer T, r.Reachable cap →
      (0 : Int) ≤ (r.Len : Int) ∧ r.Len ≤ cap ∧ Len (some r) = r.Len ∧
      (∀ x r1, r.PopFront = some (x, r1) → 0 < r.Len ∧ r1.Len + 1 = r.Len) := by
  refine ⟨rfl, rfl, rfl, ?_⟩
  intro r h
  obtain ⟨_, _, hcnt, _⟩ := Reachable_Shape cap r h
  refine ⟨Int.ofNat_nonneg _, hcnt, rfl, ?_⟩
  intro x r1 hp
  obtain ⟨hpos, hc, _⟩ := PopFront_some hp
  simp only [RingBuffer.Len]
  omega

theorem C13_Len_bounded_witness :
    (({ buf := [3, 2], count := 2, end_ := 1, start := 0, maxCap := 2 } :
        RingBuffer Int).Reachable 2) ∧
    (0 : Int) ≤ ((({ buf := [3, 2], count := 2, end_ := 1, start := 0, maxCap := 2 } :
        RingBuffer Int).Len : Nat) : Int) ∧
    ({ buf := [3, 2], count := 2, end_ := 1, start := 0, maxCap := 2 } :
        RingBuffer Int).Len ≤ 2 :=
  have h1 : ({ buf := [1, 0], count := 1, end_ := 1, start := 0, maxCap := 2 } :
      RingBuffer Int).Reachable 2 :=
    RingBuffer.Reachable.push (NewRingBuffer 2) _ 1 RingBuffer.Reachable.init (by decide)
  have h2 : ({ buf := [1, 2], count := 2, end_ := 0, start := 0, maxCap := 2 } :
      RingBuffer Int).Reachable 2 :=
    RingBuffer.Reachable.push _ _ 2 h1 (by decide)
  have h3 : ({ buf := [3, 2], count := 2, end_ := 1, start := 0, maxCap := 2 } :
      RingBuffer Int).Reachable 2 :=
    RingBuffer.Reachable.push _ _ 3 h2 (by decide)
  ⟨h3, ((C13_Len_bounded 2).2.2.2 _ h3).1, ((C13_Len_bounded 2).2.2.2 _ h3).2.1⟩

theorem PushBackAll_WF [Inhabited T] (n : Nat) (xs : List T) :
    ∀ r : RingBuffer T, r.WF n → r.count + xs.length ≤ n →
      ∃ r1, r.PushBackAll xs = some r1 ∧ r1.WF n ∧ r1.items = r.items ++ xs ∧
        r1.count = r.count + xs.length := by
  induction xs with
  | nil =>
    intro r hwf _
    exact ⟨r, rfl, hwf, by simp, by simp⟩
  | cons x xs ih =>
    intro r hwf hle
    simp only [List.length_cons] at hle
    obtain ⟨r1, hp, hwf1, hit1, hc1⟩ := PushBack_WF r n x hwf (by omega)
    obtain ⟨r2, hp2, hwf2, hit2, hc2⟩ := ih r1 hwf1 (by omega)
    refine ⟨r2, ?_, hwf2, ?_, ?_⟩
    · simp only [RingBuffer.PushBackAll, hp, Option.some_bind, hp2]
    · rw [hit2, hit1, List.append_assoc]
      rfl
    · rw [hc2, hc1, List.length_cons]
      omega

theorem PopFrontN_WF [Inhabited T] (n : Nat) (i : Nat) :
    ∀ r : RingBuffer T, r.WF n → i ≤ r.count →
      ∃ r1, r.PopFrontN i = some (r.items.take i, r1) ∧ r1.WF n ∧
        r1.items = r.items.drop i ∧ r1.count = r.count - i := by
  induction i with
  | zero =>
    intro r hwf _
    exact ⟨r, by simp [RingBuffer.PopFrontN], hwf, by simp, by simp⟩
  | succ i ih =>
    intro r hwf hle
    obtain ⟨y, r1, hp, hwf1, hit, hc1⟩ := PopFront_WF r n hwf (by omega)
    obtain ⟨r2, hp2, hwf2, hit2, hc2⟩ := ih r1 hwf1 (by omega)
    refine ⟨r2, ?_, hwf2, ?_, ?_⟩
    · simp only [RingBuffer.PopFrontN, hp, Option.some_bind, hp2, Option.map_some', hit,
        List.take_succ_cons]
    · rw [hit2, hit, List.drop_succ_cons]
    · rw [hc2, hc1]
      omega

/-- C12: for every capacity `cap` and every list `xs` of length at most `cap`
pushed with PushBack into a new buffer of capacity `cap`, Len() is `i` after the
`i`-th push, and after all pushes `i` successive PopFront calls return the first
`i` items of `xs` in the order pushed, leaving Len() at the length of `xs` minus
`i`, for every `i` up to the length of `xs` (so all pops return `xs` and Len()
ends at 0). -/
theorem C12_push_pop_within_capacity [Inhabited T] (cap : Nat) (xs : List T)
    (h : xs.length ≤ cap) :
    (∀ i, i ≤ xs.length →
      ∃ r, (NewRingBuffer cap : RingBuffer T).PushBackAll (xs.take i) = some r ∧ r.Len = i) ∧
    ∃ r, (NewRingBuffer cap : RingBuffer T).PushBackAll xs = some r ∧
      (∀ i, i ≤ xs.length →
        ∃ ri, r.PopFrontN i = some (xs.take i, ri) ∧ ri.Len = xs.length - i) ∧
      ∃ r0, r.PopFrontN xs.length = some (xs, r0) ∧ r0.Len = 0 := by
  by_cases hcap : 1 ≤ cap
  · obtain ⟨hwf, hitems, hcount⟩ := WF_new (T := T) cap hcap
    have hpush : ∀ ys : List T, ys.length ≤ cap →
        ∃ r, (NewRingBuffer cap : RingBuffer T).PushBackAll ys = some r ∧ r.WF cap ∧
          r.items = ys ∧ r.count = ys.length := by
      intro ys hys
      obtain ⟨r, hp, hw, hi, hc⟩ := PushBackAll_WF cap ys (NewRingBuffer cap) hwf
        (by rw [hcount]; omega)
      exact ⟨r, hp, hw, by rw [hi, hitems, List.nil_append], by rw [hc, hcount]; omega⟩
    constructor
    · intro i hi
      obtain ⟨r, hp, _, _, hc⟩ := hpush (xs.take i) (by rw [List.length_take]; omega)
      refine ⟨r, hp, ?_⟩
      rw [RingBuffer.Len, hc, List.length_take]
      omega
    · obtain ⟨r, hp, hw, hi, hc⟩ := hpush xs h
      have hpop : ∀ i, i ≤ xs.length →
          ∃ ri, r.PopFrontN i = some (xs.take i, ri) ∧ ri.Len = xs.length - i := by
        intro i hile
        obtain ⟨ri, hpi, _, _, hci⟩ := PopFrontN_WF cap i r hw (by omega)
        refine ⟨ri, by rw [hpi, hi], ?_⟩
        rw [RingBuffer.Len, hci, hc]
      refine ⟨r, hp, hpop, ?_⟩
      obtain ⟨r0, hp0, hl0⟩ := hpop xs.length (le_refl _)
      rw [List.take_length] at hp0
      exact ⟨r0, hp0, by omega⟩
  · have hx : xs = [] := List.length_eq_zero.mp (by omega)
    subst hx
    constructor
    · intro i hi
      simp only [List.length_nil, Nat.le_zero] at hi
      subst hi
      exact ⟨NewRingBuffer cap, rfl, rfl⟩
    · refine ⟨NewRingBuffer cap, rfl, ?_, ⟨NewRingBuffer cap, rfl, rfl⟩⟩
      intro i hi
      simp only [List.length_nil, Nat.le_zero] at hi
      subst hi
      exact ⟨NewRingBuffer cap, rfl, rfl⟩

theorem C12_push_pop_within_capacity_witness :
    ([1, 2, 3, 4, 5, 6] : List Int).length ≤ 6 ∧
    (∀ i, i ≤ ([1, 2, 3, 4, 5, 6] : List Int).length →
      ∃ r, (NewRingBuffer 6 : RingBuffer Int).PushBackAll
        (([1, 2, 3, 4, 5, 6] : List Int).take i) = some r ∧ r.Len = i) ∧
    ∃ r, (NewRingBuffer 6 : RingBuffer Int).PushBackAll [1, 2, 3, 4, 5, 6] = some r ∧
      (∀ i, i ≤ ([1, 2, 3, 4, 5, 6] : List Int).length →
        ∃ ri, r.PopFrontN i = some (([1, 2, 3, 4, 5, 6] : List Int).take i, ri) ∧
          ri.Len = ([1, 2, 3, 4, 5, 6] : List Int).length - i) ∧
      ∃ r0, r.PopFrontN ([1, 2, 3, 4, 5, 6] : List Int).length =
        some ([1, 2, 3, 4, 5, 6], r0) ∧ r0.Len = 0 :=
  ⟨by decide, C12_push_pop_within_capacity 6 [1, 2, 3, 4, 5, 6] (by decide)⟩

end ringbuf

/-! ## Slots written by PushBack -/

namespace ringbuf

variable {T : Type}

theorem PushBackAll_append (xs ys : List T) :
    ∀ r : RingBuffer T,
      r.PushBackAll (xs ++ ys) = (r.PushBackAll xs).bind (fun r1 => r1.PushBackAll ys) := by
  induction xs with
  | nil => intro r; rfl
  | cons x xs ih =>
    intro r
    simp only [List.cons_append, RingBuffer.PushBackAll]
    cases r.PushBack x with
    | none => rfl
    | some r1 => exact ih r1

/-- What the storage holds after the pushes of `xs` with no pop in between: slot
`j` holds the item of the largest index congruent to `j`, and the zero value when
no index is congruent to `j`. -/
theorem pushes_slots [Inhabited T] (cap : Nat) (hcap : 1 ≤ cap) (xs : List T) :
    ∃ r, (NewRingBuffer cap : RingBuffer T).PushBackAll xs = some r ∧
      r.buf.length = cap ∧ r.end_ = xs.length % cap ∧
      ∀ j, j < cap →
        (∀ i, i < xs.length → i % cap = j →
          (∀ k, k < xs.length → k % cap = j → k ≤ i) → r.buf[j]? = xs[i]?) ∧
        ((∀ i, i < xs.length → i % cap ≠ j) → r.buf[j]? = some default) := by
  induction xs using List.reverseRecOn with
  | nil =>
    refine ⟨NewRingBuffer cap, rfl, by simp [NewRingBuffer], by simp [NewRingBuffer], ?_⟩
    intro j hj
    constructor
    · intro i hi
      simp at hi
    · intro _
      simp [NewRingBuffer, List.getElem?_replicate, hj]
  | append_singleton xs x ih =>
    obtain ⟨r, hp, hlen, hend, hslots⟩ := ih
    have hlt : r.end_ < r.buf.length := by
      rw [hend, hlen]; exact Nat.mod_lt _ (by omega)
    have hpush : r.PushBack x = some
        { r with buf := r.buf.set r.end_ x, end_ := (r.end_ + 1) % (r.buf.set r.end_ x).length,
                 count := if r.count < r.maxCap then r.count + 1 else r.count } := by
      rw [RingBuffer.PushBack, if_pos hlt]
    refine ⟨_, by rw [PushBackAll_append, hp, Option.some_bind, RingBuffer.PushBackAll, hpush,
      Option.some_bind, RingBuffer.PushBackAll], by simp [hlen], ?_, ?_⟩
    · simp only [List.length_set, hlen, hend, List.length_append, List.length_singleton,
        Nat.mod_add_mod]
    · intro j hj
      simp only [List.length_append, List.length_singleton]
      by_cases hje : j = xs.length % cap
      · constructor
        · intro i hi hij hmax
          have hle := hmax xs.length (by omega) hje.symm
          have hi2 : i = xs.length := by omega
          subst hi2
          rw [hje, ← hend]
          simp [List.getElem?_set_self hlt]
        · intro hnone
          exact absurd hje.symm (hnone xs.length (by omega))
      · have hne : r.end_ ≠ j := by
          rw [hend]; exact fun h => hje h.symm
        simp only [List.getElem?_set_ne hne]
        constructor
        · intro i hi hij hmax
          have hi2 : i < xs.length := by
            by_contra hge
            have : i = xs.length := by omega
            subst this
            exact hje hij.symm
          rw [List.getElem?_append_left hi2]
          exact (hslots j hj).1 i hi2 hij (fun k hk hkj => hmax k (by omega) hkj)
        · intro hnone
          exact (hslots j hj).2 (fun i hi => hnone i (by omega))

/-- C18: for every capacity `cap` of at least 1 and every list `xs` pushed with
PushBack into a new buffer of capacity `cap`, with no pop in between: every push
returns; after the pushes each slot `j` holds the most recently pushed item whose
index is congruent to `j` modulo `cap`, or the zero value if there is none; and
the next push, of index the length of `xs`, writes its item into the slot of
that index modulo `cap` and leaves every other slot unchanged. -/
theorem C18_push_writes_slot_mod_cap [Inhabited T] (cap : Nat) (hcap : 1 ≤ cap) (xs : List T) :
    ∃ r, (NewRingBuffer cap : RingBuffer T).PushBackAll xs = some r ∧
      r.buf.length = cap ∧
      (∀ j, j < cap →
        (∀ i, i < xs.length → i % cap = j →
          (∀ k, k < xs.length → k % cap = j → k ≤ i) → r.buf[j]? = xs[i]?) ∧
        ((∀ i, i < xs.length → i % cap ≠ j) → r.buf[j]? = some default)) ∧
      ∀ x, ∃ r1, r.PushBack x = some r1 ∧
        (NewRingBuffer cap : RingBuffer T).PushBackAll (xs ++ [x]) = some r1 ∧
        r1.buf[xs.length % cap]? = some x ∧
        ∀ j, j ≠ xs.length % cap → r1.buf[j]? = r.buf[j]? := by
  obtain ⟨r, hp, hlen, hend, hslots⟩ := pushes_slots cap hcap xs
  refine ⟨r, hp, hlen, hslots, ?_⟩
  intro x
  have hlt : r.end_ < r.buf.length := by
    rw [hend, hlen]; exact Nat.mod_lt _ (by omega)
  have hpush : r.PushBack x = some
      { r with buf := r.buf.set r.end_ x, end_ := (r.end_ + 1) % (r.buf.set r.end_ x).length,
               count := if r.count < r.maxCap then r.count + 1 else r.count } := by
    rw [RingBuffer.PushBack, if_pos hlt]
  refine ⟨_, hpush, ?_, ?_, ?_⟩
  · rw [PushBackAll_append, hp, Option.some_bind, RingBuffer.PushBackAll, hpush,
      Option.some_bind, RingBuffer.PushBackAll]
  · rw [← hend]
    simp [List.getElem?_set_self hlt]
  · intro j hj
    have hne : r.end_ ≠ j := by
      rw [hend]; exact fun h => hj h.symm
    simp only [List.getElem?_set_ne hne]

theorem C18_push_writes_slot_mod_cap_witness :
    1 ≤ 3 ∧
    ∃ r, (NewRingBuffer 3 : RingBuffer Int).PushBackAll [1, 2, 3, 4] = some r ∧
      r.buf.length = 3 ∧
      (∀ j, j < 3 →
        (∀ i, i < ([1, 2, 3, 4] : List Int).length → i % 3 = j →
          (∀ k, k < ([1, 2, 3, 4] : List Int).length → k % 3 = j → k ≤ i) →
            r.buf[j]? = ([1, 2, 3, 4] : List Int)[i]?) ∧
        ((∀ i, i < ([1, 2, 3, 4] : List Int).length → i % 3 ≠ j) →
          r.buf[j]? = some default)) ∧
      ∀ x, ∃ r1, r.PushBack x = some r1 ∧
        (NewRingBuffer 3 : RingBuffer Int).PushBackAll ([1, 2, 3, 4] ++ [x]) = some r1 ∧
        r1.buf[([1, 2, 3, 4] : List Int).length % 3]? = some x ∧
        ∀ j, j ≠ ([1, 2, 3, 4] : List Int).length % 3 → r1.buf[j]? = r.buf[j]? :=
  ⟨by decide, C18_push_writes_slot_mod_cap 3 (by decide) [1, 2, 3, 4]⟩

/-- The storage after each push of the table of TestRingBuffer_PushBack with
capacity 3. -/
theorem pushes_slots_test_table :
    ([[1], [1, 2], [1, 2, 3], [1, 2, 3, 4], [1, 2, 3, 4, 5], [1, 2, 3, 4, 5, 6]].map
        (fun xs => ((NewRingBuffer 3 : RingBuffer Int).PushBackAll xs).map (fun r => r.buf))) =
      [some [1, 0, 0], some [1, 2, 0], some [1, 2, 3], some [4, 2, 3], some [4, 5, 3],
        some [4, 5, 6]] := by
  decide

end ringbuf

/-! ## The window held by the two buffers -/

namespace vwap

open ringbuf

variable {F : Type}

theorem evict_some (ops : FloatOps F) (c c1 : Calculator F) (h : evict ops c = some c1) :
    c1.windowWidth = c.windowWidth ∧
    ((c.pqs.Len = c.windowWidth ∧ ∃ x y, c.pqs.PopFront = some (x, c1.pqs) ∧
        c.qs.PopFront = some (y, c1.qs)) ∨
      (c.pqs.Len ≠ c.windowWidth ∧ c1 = c)) := by
  unfold evict at h
  split at h
  · rename_i hfull
    split at h
    · exact absurd h (by simp)
    · rename_i oldPQ pqs hpop
      split at h
      · exact absurd h (by simp)
      · split at h
        · exact absurd h (by simp)
        · rename_i oldQ qs hpop2
          split at h
          · exact absurd h (by simp)
          · simp only [Option.some.injEq] at h
            subst h
            exact ⟨rfl, Or.inl ⟨hfull, oldPQ, oldQ, hpop, hpop2⟩⟩
  · rename_i hfull
    simp only [Option.some.injEq] at h
    exact ⟨by rw [h], Or.inr ⟨hfull, h.symm⟩⟩

theorem accumulate_some (ops : FloatOps F) (c c2 : Calculator F) (p q : F)
    (h : accumulate ops c p q = some c2) :
    ∃ pq c1, ops.Mul p q = some pq ∧ evict ops c = some c1 ∧
      c1.pqs.PushBack (some pq) = some c2.pqs ∧ c1.qs.PushBack (some q) = some c2.qs ∧
      c2.windowWidth = c1.windowWidth := by
  unfold accumulate at h
  split at h
  · exact absurd h (by simp)
  · rename_i pq hmul
    split at h
    · exact absurd h (by simp)
    · rename_i c1 hev
      split at h
      · exact absurd h (by simp)
      · split at h
        · exact absurd h (by simp)
        · rename_i pqs hpush
          split at h
          · exact absurd h (by simp)
          · split at h
            · exact absurd h (by simp)
            · rename_i qs hpush2
              simp only [Option.some.injEq] at h
              subst h
              exact ⟨pq, c1, hmul, hev, hpush, hpush2, rfl⟩

theorem QueueState_new (ops : FloatOps F) (n : Nat) (hn : 1 ≤ n) :
    QueueState n (NewCalculator ops n) [] := by
  obtain ⟨hwf, hitems, _⟩ := WF_new (T := Option F) n hn
  exact ⟨rfl, hwf, hwf, by simpa [NewCalculator] using hitems,
    by simpa [NewCalculator] using hitems⟩

theorem QueueState_count (n : Nat) (c : Calculator F) (w : List (F × F × F))
    (hc : QueueState n c w) : c.pqs.count = w.length ∧ c.qs.count = w.length := by
  obtain ⟨_, _, _, hi1, hi2⟩ := hc
  have h1 := items_length c.pqs
  have h2 := items_length c.qs
  rw [hi1] at h1
  rw [hi2] at h2
  simp only [List.length_map] at h1 h2
  exact ⟨h1.symm, h2.symm⟩

theorem accumulate_QueueState (ops : FloatOps F) (n : Nat) (hn : 1 ≤ n)
    (c c2 : Calculator F) (w : List (F × F × F)) (v : F × F × F)
    (hc : QueueState n c w) (hmul : ops.Mul v.1 v.2.1 = some v.2.2)
    (h : accumulate ops c v.1 v.2.1 = some c2) : QueueState n c2 (slide n w v) := by
  obtain ⟨hcnt1, hcnt2⟩ := QueueState_count n c w hc
  obtain ⟨hw, hwf1, hwf2, hi1, hi2⟩ := hc
  obtain ⟨pq, c1, hm, hev, hpush1, hpush2, hww⟩ := accumulate_some ops c c2 v.1 v.2.1 h
  rw [hmul] at hm
  simp only [Option.some.injEq] at hm
  subst hm
  obtain ⟨hw1, hcase⟩ := evict_some ops c c1 hev
  have hmid : c1.pqs.WF n ∧ c1.qs.WF n ∧
      c1.pqs.items = (if w.length = n then w.tail else w).map (fun v => some v.2.2) ∧
      c1.qs.items = (if w.length = n then w.tail else w).map (fun v => some v.2.1) ∧
      c1.pqs.count < n ∧ c1.qs.count < n := by
    rcases hcase with ⟨hfull, x, y, hpop1, hpop2⟩ | ⟨hnot, heq⟩
    · simp only [RingBuffer.Len] at hfull
      have hwn : w.length = n := by omega
      obtain ⟨y1, r1, hp1, hwf1', hit1, hc1⟩ := PopFront_WF c.pqs n hwf1 (by omega)
      obtain ⟨y2, r2, hp2, hwf2', hit2, hc2⟩ := PopFront_WF c.qs n hwf2 (by omega)
      rw [hpop1] at hp1
      rw [hpop2] at hp2
      simp only [Option.some.injEq, Prod.mk.injEq] at hp1 hp2
      obtain ⟨_, hr1⟩ := hp1
      obtain ⟨_, hr2⟩ := hp2
      subst hr1 hr2
      rw [if_pos hwn]
      cases w with
      | nil => simp only [List.length_nil] at hwn; omega
      | cons v0 wt =>
        rw [hi1] at hit1
        rw [hi2] at hit2
        simp only [List.map_cons, List.cons.injEq] at hit1 hit2
        exact ⟨hwf1', hwf2', hit1.2.symm, hit2.2.symm, by omega, by omega⟩
    · simp only [RingBuffer.Len] at hnot
      subst heq
      have hwn : ¬ w.length = n := by omega
      rw [if_neg hwn]
      have hle1 := hwf1.2.2.1
      have hle2 := hwf2.2.2.1
      exact ⟨hwf1, hwf2, hi1, hi2, by omega, by omega⟩
  obtain ⟨hwf1', hwf2', hj1, hj2, hlt1, hlt2⟩ := hmid
  obtain ⟨r1, hq1, hwfa, hita, _⟩ := PushBack_WF c1.pqs n (some v.2.2) hwf1' hlt1
  obtain ⟨r2, hq2, hwfb, hitb, _⟩ := PushBack_WF c1.qs n (some v.2.1) hwf2' hlt2
  rw [hpush1] at hq1
  rw [hpush2] at hq2
  simp only [Option.some.injEq] at hq1 hq2
  refine ⟨by rw [hww, hw1, hw], hq1 ▸ hwfa, hq2 ▸ hwfb, ?_, ?_⟩
  · rw [hq1, hita, hj1]
    simp [slide]
  · rw [hq2, hitb, hj2]
    simp [slide]

theorem Update_QueueState (ops : FloatOps F) (n : Nat) (hn : 1 ≤ n)
    (c c1 : Calculator F) (w : List (F × F × F)) (v : F × F × F) (s : String × String)
    (text : String) (err : Option wrapError)
    (hc : QueueState n c w) (hp : ops.SetString s.1 = some v.1)
    (hq : ops.SetString s.2 = some v.2.1) (hmul : ops.Mul v.1 v.2.1 = some v.2.2)
    (h : Update ops c s.1 s.2 = some (c1, text, err)) : QueueState n c1 (slide n w v) := by
  rw [Update_parsed ops c s.1 s.2 v.1 v.2.1 hp hq] at h
  split at h
  · exact absurd h (by simp)
  · rename_i c2 hacc
    split at h
    · exact absurd h (by simp)
    · simp only [Option.some.injEq, Prod.mk.injEq] at h
      have h2 := accumulate_QueueState ops n hn c c2 w v hc hmul hacc
      rw [← h.1]
      exact h2

theorem run_QueueState (ops : FloatOps F) (n : Nat) (hn : 1 ≤ n) :
    ∀ (vals : List (F × F × F)) (ins : List (String × String)) (c c1 : Calculator F)
      (w : List (F × F × F)) (texts : List String),
      QueueState n c w → ParsedAs ops ins vals → UpdateAll ops c ins = some (c1, texts) →
      QueueState n c1 (vals.foldl (slide n) w) := by
  intro vals
  induction vals with
  | nil =>
    intro ins c c1 w texts hc hpa hrun
    cases ins with
    | nil =>
      simp only [UpdateAll, Option.some.injEq, Prod.mk.injEq] at hrun
      rw [← hrun.1]
      exact hc
    | cons s ss => exact absurd hpa (by simp [ParsedAs])
  | cons v vs ih =>
    intro ins c c1 w texts hc hpa hrun
    cases ins with
    | nil => exact absurd hpa (by simp [ParsedAs])
    | cons s ss =>
      obtain ⟨hp, hq, hmul, hrest⟩ := hpa
      unfold UpdateAll at hrun
      split at hrun
      · rename_i cm text hu
        have hcm := Update_QueueState ops n hn c cm w v s text none hc hp hq hmul hu
        cases hrest2 : UpdateAll ops cm ss with
        | none =>
          rw [hrest2] at hrun
          exact absurd hrun (by simp)
        | some r =>
          rw [hrest2] at hrun
          simp only [Option.map_some', Option.some.injEq, Prod.mk.injEq] at hrun
          have := ih ss cm r.1 (slide n w v) r.2 hcm hrest hrest2
          rw [← hrun.1]
          exact this
      · exact absurd hrun (by simp)

end vwap

namespace vwap

open ringbuf

variable {F : Type}

/-- C17: for a width `n` of at least 1, after a run of Update calls on a new
calculator that all return without error, the quantity buffer holds, oldest
first, the quantities of the last `min k n` pairs and the product buffer holds the
products `Mul(price, quantity)` of the same pairs in the same order. A further
Update that returns leaves in each buffer what it held, without its oldest entry
when it held `n` entries and unchanged otherwise, followed by the new entry: the
eviction is of the oldest pair only, only from a full window, and before the
insertion. -/
theorem C17_buffers_hold_window (ops : FloatOps F) (n : Nat) (hn : 1 ≤ n)
    (ins : List (String × String)) (vals : List (F × F × F)) (c : Calculator F)
    (texts : List String) (hpa : ParsedAs ops ins vals)
    (hrun : UpdateAll ops (NewCalculator ops n) ins = some (c, texts)) :
    c.qs.items = (window n vals).map (fun v => some v.2.1) ∧
    c.pqs.items = (window n vals).map (fun v => some v.2.2) ∧
    (window n vals).length = min vals.length n ∧
    c.qs.Len = min vals.length n ∧ c.pqs.Len = min vals.length n ∧
    ∀ (s : String × String) (v : F × F × F) (c1 : Calculator F) (text : String)
      (err : Option wrapError),
      ops.SetString s.1 = some v.1 → ops.SetString s.2 = some v.2.1 →
      ops.Mul v.1 v.2.1 = some v.2.2 → Update ops c s.1 s.2 = some (c1, text, err) →
      c1.qs.items = slide n c.qs.items (some v.2.1) ∧
        c1.pqs.items = slide n c.pqs.items (some v.2.2) := by
  have hq := run_QueueState ops n hn vals ins (NewCalculator ops n) c [] texts
    (QueueState_new ops n hn) hpa hrun
  have hw := foldl_slide_window n hn vals ([] : List (F × F × F))
  rw [window_nil, List.nil_append] at hw
  rw [hw] at hq
  obtain ⟨hc1, hc2⟩ := QueueState_count n c (window n vals) hq
  have hwl := window_length n vals
  refine ⟨hq.2.2.2.2, hq.2.2.2.1, hwl, by rw [RingBuffer.Len, hc2, hwl],
    by rw [RingBuffer.Len, hc1, hwl], ?_⟩
  intro s v c1 text err hp hqq hmul hu
  have h1 := Update_QueueState ops n hn c c1 (window n vals) v s text err hq hp hqq hmul hu
  rw [h1.2.2.2.2, h1.2.2.2.1, hq.2.2.2.2, hq.2.2.2.1]
  simp only [slide, List.length_map, List.map_append, List.map_cons, List.map_nil]
  constructor <;> split_ifs <;> simp [List.map_tail]

theorem C17_buffers_hold_window_witness :
    (1 ≤ 2 ∧
      ParsedAs big.big53 [("1", "2"), ("2", "3"), ("3", "5")]
        [(big.ofNat 1, big.ofNat 2, big.ofNat 2), (big.ofNat 2, big.ofNat 3, big.ofNat 6),
          (big.ofNat 3, big.ofNat 5, big.ofNat 15)] ∧
      UpdateAll big.big53 (NewCalculator big.big53 2) [("1", "2"), ("2", "3"), ("3", "5")] =
        some (afterThreeUpdates,
          ["1.0000000000000000", "1.6000000000000001", "2.6250000000000000"])) ∧
    afterThreeUpdates.qs.items = [some (big.ofNat 3), some (big.ofNat 5)] ∧
    afterThreeUpdates.pqs.items = [some (big.ofNat 6), some (big.ofNat 15)] :=
  have hpa : ParsedAs big.big53 [("1", "2"), ("2", "3"), ("3", "5")]
      [(big.ofNat 1, big.ofNat 2, big.ofNat 2), (big.ofNat 2, big.ofNat 3, big.ofNat 6),
        (big.ofNat 3, big.ofNat 5, big.ofNat 15)] := by
    simp only [ParsedAs]; decide
  have hrun : UpdateAll big.big53 (NewCalculator big.big53 2)
      [("1", "2"), ("2", "3"), ("3", "5")] =
      some (afterThreeUpdates,
        ["1.0000000000000000", "1.6000000000000001", "2.6250000000000000"]) := by
    decide
  have h := C17_buffers_hold_window big.big53 2 (by decide) _ _ _ _ hpa hrun
  ⟨⟨by decide, hpa, hrun⟩, h.1, h.2.1⟩

end vwap

/-! ## A calculator of width 0 -/

namespace vwap

open ringbuf

variable {F : Type}

theorem evict_zero (ops : FloatOps F) : evict ops (NewCalculator ops 0) = none := by
  simp [evict, NewCalculator, NewRingBuffer, RingBuffer.Len, RingBuffer.PopFront]

theorem Update_zero_traps (ops : FloatOps F) (price quantity : String) (p q : F)
    (hp : ops.SetString price = some p) (hq : ops.SetString quantity = some q) :
    Update ops (NewCalculator ops 0) price quantity = none := by
  rw [Update_parsed ops _ price quantity p q hp hq]
  have hacc : accumulate ops (NewCalculator ops 0) p q = none := by
    unfold accumulate
    cases ops.Mul p q with
    | none => rfl
    | some pq => simp only [evict_zero]
  rw [hacc]

theorem Reachable_zero (ops : FloatOps F) (c : Calculator F) (h : Reachable ops 0 c) :
    c = NewCalculator ops 0 := by
  induction h with
  | init => rfl
  | step c c1 price quantity text err _ hu ih =>
    subst ih
    cases hp : ops.SetString price with
    | none =>
      rw [Update_price_fails ops _ price quantity hp] at hu
      simp only [Option.some.injEq, Prod.mk.injEq] at hu
      exact hu.1.symm
    | some p =>
      cases hq : ops.SetString quantity with
      | none =>
        rw [Update_quantity_fails ops _ price quantity p hp hq] at hu
        simp only [Option.some.injEq, Prod.mk.injEq] at hu
        exact hu.1.symm
      | some q =>
        rw [Update_zero_traps ops price quantity p q hp hq] at hu
        exact absurd hu (by simp)

/-- C19: a calculator created with window width 0 stays the new calculator
whatever Update calls return, and on it every Update whose price and quantity
both parse traps, the first call included: the window is full from the start
(`Len()` is 0, the width), and the eviction calls PopFront on the empty product
buffer. An Update with an operand that does not parse returns the error of
ErrFloatParse and does not trap. -/
theorem C19_width_zero_traps (ops : FloatOps F) (c : Calculator F) (h : Reachable ops 0 c)
    (price quantity : String) :
    c = NewCalculator ops 0 ∧
    c.pqs.Len = c.windowWidth ∧ c.pqs.PopFront = none ∧ evict ops c = none ∧
    ((ops.SetString price).isSome = true → (ops.SetString quantity).isSome = true →
      Update ops c price quantity = none) ∧
    ((ops.SetString price = none ∨ ops.SetString quantity = none) →
      ∃ e, Update ops c price quantity = some (c, "", some e) ∧
        errorsIs e ErrFloatParse = true) := by
  have hc := Reachable_zero ops c h
  subst hc
  refine ⟨rfl, rfl, by simp [NewCalculator, NewRingBuffer, RingBuffer.PopFront],
    evict_zero ops, ?_, ?_⟩
  · intro hp hq
    obtain ⟨p, hp⟩ := Option.isSome_iff_exists.mp hp
    obtain ⟨q, hq⟩ := Option.isSome_iff_exists.mp hq
    exact Update_zero_traps ops price quantity p q hp hq
  · intro hf
    obtain ⟨e, he, hw, _⟩ := Update_parse_failure ops (NewCalculator ops 0) price quantity hf
    exact ⟨e, he, by simp [errorsIs, hw]⟩

theorem C19_width_zero_traps_witness :
    Reachable big.big53 0 (NewCalculator big.big53 0) ∧
    Update big.big53 (NewCalculator big.big53 0) "1" "2" = none ∧
    (∃ e, Update big.big53 (NewCalculator big.big53 0) "x" "2" =
        some (NewCalculator big.big53 0, "", some e) ∧ errorsIs e ErrFloatParse = true) :=
  ⟨Reachable.init,
    (C19_width_zero_traps big.big53 _ Reachable.init "1" "2").2.2.2.2.1 (by decide) (by decide),
    (C19_width_zero_traps big.big53 _ Reachable.init "x" "2").2.2.2.2.2 (Or.inl (by decide))⟩

end vwap

/-! ## The feed client -/

namespace coinbase

/-- C14: for every product id and window width, when the subscribe request is
written without error and the one response read back has type `error` and reason
`r`, Subscribe returns no Subscription and an error whose message is
`subscribe error: ` followed by `r`, so contains `r`; it starts no background
task, and no match is produced whatever the connection would deliver and
whatever happens next. -/
theorem C14_subscribe_error_response (conn : Conn) (productID : String) (windowWidth : Nat)
    (message : Message)
    (hw : conn.WriteJSON (subscribeRequest productID) = none)
    (hr : conn.ReadJSON = .ok message) (ht : message.Type_ = "error") :
    (MatchesClient.Subscribe conn productID windowWidth).subscription = none ∧
    (∃ e, (MatchesClient.Subscribe conn productID windowWidth).err = some e ∧
      e.Error = "subscribe error: " ++ message.Reason ∧
      vwap.occursIn message.Reason e.Error) ∧
    (MatchesClient.Subscribe conn productID windowWidth).started = [] ∧
    ∀ (d : Option GoError) (reads : List (Except GoError Match)) (acts : List Act),
      (MatchesClient.Subscribe conn productID windowWidth).events d reads acts = [] := by
  have h : MatchesClient.Subscribe conn productID windowWidth =
      { subscription := none, err := some (ErrorfS "subscribe error: " message.Reason),
        started := [] } := by
    simp [MatchesClient.Subscribe, hw, hr, ht]
  rw [h]
  refine ⟨rfl, ⟨_, rfl, rfl, ?_⟩, rfl, ?_⟩
  · refine ⟨("subscribe error: " : String).data, [], ?_⟩
    simp [ErrorfS, GoError.Error, String.data_append]
  · intro d reads acts
    simp [SubscribeResult.events]

theorem C14_subscribe_error_response_witness :
    (MatchesClient.Subscribe
      { WriteJSON := fun _ => none,
        ReadJSON := .ok { Type_ := "error", ProductID := "", ProductIds := [], TradeID := 0,
                          OrderID := "", Sequence := 0, MakerOrderID := "", TakerOrderID := "",
                          Size := "", Price := "", Side := "",
                          Reason := "BTC-XXX is not a valid product",
                          Message := "Failed to subscribe", Channels := [],
                          LastTradeID := 0 } }
      "BTC-XXX" 0).subscription = none ∧
    (∃ e, (MatchesClient.Subscribe
      { WriteJSON := fun _ => none,
        ReadJSON := .ok { Type_ := "error", ProductID := "", ProductIds := [], TradeID := 0,
                          OrderID := "", Sequence := 0, MakerOrderID := "", TakerOrderID := "",
                          Size := "", Price := "", Side := "",
                          Reason := "BTC-XXX is not a valid product",
                          Message := "Failed to subscribe", Channels := [],
                          LastTradeID := 0 } }
      "BTC-XXX" 0).err = some e ∧
      e.Error = "subscribe error: " ++ "BTC-XXX is not a valid product" ∧
      vwap.occursIn "BTC-XXX is not a valid product" e.Error) :=
  have h := C14_subscribe_error_response
    { WriteJSON := fun _ => none,
      ReadJSON := .ok { Type_ := "error", ProductID := "", ProductIds := [], TradeID := 0,
                        OrderID := "", Sequence := 0, MakerOrderID := "", TakerOrderID := "",
                        Size := "", Price := "", Side := "",
                        Reason := "BTC-XXX is not a valid product",
                        Message := "Failed to subscribe", Channels := [],
                        LastTradeID := 0 } }
    "BTC-XXX" 0 _ rfl rfl rfl
  ⟨h.1, h.2.1⟩

theorem WatchInv_start (windowWidth : Nat) (pre : List Match) (err : GoError)
    (post : List (Except GoError Match)) :
    WatchInv windowWidth pre err post
      (matchWatcher (NewSubscription windowWidth) none
        (pre.map Except.ok ++ Except.error err :: post)) := by
  refine ⟨rfl, rfl, rfl, by simp [matchWatcher, Chans.start], ?_⟩
  exact ⟨rfl, pre, by simp [matchWatcher, Watch.delivered, Chans.start], rfl⟩

theorem WatchInv_step (windowWidth : Nat) (pre : List Match) (err : GoError)
    (post : List (Except GoError Match)) (w : Watch)
    (h : WatchInv windowWidth pre err post w) : WatchInv windowWidth pre err post w.step := by
  obtain ⟨hsub, hC, hD, hlen, hpos⟩ := h
  unfold Watch.step
  cases hp : w.pos with
  | reading =>
    rw [hp] at hpos
    obtain ⟨hrun, b, hpre, hun⟩ := hpos
    simp only []
    cases b with
    | nil =>
      simp only [List.map_nil, List.nil_append] at hun
      rw [hun]
      exact ⟨hsub, hC, hD, hlen, hrun, rfl, by simpa using hpre.symm, rfl⟩
    | cons m b =>
      simp only [List.map_cons, List.cons_append] at hun
      rw [hun]
      exact ⟨hsub, hC, hD, hlen, hrun, b, hpre, rfl⟩
  | sendingC m =>
    rw [hp] at hpos
    obtain ⟨hrun, b, hpre, hun⟩ := hpos
    simp only []
    by_cases hroom : w.chans.C.length < w.chans.sub.CCap
    · have hs : w.chans.watcherSends m = .returns { w.chans with C := w.chans.C ++ [m] } := by
        simp [Chans.watcherSends, hC, hroom]
      rw [hs]
      refine ⟨hsub, hC, hD, hlen, hrun, b, ?_, hun⟩
      simp only [Watch.delivered] at hpre ⊢
      rw [hpre]
      simp
    · have hs : w.chans.watcherSends m = .blocks := by
        simp [Chans.watcherSends, hC, hroom]
      rw [hs]
      refine ⟨hsub, hC, hD, hlen, ?_⟩
      rw [hp]
      exact ⟨hrun, b, hpre, hun⟩
  | sendingDone e =>
    rw [hp] at hpos
    obtain ⟨hrun, he, hdel, hun⟩ := hpos
    simp only []
    have hcap : w.chans.sub.doneCap = 2 := by rw [hsub]; rfl
    have hlen1 : w.chans.done.length ≤ 1 := by
      rw [hrun] at hlen
      simp only [reduceCtorEq, if_false, Nat.add_zero] at hlen
      split_ifs at hlen <;> omega
    have hroom : w.chans.done.length < w.chans.sub.doneCap := by omega
    have hs : w.chans.watcherEnds e =
        .returns { w.chans with done := w.chans.done ++ [e], watcher := .finished } := by
      simp [Chans.watcherEnds, Chans.sendDone, hD, hroom]
    rw [hs]
    refine ⟨hsub, hC, hD, ?_, rfl, hdel, hun, ?_⟩
    · show (w.chans.done ++ [e]).length ≤ _ + (if TaskState.finished = .finished then 1 else 0)
      rw [hrun] at hlen
      simp only [reduceCtorEq, if_false, Nat.add_zero] at hlen
      simp only [List.length_append, List.length_singleton, if_true]
      omega
    · show some _ ∈ w.chans.done ++ [e]
      rw [he]
      simp
  | returned =>
    simp only []
    refine ⟨hsub, hC, hD, hlen, ?_⟩
    rw [hp] at hpos ⊢
    exact hpos
  | panicked =>
    rw [hp] at hpos
    exact absurd hpos (by simp [WatchPos])

theorem WatchInv_receive (windowWidth : Nat) (pre : List Match) (err : GoError)
    (post : List (Except GoError Match)) (w : Watch)
    (h : WatchInv windowWidth pre err post w) :
    WatchInv windowWidth pre err post w.receive := by
  obtain ⟨hsub, hC, hD, hlen, hpos⟩ := h
  unfold Watch.receive
  cases hc : w.chans.C with
  | cons m rest =>
    simp only []
    refine ⟨hsub, hC, hD, hlen, ?_⟩
    show WatchPos pre err post w.pos w.chans.watcher ((w.received ++ [m]) ++ rest) w.unread
      w.chans.done
    have hd : (w.received ++ [m]) ++ rest = w.delivered := by
      simp [Watch.delivered, hc]
    rw [hd]
    exact hpos
  | nil =>
    simp only []
    cases hp : w.pos with
    | sendingC m =>
      rw [hp] at hpos
      obtain ⟨hrun, b, hpre, hun⟩ := hpos
      simp only [hC, Bool.false_eq_true, if_false]
      refine ⟨hsub, hC, hD, hlen, hrun, b, ?_, hun⟩
      simp only [Watch.delivered, hc, List.append_nil] at hpre ⊢
      rw [hpre]
      simp
    | reading => simp only []; exact ⟨hsub, hC, hD, hlen, hpos⟩
    | sendingDone e => simp only []; exact ⟨hsub, hC, hD, hlen, hpos⟩
    | returned => simp only []; exact ⟨hsub, hC, hD, hlen, hpos⟩
    | panicked => rw [hp] at hpos; exact absurd hpos (by simp [WatchPos])

theorem WatchInv_pingerEnds (windowWidth : Nat) (pre : List Match) (err : GoError)
    (post : List (Except GoError Match)) (w : Watch) (e : Option GoError)
    (h : WatchInv windowWidth pre err post w) :
    WatchInv windowWidth pre err post (w.act (.pingerEnds e)) := by
  obtain ⟨hsub, hC, hD, hlen, hpos⟩ := h
  unfold Watch.act
  simp only []
  by_cases hr : w.chans.pinger = .running
  · rw [if_pos hr]
    have hcap : w.chans.sub.doneCap = 2 := by rw [hsub]; rfl
    have hlen1 : w.chans.done.length ≤ 1 := by
      rw [hr] at hlen
      simp only [reduceCtorEq, if_false, Nat.zero_add] at hlen
      split_ifs at hlen <;> omega
    have hroom : w.chans.done.length < w.chans.sub.doneCap := by omega
    have hs : w.chans.pingerEnds e =
        .returns { w.chans with done := w.chans.done ++ [e], pinger := .finished } := by
      simp [Chans.pingerEnds, Chans.sendDone, hD, hroom]
    rw [hs]
    refine ⟨hsub, hC, hD, ?_, ?_⟩
    · show (w.chans.done ++ [e]).length ≤
        (if TaskState.finished = .finished then 1 else 0) + _
      rw [hr] at hlen
      simp only [reduceCtorEq, if_false, Nat.zero_add] at hlen
      simp only [List.length_append, List.length_singleton, if_true]
      omega
    · show WatchPos pre err post w.pos w.chans.watcher w.delivered w.unread (w.chans.done ++ [e])
      cases hp : w.pos with
      | returned =>
        rw [hp] at hpos
        obtain ⟨a1, a2, a3, a4⟩ := hpos
        exact ⟨a1, a2, a3, List.mem_append_left _ a4⟩
      | reading => rw [hp] at hpos; exact hpos
      | sendingC m => rw [hp] at hpos; exact hpos
      | sendingDone e1 => rw [hp] at hpos; exact hpos
      | panicked => rw [hp] at hpos; exact absurd hpos (by simp [WatchPos])
  · rw [if_neg hr]
    exact ⟨hsub, hC, hD, hlen, hpos⟩

theorem WatchInv_run (windowWidth : Nat) (pre : List Match) (err : GoError)
    (post : List (Except GoError Match)) (acts : List Act) (hstop : Act.stop ∉ acts) :
    ∀ w, WatchInv windowWidth pre err post w → WatchInv windowWidth pre err post (w.run acts) := by
  induction acts with
  | nil => intro w h; exact h
  | cons a acts ih =>
    intro w h
    have hs1 : a ≠ Act.stop := by
      intro hc; apply hstop; rw [hc]; exact List.mem_cons_self _ _
    have hs2 : Act.stop ∉ acts := fun hc => hstop (List.mem_cons_of_mem _ hc)
    show WatchInv windowWidth pre err post (Watch.run (w.act a) acts)
    apply ih hs2
    cases a with
    | loop => exact WatchInv_step windowWidth pre err post w h
    | receive => exact WatchInv_receive windowWidth pre err post w h
    | stop => exact absurd rfl hs1
    | pingerEnds e => exact WatchInv_pingerEnds windowWidth pre err post w e h

theorem Watch.run_append (w : Watch) (a b : List Act) : w.run (a ++ b) = (w.run a).run b := by
  simp [Watch.run, List.foldl_append]

theorem receivingSchedule_succ (n : Nat) :
    receivingSchedule (n + 1) = [Act.loop, Act.loop, Act.receive] ++ receivingSchedule n := by
  simp [receivingSchedule, List.replicate_succ]

theorem round_receives (c : Chans) (m : Match) (rest : List (Except GoError Match))
    (r : List Match) (hC : c.C = []) (hcl : c.CClosed = false) :
    Watch.run { chans := c, pos := .reading, unread := Except.ok m :: rest, received := r }
        [Act.loop, Act.loop, Act.receive] =
      { chans := c, pos := .reading, unread := rest, received := r ++ [m] } := by
  by_cases hroom : 0 < c.sub.CCap
  · have hs : c.watcherSends m = .returns { c with C := [m] } := by
      simp [Chans.watcherSends, hcl, hC, hroom]
    simp only [Watch.run, List.foldl_cons, List.foldl_nil, Watch.act, Watch.step, hs,
      Watch.receive]
    cases c
    simp only [Watch.mk.injEq, Chans.mk.injEq, and_true, true_and] at hC ⊢
    exact hC.symm
  · have hs : c.watcherSends m = .blocks := by
      simp [Chans.watcherSends, hcl, hC, hroom]
    simp only [Watch.run, List.foldl_cons, List.foldl_nil, Watch.act, Watch.step, hs,
      Watch.receive, hC, hcl, Bool.false_eq_true, if_false]

theorem run_receivingSchedule (windowWidth : Nat) (err : GoError)
    (post : List (Except GoError Match)) :
    ∀ (pre r : List Match),
      Watch.run { chans := Chans.start (NewSubscription windowWidth), pos := .reading,
                  unread := pre.map Except.ok ++ Except.error err :: post, received := r }
          (receivingSchedule pre.length) =
        { chans := { Chans.start (NewSubscription windowWidth) with
                       done := [some (ErrorfW "matchWatcher read failed: " err)],
                       watcher := .finished },
          pos := .returned, unread := post, received := r ++ pre } := by
  intro pre
  induction pre with
  | nil =>
    intro r
    simp [receivingSchedule, Watch.run, Watch.act, Watch.step, Chans.watcherEnds,
      Chans.sendDone, Chans.start, NewSubscription]
  | cons m pre ih =>
    intro r
    rw [List.length_cons, receivingSchedule_succ, Watch.run_append]
    simp only [List.map_cons, List.cons_append]
    rw [round_receives _ m _ r rfl rfl, ih (r ++ [m])]
    simp

/-- C15, as the code has it: take the reads of the connection as a sequence of
results, of which the matches `pre` are decoded before the first failing read,
with error `err`, and `post` is whatever would follow, and any sequence of steps
of the read loop, receives of the consumer and an end of the pinger, in which Stop
is not called. Then the matches delivered on `C` are a prefix of `pre`, in the
order read, and the loop does not panic; once the loop has returned, the matches
delivered are exactly `pre`, nothing of `post` has been read, `done` holds the
error that wraps `err`, and the task has terminated; the loop waits only at a
send on a full `C`; and when the consumer receives every match the loop returns
and the consumer has received exactly `pre`. -/
theorem C15_events_while_not_stopped (windowWidth : Nat) (pre : List Match) (err : GoError)
    (post : List (Except GoError Match)) (acts : List Act) (hstop : Act.stop ∉ acts) :
    (∃ k, (watcherRun windowWidth (pre.map Except.ok ++ Except.error err :: post)
        acts).delivered = pre.take k) ∧
    (watcherRun windowWidth (pre.map Except.ok ++ Except.error err :: post) acts).pos ≠
      .panicked ∧
    ((watcherRun windowWidth (pre.map Except.ok ++ Except.error err :: post) acts).pos =
        .returned →
      (watcherRun windowWidth (pre.map Except.ok ++ Except.error err :: post)
        acts).delivered = pre ∧
      (watcherRun windowWidth (pre.map Except.ok ++ Except.error err :: post)
        acts).unread = post ∧
      some (ErrorfW "matchWatcher read failed: " err) ∈
        (watcherRun windowWidth (pre.map Except.ok ++ Except.error err :: post)
          acts).chans.done ∧
      (watcherRun windowWidth (pre.map Except.ok ++ Except.error err :: post)
        acts).chans.watcher = .finished) ∧
    ((watcherRun windowWidth (pre.map Except.ok ++ Except.error err :: post) acts).step =
        watcherRun windowWidth (pre.map Except.ok ++ Except.error err :: post) acts →
      (watcherRun windowWidth (pre.map Except.ok ++ Except.error err :: post) acts).pos =
          .returned ∨
        ∃ m, (watcherRun windowWidth (pre.map Except.ok ++ Except.error err :: post)
            acts).pos = .sendingC m ∧
          windowWidth ≤ (watcherRun windowWidth
            (pre.map Except.ok ++ Except.error err :: post) acts).chans.C.length) ∧
    (ErrorfW "matchWatcher read failed: " err).Unwrap = some err ∧
    (watcherRun windowWidth (pre.map Except.ok ++ Except.error err :: post)
        (receivingSchedule pre.length)).pos = .returned ∧
    (watcherRun windowWidth (pre.map Except.ok ++ Except.error err :: post)
        (receivingSchedule pre.length)).received = pre := by
  have hinv := WatchInv_run windowWidth pre err post acts hstop _
    (WatchInv_start windowWidth pre err post)
  have hsched := run_receivingSchedule windowWidth err post pre []
  change WatchInv windowWidth pre err post
    (watcherRun windowWidth (pre.map Except.ok ++ Except.error err :: post) acts) at hinv
  generalize watcherRun windowWidth (pre.map Except.ok ++ Except.error err :: post) acts = w
    at hinv ⊢
  obtain ⟨hsub, hC, hD, hlen, hpos⟩ := hinv
  refine ⟨?_, ?_, ?_, ?_, rfl, ?_, ?_⟩
  · cases hp : w.pos with
    | reading =>
      rw [hp] at hpos
      obtain ⟨_, b, hpre, _⟩ := hpos
      exact ⟨w.delivered.length, by rw [hpre]; simp⟩
    | sendingC m =>
      rw [hp] at hpos
      obtain ⟨_, b, hpre, _⟩ := hpos
      exact ⟨w.delivered.length, by rw [hpre]; simp⟩
    | sendingDone e =>
      rw [hp] at hpos
      obtain ⟨_, _, hdel, _⟩ := hpos
      exact ⟨pre.length, by rw [hdel]; simp⟩
    | returned =>
      rw [hp] at hpos
      obtain ⟨_, hdel, _⟩ := hpos
      exact ⟨pre.length, by rw [hdel]; simp⟩
    | panicked => rw [hp] at hpos; exact absurd hpos (by simp [WatchPos])
  · intro hp
    rw [hp] at hpos
    exact hpos
  · intro hp
    rw [hp] at hpos
    obtain ⟨a1, a2, a3, a4⟩ := hpos
    exact ⟨a2, a3, a4, a1⟩
  · intro hfix
    cases hp : w.pos with
    | reading =>
      rw [hp] at hpos
      obtain ⟨_, b, _, hun⟩ := hpos
      exfalso
      have h2 := congrArg Watch.pos hfix
      unfold Watch.step at h2
      rw [hp] at h2
      simp only [hun] at h2
      cases b with
      | nil => simp at h2
      | cons m b => simp at h2
    | sendingC m =>
      right
      refine ⟨m, rfl, ?_⟩
      by_contra hlt
      have hroom : w.chans.C.length < w.chans.sub.CCap := by
        rw [hsub]; simp only [NewSubscription]; omega
      have hs : w.chans.watcherSends m = .returns { w.chans with C := w.chans.C ++ [m] } := by
        simp [Chans.watcherSends, hC, hroom]
      have h2 := congrArg Watch.pos hfix
      unfold Watch.step at h2
      rw [hp] at h2
      simp only [hs] at h2
      simp at h2
    | sendingDone e =>
      exfalso
      rw [hp] at hpos
      obtain ⟨hrun, _, _, _⟩ := hpos
      have hcap : w.chans.sub.doneCap = 2 := by rw [hsub]; rfl
      have hlen1 : w.chans.done.length ≤ 1 := by
        rw [hrun] at hlen
        simp only [reduceCtorEq, if_false, Nat.add_zero] at hlen
        split_ifs at hlen <;> omega
      have hroom : w.chans.done.length < w.chans.sub.doneCap := by omega
      have hs : w.chans.watcherEnds e =
          .returns { w.chans with done := w.chans.done ++ [e], watcher := .finished } := by
        simp [Chans.watcherEnds, Chans.sendDone, hD, hroom]
      have h2 := congrArg Watch.pos hfix
      unfold Watch.step at h2
      rw [hp] at h2
      simp only [hs] at h2
      simp at h2
    | returned => left; rfl
    | panicked => rw [hp] at hpos; exact absurd hpos (by simp [WatchPos])
  · show (Watch.run _ _).pos = _
    unfold matchWatcher
    rw [hsched]
  · show (Watch.run _ _).received = _
    unfold matchWatcher
    rw [hsched]
    simp

theorem C15_events_while_not_stopped_witness :
    Act.stop ∉ [Act.loop, Act.loop, Act.loop, Act.receive,
      Act.pingerEnds (some (.base "write: broken pipe")), Act.loop, Act.loop, Act.loop] ∧
    (watcherRun 1 ([tradeOne, tradeTwo].map Except.ok ++
        Except.error (.base "unexpected EOF") :: [])
      [Act.loop, Act.loop, Act.loop, Act.receive,
        Act.pingerEnds (some (.base "write: broken pipe")), Act.loop, Act.loop,
        Act.loop]).pos = .returned ∧
    ((watcherRun 1 ([tradeOne, tradeTwo].map Except.ok ++
        Except.error (.base "unexpected EOF") :: [])
      [Act.loop, Act.loop, Act.loop, Act.receive,
        Act.pingerEnds (some (.base "write: broken pipe")), Act.loop, Act.loop,
        Act.loop]).delivered = [tradeOne, tradeTwo] ∧
      (watcherRun 1 ([tradeOne, tradeTwo].map Except.ok ++
        Except.error (.base "unexpected EOF") :: [])
      [Act.loop, Act.loop, Act.loop, Act.receive,
        Act.pingerEnds (some (.base "write: broken pipe")), Act.loop, Act.loop,
        Act.loop]).unread = [] ∧
      some (ErrorfW "matchWatcher read failed: " (.base "unexpected EOF")) ∈
        (watcherRun 1 ([tradeOne, tradeTwo].map Except.ok ++
          Except.error (.base "unexpected EOF") :: [])
        [Act.loop, Act.loop, Act.loop, Act.receive,
          Act.pingerEnds (some (.base "write: broken pipe")), Act.loop, Act.loop,
          Act.loop]).chans.done ∧
      (watcherRun 1 ([tradeOne, tradeTwo].map Except.ok ++
        Except.error (.base "unexpected EOF") :: [])
      [Act.loop, Act.loop, Act.loop, Act.receive,
        Act.pingerEnds (some (.base "write: broken pipe")), Act.loop, Act.loop,
        Act.loop]).chans.watcher = .finished) :=
  ⟨by decide, by decide,
    (C15_events_while_not_stopped 1 [tradeOne, tradeTwo] (.base "unexpected EOF") []
      [Act.loop, Act.loop, Act.loop, Act.receive,
        Act.pingerEnds (some (.base "write: broken pipe")), Act.loop, Act.loop, Act.loop]
      (by decide)).2.2.1 (by decide)⟩

/-- C15 as stated fails. With `NewSubscription(conn, 1)`, the reads giving a
match, a second match and then an error, and a consumer that does not receive:
the loop decodes both matches, delivers the first and waits at the send of the
second, for as many steps as it is given. The second match, decoded before the
failing read, is not delivered; the failing read is not made and nothing is sent
on `done`. With `NewSubscription(conn, 0)` the first match is not delivered
either. -/
theorem C15_counterexample :
    ((watcherRun 1 [.ok tradeOne, .ok tradeTwo, .error (.base "unexpected EOF")]
        [Act.loop, Act.loop, Act.loop, Act.loop]).pos = .sendingC tradeTwo ∧
      (watcherRun 1 [.ok tradeOne, .ok tradeTwo, .error (.base "unexpected EOF")]
        [Act.loop, Act.loop, Act.loop, Act.loop]).delivered = [tradeOne] ∧
      (watcherRun 1 [.ok tradeOne, .ok tradeTwo, .error (.base "unexpected EOF")]
        [Act.loop, Act.loop, Act.loop, Act.loop]).chans.done = [] ∧
      (watcherRun 1 [.ok tradeOne, .ok tradeTwo, .error (.base "unexpected EOF")]
        [Act.loop, Act.loop, Act.loop, Act.loop]).unread.length = 1) ∧
    ((watcherRun 1 [.ok tradeOne, .ok tradeTwo, .error (.base "unexpected EOF")]
        (List.replicate 40 Act.loop)).pos = .sendingC tradeTwo ∧
      (watcherRun 1 [.ok tradeOne, .ok tradeTwo, .error (.base "unexpected EOF")]
        (List.replicate 40 Act.loop)).delivered = [tradeOne] ∧
      (watcherRun 1 [.ok tradeOne, .ok tradeTwo, .error (.base "unexpected EOF")]
        (List.replicate 40 Act.loop)).chans.done = []) ∧
    ((watcherRun 0 [.ok tradeOne, .error (.base "unexpected EOF")]
        (List.replicate 40 Act.loop)).pos = .sendingC tradeOne ∧
      (watcherRun 0 [.ok tradeOne, .error (.base "unexpected EOF")]
        (List.replicate 40 Act.loop)).delivered = [] ∧
      (watcherRun 0 [.ok tradeOne, .error (.base "unexpected EOF")]
        (List.replicate 40 Act.loop)).chans.done = []) :=
  ⟨⟨by decide, by decide, by decide, by decide⟩, ⟨by decide, by decide, by decide⟩,
    ⟨by decide, by decide, by decide⟩⟩

end coinbase

namespace coinbase

/-- C16 at the failing runs. On a started subscription, Stop waits while neither
task has reported. Once the read loop has ended on a failed read, Stop returns
and closes `C` and `done` while the pinger is still running, and the pinger's
later send on `done` panics. Likewise, once the pinger has ended, Stop returns
while the read loop is still running, and the loop's next send on `C`, or its
final send on `done`, panics. -/
theorem C16_Stop_waits_for_one_task :
    (Chans.start (NewSubscription 1)).Stop = .blocks ∧
    (∃ s1 s2,
      (Chans.start (NewSubscription 1)).watcherEnds
          (some (ErrorfW "matchWatcher read failed: " (.base "unexpected EOF"))) =
        .returns s1 ∧
      s1.watcher = .finished ∧ s1.pinger = .running ∧
      s1.Stop = .returns s2 ∧
      s2.pinger = .running ∧ s2.CClosed = true ∧ s2.doneClosed = true ∧
      s2.pingerEnds (some (.base "write: broken pipe")) = .panics) ∧
    (∃ s1 s2,
      (Chans.start (NewSubscription 1)).pingerEnds (some (.base "write: broken pipe")) =
        .returns s1 ∧
      s1.pinger = .finished ∧ s1.watcher = .running ∧
      s1.Stop = .returns s2 ∧
      s2.watcher = .running ∧ s2.CClosed = true ∧ s2.doneClosed = true ∧
      s2.watcherSends
          { Type_ := "match", TradeID := 1, Sequence := 1, MakerOrderID := "",
            TakerOrderID := "", Time := "", ProductID := "BTC-USD", Size := "1",
            Price := "1", Side := "buy" } = .panics ∧
      s2.watcherEnds
          (some (ErrorfW "matchWatcher read failed: " (.base "unexpected EOF"))) =
        .panics) :=
  ⟨by decide,
    ⟨{ sub := NewSubscription 1,
       done := [some (ErrorfW "matchWatcher read failed: " (.base "unexpected EOF"))],
       doneClosed := false, C := [], CClosed := false, watcher := .finished,
       pinger := .running },
     { sub := NewSubscription 1, done := [], doneClosed := true, C := [], CClosed := true,
       watcher := .finished, pinger := .running },
     by decide, by decide, by decide, by decide, by decide, by decide, by decide, by decide⟩,
    ⟨{ sub := NewSubscription 1, done := [some (.base "write: broken pipe")],
       doneClosed := false, C := [], CClosed := false, watcher := .running,
       pinger := .finished },
     { sub := NewSubscription 1, done := [], doneClosed := true, C := [], CClosed := true,
       watcher := .running, pinger := .finished },
     by decide, by decide, by decide, by decide, by decide, by decide, by decide, by decide,
     by decide⟩⟩

end coinbase
